import Mathlib

/-!
# The JSON document model of `jsonparser.cpp`

A shallow embedding of the value tree, the recursive-descent parser
(`json::JsonParser`) and the serializer (`json::JsonGenerator`).

Conventions of the embedding.

* A text (`std::string`, `std::string_view`) is a `List Char`, one `Char` for one `char`;
  a cursor is a `Nat`. The character tests are those of the C locale, and keys compare by
  character code, as the bytes of `std::string` do.
* `Node` is a single-field wrapper of `Value`; the two are identified.
* `Object` is `std::map<std::string, Node>`: its entries are kept as the list the map
  iterates over, in strictly ascending key order (`Value.wf`).
* A sub-parser returns `Res`: the `std::optional<Value>` it returned together with the
  cursor it left, or `fault` when an exception escapes it or it reads outside the
  buffer. The recursive functions take a fuel argument; `Res.outOfFuel` is the
  outcome of too little fuel and `parser` supplies `3 * size + 4`, which always suffices
  (`parser_fuel_adequate`).
* The view handed to `parser` is backed by a `std::string` as in `main`, so the byte at
  index `size()` is the terminating zero; an index past it is outside the buffer.
* `std::stod` and `std::to_string(double)` are parameters (`stod`, `fmt`).
-/

namespace json

/-! ## The embedding of the source -/

/-- A `double`: identified by its binary64 bit pattern, never interpreted. -/
structure Double where
  bits : Nat

/-- The variant `Value` (and the `Node` wrapping it). -/
inductive Value where
  | Null
  | Bool (b : Bool)
  | Int (n : Int)
  | Float (x : Double)
  | String (s : List Char)
  | Array (xs : List Value)
  | Object (kvs : List (List Char × Value))

/-- The struct `Node`, a wrapper of one `Value`. -/
abbrev Node := Value

/-- What a sub-parser did: returned an optional value leaving the cursor at `pos`,
let an exception escape or read outside the buffer, or ran out of fuel. -/
inductive Res where
  | ret (v : Option Value) (pos : Nat)
  | fault
  | outOfFuel

/-- What `parse` did: returned a Node, returned the empty optional, faulted. -/
inductive Outcome where
  | node (n : Node)
  | missing
  | fault
  | outOfFuel

/-- The double quote character. -/
def quote : Char := Char.ofNat 34

/-- The function `std::isspace` in the C locale: space, `\t`, `\n`, `\v`, `\f`, `\r`. -/
def isspace (c : Char) : Bool :=
  c.toNat = 32 || (9 ≤ c.toNat && c.toNat ≤ 13)

/-- The function `std::isdigit`. -/
def isdigit (c : Char) : Bool :=
  48 ≤ c.toNat && c.toNat ≤ 57

/-- The guard `pos < json_str.size() && p(json_str[pos])`. -/
def holds_at (s : List Char) (pos : Nat) (p : Char → Bool) : Bool :=
  match s[pos]? with
  | some c => p c
  | none => false

/-- The unguarded read `json_str[pos]`: the byte when `pos < size()`, the terminating
zero of the backing `std::string` when `pos = size()`, and `none` (a read outside the
buffer) beyond. -/
def char_at (s : List Char) (pos : Nat) : Option Char :=
  if pos ≤ s.length then some (s.getD pos (Char.ofNat 0)) else none

/-- The call `json_str.substr(pos, n)`: `none` when it throws `std::out_of_range`. -/
def substr (s : List Char) (pos n : Nat) : Option (List Char) :=
  if pos ≤ s.length then some ((s.drop pos).take n) else none

/-- The loop of `parse_whitespace`. -/
def whitespace_loop (s : List Char) : Nat → Nat → Nat
  | 0, pos => pos
  | fuel + 1, pos =>
    if holds_at s pos isspace then whitespace_loop s fuel (pos + 1) else pos

/-- The function `JsonParser::parse_whitespace`; the loop runs at most `size - pos` times. -/
def parse_whitespace (s : List Char) (pos : Nat) : Nat :=
  whitespace_loop s (s.length - pos) pos

/-- The function `JsonParser::parse_null`. -/
def parse_null (s : List Char) (pos : Nat) : Res :=
  match substr s pos 4 with
  | none => Res.fault
  | some w =>
    if w = "null".toList then Res.ret (some Value.Null) (pos + 4) else Res.ret none pos

/-- The function `JsonParser::parse_true`. -/
def parse_true (s : List Char) (pos : Nat) : Res :=
  match substr s pos 4 with
  | none => Res.fault
  | some w =>
    if w = "true".toList then Res.ret (some (Value.Bool true)) (pos + 4) else Res.ret none pos

/-- The function `JsonParser::parse_false`. -/
def parse_false (s : List Char) (pos : Nat) : Res :=
  match substr s pos 5 with
  | none => Res.fault
  | some w =>
    if w = "false".toList then Res.ret (some (Value.Bool false)) (pos + 5) else Res.ret none pos

/-- The base-10 value of a run of digits, as `strtol` accumulates it. -/
def digits_value (ds : List Char) : Nat :=
  ds.foldl (fun acc c => 10 * acc + (c.toNat - 48)) 0

/-- The sign and the rest of a numeric text after `strtol` has read an optional sign. -/
def strip_sign : List Char → Bool × List Char
  | c :: r => if c.toNat = 45 then (true, r) else if c.toNat = 43 then (false, r) else (false, c :: r)
  | [] => (false, [])

/-- The function `std::stoi` (base 10): leading white space, an optional sign, the longest
run of digits; `none` when it throws (`std::invalid_argument` without a digit,
`std::out_of_range` outside the range of `int`). -/
def stoi (str : List Char) : Option Int :=
  let body := strip_sign (str.dropWhile isspace)
  let ds := body.2.takeWhile isdigit
  if ds = [] then none
  else
    let v : Int := if body.1 then -(digits_value ds : Int) else (digits_value ds : Int)
    if v < -2147483648 ∨ 2147483647 < v then none else some v

/-- The character test of the scan in `parse_number`: a digit, `e` or `.`. -/
def number_char (c : Char) : Bool :=
  isdigit c || c.toNat = 101 || c.toNat = 46

/-- The scan loop of `parse_number`. -/
def number_loop (s : List Char) : Nat → Nat → Nat
  | 0, endpos => endpos
  | fuel + 1, endpos =>
    if holds_at s endpos number_char then number_loop s fuel (endpos + 1) else endpos

/-- The lambda `is_Float` of `parse_number`: the lexeme holds a `.` or an `e`. -/
def is_Float (number : List Char) : Bool :=
  number.any (fun c => c.toNat = 46) || number.any (fun c => c.toNat = 101)

/-- The function `JsonParser::parse_number`; `stod` is `std::stod`, `none` when it throws.
Both `catch (...)` blocks turn the exception into the empty optional. -/
def parse_number (stod : List Char → Option Double) (s : List Char) (pos : Nat) : Res :=
  let endpos := number_loop s (s.length - pos) pos
  match substr s pos (endpos - pos) with
  | none => Res.fault
  | some number =>
    if is_Float number then
      match stod number with
      | some ret => Res.ret (some (Value.Float ret)) endpos
      | none => Res.ret none endpos
    else
      match stoi number with
      | some ret => Res.ret (some (Value.Int ret)) endpos
      | none => Res.ret none endpos

/-- The scan loop of `parse_string`, `while (pos < size && json_str[endpos] != quote)`:
the bound tests `pos`, not `endpos`, so the read is unguarded; `none` when it leaves
the buffer. -/
def string_loop (s : List Char) (pos : Nat) : Nat → Nat → Option Nat
  | 0, _ => none
  | fuel + 1, endpos =>
    if pos < s.length then
      match char_at s endpos with
      | none => none
      | some c => if c ≠ quote then string_loop s pos fuel (endpos + 1) else some endpos
    else some endpos

/-- The function `JsonParser::parse_string`. The loop reads at most the indices
`pos .. size + 1`, so `size + 2` iterations are never used up. -/
def parse_string (s : List Char) (pos0 : Nat) : Res :=
  let pos := pos0 + 1
  match string_loop s pos (s.length + 2) pos with
  | none => Res.fault
  | some endpos =>
    match substr s pos (endpos - pos) with
    | none => Res.fault
    | some str => Res.ret (some (Value.String str)) (endpos + 1)

/-- The order of `std::string` keys in `std::map`: lexicographic by character. -/
def str_lt : List Char → List Char → Bool
  | _, [] => false
  | [], _ :: _ => true
  | a :: as, b :: bs => a.toNat < b.toNat || (a.toNat = b.toNat && str_lt as bs)

/-- The statement `obj[key] = val` on a `std::map`: the entry of an equivalent key is
overwritten, a new key is inserted at its place in the order. -/
def map_set : List (List Char × Value) → List Char → Value → List (List Char × Value)
  | [], k, v => [(k, v)]
  | (k1, v1) :: m, k, v =>
    if str_lt k k1 then (k, v) :: (k1, v1) :: m
    else if str_lt k1 k then (k1, v1) :: map_set m k v
    else (k1, v) :: m

section Parser

variable (stod : List Char → Option Double) (s : List Char)

mutual
/-- The function `JsonParser::parse_value`. -/
def parse_value : Nat → Nat → Res
  | 0, _ => Res.outOfFuel
  | fuel + 1, pos0 =>
    let pos := parse_whitespace s pos0
    match char_at s pos with
    | none => Res.fault
    | some c =>
      if c.toNat = 110 then parse_null s pos
      else if c.toNat = 116 then parse_true s pos
      else if c.toNat = 102 then parse_false s pos
      else if c.toNat = 34 then parse_string s pos
      else if c.toNat = 91 then parse_array fuel pos
      else if c.toNat = 123 then parse_object fuel pos
      else parse_number stod s pos
termination_by structural fuel => fuel
/-- The function `JsonParser::parse_array`. -/
def parse_array : Nat → Nat → Res
  | 0, _ => Res.outOfFuel
  | fuel + 1, pos => array_loop fuel [] (pos + 1)
termination_by structural fuel => fuel
/-- The loop of `parse_array` with the closing `pos++; return arr;`. The call
`value.value()` on an empty optional throws `std::bad_optional_access`. -/
def array_loop : Nat → List Value → Nat → Res
  | 0, _, _ => Res.outOfFuel
  | fuel + 1, arr, pos =>
    if holds_at s pos (fun c => c.toNat ≠ 93) then
      match parse_value fuel pos with
      | Res.ret (some value) p1 =>
        let p2 := parse_whitespace s p1
        let p3 := if holds_at s p2 (fun c => c.toNat = 44) then p2 + 1 else p2
        array_loop fuel (arr ++ [value]) (parse_whitespace s p3)
      | Res.ret none _ => Res.fault
      | Res.fault => Res.fault
      | Res.outOfFuel => Res.outOfFuel
    else Res.ret (some (Value.Array arr)) (pos + 1)
termination_by structural fuel => fuel
/-- The function `JsonParser::parse_object`. -/
def parse_object : Nat → Nat → Res
  | 0, _ => Res.outOfFuel
  | fuel + 1, pos => object_loop fuel [] (pos + 1)
termination_by structural fuel => fuel
/-- The loop of `parse_object` with the closing `pos++; return obj;`. Both
`key.value()` and `val.value()` throw on an empty optional. -/
def object_loop : Nat → List (List Char × Value) → Nat → Res
  | 0, _, _ => Res.outOfFuel
  | fuel + 1, obj, pos =>
    if holds_at s pos (fun c => c.toNat ≠ 125) then
      match parse_value fuel pos with
      | Res.ret key p1 =>
        let p2 := parse_whitespace s p1
        match key with
        | none => Res.fault
        | some (Value.String k) =>
          let p3 := if holds_at s p2 (fun c => c.toNat = 58) then p2 + 1 else p2
          match parse_value fuel (parse_whitespace s p3) with
          | Res.ret (some val) p4 =>
            let p5 := parse_whitespace s p4
            let p6 := if holds_at s p5 (fun c => c.toNat = 44) then p5 + 1 else p5
            object_loop fuel (map_set obj k val) (parse_whitespace s p6)
          | Res.ret none _ => Res.fault
          | Res.fault => Res.fault
          | Res.outOfFuel => Res.outOfFuel
        | some _ => Res.ret none p2
      | Res.fault => Res.fault
      | Res.outOfFuel => Res.outOfFuel
    else Res.ret (some (Value.Object obj)) (pos + 1)
termination_by structural fuel => fuel
end

/-- The function `JsonParser::parse`, on a parser whose cursor is 0. -/
def parse (fuel : Nat) : Outcome :=
  match parse_value stod s fuel (parse_whitespace s 0) with
  | Res.ret (some value) _ => Outcome.node value
  | Res.ret none _ => Outcome.missing
  | Res.fault => Outcome.fault
  | Res.outOfFuel => Outcome.outOfFuel

/-- The function `json::parser`. -/
def parser : Outcome :=
  parse stod s (3 * s.length + 4)

end Parser

/-- The decimal digit `d` as a character. -/
def digit_char (d : Nat) : Char := Char.ofNat (48 + d)

/-- The digits of `n`, most significant first, pushed in front of `acc`. -/
def to_string_loop : Nat → Nat → List Char → List Char
  | 0, _, acc => acc
  | fuel + 1, n, acc =>
    if n / 10 = 0 then digit_char (n % 10) :: acc
    else to_string_loop fuel (n / 10) (digit_char (n % 10) :: acc)

/-- The function `std::to_string` on an integer: canonical decimal text, with a
leading minus sign for a negative number. -/
def to_string (n : Int) : List Char :=
  if n < 0 then Char.ofNat 45 :: to_string_loop (n.natAbs + 1) n.natAbs []
  else to_string_loop (n.natAbs + 1) n.natAbs []

/-- The function `JsonGenerator::generate_string`. -/
def generate_string (str : List Char) : List Char :=
  [quote] ++ str ++ [quote]

/-- The end of `generate_array` and `generate_object`: `pop_back` unless the container
is empty, then the closing character. -/
def close_items (empty : Bool) (json_str : List Char) (close : Char) : List Char :=
  (if empty then json_str else json_str.dropLast) ++ [close]

section Generator

variable (fmt : Double → List Char)

mutual
/-- The function `JsonGenerator::generate`; `fmt` is `std::to_string` on a `double`.
The bodies of `generate_array` and `generate_object` are written out in place. -/
def generate : Value → List Char
  | Value.Null => "null".toList
  | Value.Bool arg => if arg then "true".toList else "false".toList
  | Value.Int arg => to_string arg
  | Value.Float arg => fmt arg
  | Value.String arg => generate_string arg
  | Value.Array arg => close_items arg.isEmpty (array_items arg [Char.ofNat 91]) (Char.ofNat 93)
  | Value.Object arg => close_items arg.isEmpty (object_items arg [Char.ofNat 123]) (Char.ofNat 125)
termination_by structural v => v
/-- The `for` loop of `generate_array`, appending to `json_str`. -/
def array_items : List Value → List Char → List Char
  | [], json_str => json_str
  | node :: rest, json_str => array_items rest (json_str ++ generate node ++ [Char.ofNat 44])
termination_by structural l => l
/-- The `for` loop of `generate_object`, appending to `json_str`. -/
def object_items : List (List Char × Value) → List Char → List Char
  | [], json_str => json_str
  | (key, node) :: rest, json_str =>
    object_items rest
      (json_str ++ generate_string key ++ [Char.ofNat 58] ++ generate node ++ [Char.ofNat 44])
termination_by structural l => l
end

/-- The function `JsonGenerator::generate_array`. -/
def generate_array (array : List Value) : List Char :=
  close_items array.isEmpty (array_items fmt array [Char.ofNat 91]) (Char.ofNat 93)

/-- The function `JsonGenerator::generate_object`. -/
def generate_object (object : List (List Char × Value)) : List Char :=
  close_items object.isEmpty (object_items fmt object [Char.ofNat 123]) (Char.ofNat 125)

end Generator

/-- The keys of a `std::map` in iteration order are strictly ascending. -/
def keys_ascending : List (List Char) → Bool
  | k1 :: k2 :: rest => str_lt k1 k2 && keys_ascending (k2 :: rest)
  | _ => true

mutual
/-- The representation invariant of the tree: the entries of every `Object` are in
strictly ascending key order, as a `std::map` holds them. -/
def Value.wf : Value → Bool
  | Value.Array xs => wf_list xs
  | Value.Object kvs => keys_ascending (kvs.map Prod.fst) && wf_members kvs
  | _ => true
termination_by structural v => v
/-- Every element of an array satisfies `Value.wf`. -/
def wf_list : List Value → Bool
  | [] => true
  | x :: xs => x.wf && wf_list xs
termination_by structural l => l
/-- Every value of an object satisfies `Value.wf`. -/
def wf_members : List (List Char × Value) → Bool
  | [] => true
  | (_, x) :: kvs => x.wf && wf_members kvs
termination_by structural l => l
end

mutual
/-- No `Float` occurs in the tree. -/
def Value.float_free : Value → Bool
  | Value.Float _ => false
  | Value.Array xs => float_free_list xs
  | Value.Object kvs => float_free_members kvs
  | _ => true
termination_by structural v => v
/-- No `Float` occurs in the elements. -/
def float_free_list : List Value → Bool
  | [] => true
  | x :: xs => x.float_free && float_free_list xs
termination_by structural l => l
/-- No `Float` occurs in the values. -/
def float_free_members : List (List Char × Value) → Bool
  | [] => true
  | (_, x) :: kvs => x.float_free && float_free_members kvs
termination_by structural l => l
end

/-- The text holds no double quote. -/
def quote_free (str : List Char) : Bool :=
  str.all (fun c => c != quote)

mutual
/-- The trees of the round trip: no `Float`, every `Int` in `0 .. 2147483647`, no
double quote in a `String` or in an `Object` key. -/
def Value.round_trip_class : Value → Bool
  | Value.Null => true
  | Value.Bool _ => true
  | Value.Int n => decide (0 ≤ n) && decide (n ≤ 2147483647)
  | Value.Float _ => false
  | Value.String str => quote_free str
  | Value.Array xs => class_list xs
  | Value.Object kvs => class_members kvs
termination_by structural v => v
/-- Every element is in the round-trip class. -/
def class_list : List Value → Bool
  | [] => true
  | x :: xs => x.round_trip_class && class_list xs
termination_by structural l => l
/-- Every key is free of double quotes and every value is in the round-trip class. -/
def class_members : List (List Char × Value) → Bool
  | [] => true
  | (k, x) :: kvs => quote_free k && x.round_trip_class && class_members kvs
termination_by structural l => l
end

/-! ## Notions used to state the theorems -/

/-- A text that is empty or starts with a character failing `p`. -/
def stops (p : Char → Bool) (r : List Char) : Prop :=
  ∀ c ∈ r.head?, p c = false

/-- The conversion that ends `parse_number`, for the lexeme `number` and the cursor
`endpos` behind it. -/
def number_result (stod : List Char → Option Double) (number : List Char) (endpos : Nat) :
    Res :=
  if is_Float number then
    match stod number with
    | some ret => Res.ret (some (Value.Float ret)) endpos
    | none => Res.ret none endpos
  else
    match stoi number with
    | some ret => Res.ret (some (Value.Int ret)) endpos
    | none => Res.ret none endpos

/-- A fragment of `std::stod` for concrete instances: the lexemes `7.0` and `7e1` convert to
the binary64 patterns of 7 and 70, every other text is rejected. -/
def stod_examples (str : List Char) : Option Double :=
  if str = "7.0".toList then some (Double.mk 4619567317775286272)
  else if str = "7e1".toList then some (Double.mk 4634626229029306368)
  else none

/-- The texts joined by `sep`, none after the last. -/
def join_with (sep : List Char) : List (List Char) → List Char
  | [] => []
  | [t] => t
  | t :: u :: rest => t ++ sep ++ join_with sep (u :: rest)

/-- The canonical decimal text of an integer, by the digits of `Nat.toDigits`. -/
def decimal (n : Int) : List Char :=
  if n < 0 then Char.ofNat 45 :: Nat.toDigits 10 n.natAbs else Nat.toDigits 10 n.natAbs

/-- Insertion of a pair into a list of pairs in ascending key order. -/
def insert_by_key (p : List Char × List Char) :
    List (List Char × List Char) → List (List Char × List Char)
  | [] => [p]
  | q :: rest => if str_lt q.1 p.1 then q :: insert_by_key p rest else p :: q :: rest

/-- The pairs in ascending key order. -/
def sort_by_key : List (List Char × List Char) → List (List Char × List Char)
  | [] => []
  | p :: rest => insert_by_key p (sort_by_key rest)

/-- The text of one pair of an object: the quoted key, a colon, the value's text. -/
def pair_text (p : List Char × List Char) : List Char :=
  [quote] ++ p.1 ++ [quote] ++ [Char.ofNat 58] ++ p.2

section Reference

variable (fmt : Double → List Char)

mutual
/-- The reference serializer, after the words of the specification: the literals, the
canonical decimal text, the quoted string, the elements joined by commas between brackets,
and the pairs in ascending key order joined by commas between braces. -/
def serialize : Value → List Char
  | Value.Null => "null".toList
  | Value.Bool b => if b then "true".toList else "false".toList
  | Value.Int n => decimal n
  | Value.Float x => fmt x
  | Value.String str => [quote] ++ str ++ [quote]
  | Value.Array xs => "[".toList ++ join_with ",".toList (serialize_list xs) ++ "]".toList
  | Value.Object kvs =>
    [Char.ofNat 123] ++
      join_with ",".toList ((sort_by_key (serialize_members kvs)).map pair_text) ++
      [Char.ofNat 125]
termination_by structural v => v
/-- The reference texts of the elements, in order. -/
def serialize_list : List Value → List (List Char)
  | [] => []
  | x :: xs => serialize x :: serialize_list xs
termination_by structural l => l
/-- The keys with the reference texts of their values. -/
def serialize_members : List (List Char × Value) → List (List Char × List Char)
  | [] => []
  | (k, x) :: kvs => (k, serialize x) :: serialize_members kvs
termination_by structural l => l
end

end Reference

/-- The text of a pair as `generate_object` writes it. -/
def member_text (fmt : Double → List Char) (kv : List Char × Value) : List Char :=
  generate_string kv.1 ++ [Char.ofNat 58] ++ generate fmt kv.2

/-- A `Node` default-constructs to `Null`. -/
instance : Inhabited Value := ⟨Value.Null⟩

/-- An element as the loop of `parse_array` meets it: the text of the value, the value
read from it, and the separator text between it and what follows. -/
structure Item where
  text : List Char
  val : Value
  sep : List Char

/-- The text of a run of elements. -/
def items_text : List Item → List Char
  | [] => []
  | i :: rest => i.text ++ i.sep ++ items_text rest

/-- A separator as the loops skip it: white space, at most one character `k`, white
space. -/
def is_sep (k : Nat) (sep : List Char) : Prop :=
  ∃ w1 w2, (∀ c ∈ w1, isspace c = true) ∧ (∀ c ∈ w2, isspace c = true) ∧
    (sep = w1 ++ w2 ∨ sep = w1 ++ [Char.ofNat k] ++ w2)

/-- The text `text`, followed by `follow`, is read by `parse_value` as the value `v`, the
cursor ending right behind `text`. -/
def parses_to (stod : List Char → Option Double) (text : List Char) (v : Value)
    (follow : List Char) : Prop :=
  ∀ (s : List Char) (pos : Nat), s.drop pos = text ++ follow →
    ∃ fuel, parse_value stod s fuel pos = Res.ret (some v) (pos + text.length)

/-- The text starts with a character that is no white space, no comma, no colon and not
the closing character `k`. -/
def starts_member (k : Nat) (text : List Char) : Prop :=
  ∃ c r, text = c :: r ∧ isspace c = false ∧ c.toNat ≠ 44 ∧ c.toNat ≠ 58 ∧ c.toNat ≠ k

/-- The text is empty or starts with the closing character `k`. -/
def closes (k : Nat) (tl : List Char) : Prop :=
  ∀ c ∈ tl.head?, c.toNat = k

/-- Every element of the run starts as a member, is read as its value in front of what
follows it, and is followed by a comma separator. -/
def array_items_ok (stod : List Char → Option Double) : List Item → List Char → Prop
  | [], _ => True
  | i :: rest, tl =>
    starts_member 93 i.text ∧ parses_to stod i.text i.val (i.sep ++ (items_text rest ++ tl)) ∧
      is_sep 44 i.sep ∧ array_items_ok stod rest tl

/-- A pair as the loop of `parse_object` meets it: the key between quotes, the separator
with the colon, the text of the value, the value read from it, and the separator text
between it and what follows. -/
structure Member where
  key : List Char
  colon : List Char
  text : List Char
  val : Value
  sep : List Char

/-- The text of a run of pairs. -/
def members_text : List Member → List Char
  | [] => []
  | m :: rest => generate_string m.key ++ m.colon ++ m.text ++ m.sep ++ members_text rest

/-- Every pair of the run has a key without a double quote and a colon separator, and its
value text starts as a member, is read as its value in front of what follows it, and is
followed by a comma separator. -/
def object_members_ok (stod : List Char → Option Double) : List Member → List Char → Prop
  | [], _ => True
  | m :: rest, tl =>
    quote_free m.key = true ∧ is_sep 58 m.colon ∧ starts_member 125 m.text ∧
      parses_to stod m.text m.val (m.sep ++ (members_text rest ++ tl)) ∧
      is_sep 44 m.sep ∧ object_members_ok stod rest tl

/-- The map after the assignments `obj[key] = val` of the pairs, in order. -/
def assign_all (obj : List (List Char × Value)) (ms : List Member) :
    List (List Char × Value) :=
  ms.foldl (fun m x => map_set m x.key x.val) obj

/-- The elements of a generated array as the loop of `parse_array` meets them: a comma
after each but the last. -/
def comma_items (fmt : Double → List Char) : List Value → List Item
  | [] => []
  | [x] => [Item.mk (generate fmt x) x []]
  | x :: y :: rest => Item.mk (generate fmt x) x [Char.ofNat 44] :: comma_items fmt (y :: rest)

/-- The pairs of a generated object as the loop of `parse_object` meets them: a colon after
the key, a comma after each pair but the last. -/
def comma_members (fmt : Double → List Char) : List (List Char × Value) → List Member
  | [] => []
  | [kv] => [Member.mk kv.1 [Char.ofNat 58] (generate fmt kv.2) kv.2 []]
  | kv :: kv2 :: rest =>
    Member.mk kv.1 [Char.ofNat 58] (generate fmt kv.2) kv.2 [Char.ofNat 44] ::
      comma_members fmt (kv2 :: rest)

/-- The map after the assignments `obj[key] = val` of the pairs of a list, in order. -/
def set_all (obj : List (List Char × Value)) (kvs : List (List Char × Value)) :
    List (List Char × Value) :=
  kvs.foldl (fun m kv => map_set m kv.1 kv.2) obj

/-- The value bound to a key in the map, if any. -/
def map_find : List (List Char × Value) → List Char → Option Value
  | [], _ => none
  | (k1, v1) :: m, k => if k1 = k then some v1 else map_find m k

/-- The value of the last pair of the list with the key `k`, if any. -/
def last_value : List (List Char × Value) → List Char → Option Value
  | [], _ => none
  | (k1, v1) :: rest, k =>
    match last_value rest k with
    | some v => some v
    | none => if k1 = k then some v1 else none

/-! ## The embedding of the mutation interface -/

/-- The call `(*object)[key]` of `std::map::operator[]`: the map after it, in which an
absent key is bound to a default-constructed Node, `Null`. -/
def map_index : List (List Char × Value) → List Char → List (List Char × Value)
  | [], k => [(k, Value.Null)]
  | (k1, v1) :: m, k =>
    if str_lt k k1 then (k, Value.Null) :: (k1, v1) :: m
    else if str_lt k1 k then (k1, v1) :: map_index m k
    else (k1, v1) :: m

/-- A store through the reference that `(*object)[key]` returned: the entry of `key` holds
`r` afterwards. -/
def map_write : List (List Char × Value) → List Char → Value → List (List Char × Value)
  | [], _, _ => []
  | (k1, v1) :: m, k, r => if k1 = k then (k1, r) :: m else (k1, v1) :: map_write m k r

/-- The function `Node::operator[](const std::string&)`: the Node after the call and the
Node that the returned reference designates; `none` when it throws
`std::runtime_error`. -/
def index_by_key (n : Node) (key : List Char) : Node × Option Node :=
  match n with
  | Value.Object object => (Value.Object (map_index object key), map_find (map_index object key) key)
  | _ => (n, none)

/-- The function `Node::operator[](size_t)`: the Node after the call and the copy it
returns; `none` when it throws, `std::runtime_error` on a Node that is no array and
`std::out_of_range` from `at`. -/
def index_by_position (n : Node) (index : Nat) : Node × Option Node :=
  match n with
  | Value.Array array => (n, array[index]?)
  | _ => (n, none)

/-- The function `Node::push`: the Node after the call. Its body has no `throw`; `none`
would stand for a thrown exception. -/
def push (n : Node) (rhs : Node) : Option Node :=
  match n with
  | Value.Array array => some (Value.Array (array ++ [rhs]))
  | _ => some n

/-- A store of `r` into the Node that `x[key]` designates. -/
def store_by_key (x : Node) (key : List Char) (r : Node) : Node :=
  match x with
  | Value.Object object => Value.Object (map_write object key r)
  | _ => x

/-- The statement `x[key].push(rhs)`; `none` when it throws. -/
def push_by_key (x : Node) (key : List Char) (rhs : Node) : Option Node :=
  match index_by_key x key with
  | (x1, some r) =>
    match push r rhs with
    | some r1 => some (store_by_key x1 key r1)
    | none => none
  | (_, none) => none

/-- The statement `x[key] = rhs`; `none` when it throws. -/
def assign_by_key (x : Node) (key : List Char) (rhs : Node) : Option Node :=
  match index_by_key x key with
  | (x1, some _) => some (store_by_key x1 key rhs)
  | (_, none) => none

/-- The two appends of `main`: `x["configurations"].push({true})` and
`x["configurations"].push({Null{}})`. -/
def main_appends (x : Node) : Option Node :=
  match push_by_key x "configurations".toList (Value.Bool true) with
  | some x1 => push_by_key x1 "configurations".toList Value.Null
  | none => none

/-- The mutations of `main`: the two appends, then `x["version"] = {114514LL}`. -/
def main_mutations (x : Node) : Option Node :=
  match main_appends x with
  | some x2 => assign_by_key x2 "version".toList (Value.Int 114514)
  | none => none

/-- The elements of an array text as the loop of `parse_array` meets them, with the
separator `sep` after each element but the last and the text `last` after the last. -/
def sep_items (fmt : Double → List Char) (sep last : List Char) : List Value → List Item
  | [] => []
  | [x] => [Item.mk (generate fmt x) x last]
  | x :: y :: rest =>
    Item.mk (generate fmt x) x sep :: sep_items fmt sep last (y :: rest)

/-- The texts of generated pairs, a colon after each key and a comma after each pair. -/
def pairs_text (fmt : Double → List Char) : List (List Char × Value) → List Char
  | [] => []
  | kv :: rest => member_text fmt kv ++ [Char.ofNat 44] ++ pairs_text fmt rest

/-- The pairs of `pairs_text` as the loop of `parse_object` meets them. -/
def pairs_members (fmt : Double → List Char) : List (List Char × Value) → List Member
  | [] => []
  | kv :: rest =>
    Member.mk kv.1 [Char.ofNat 58] (generate fmt kv.2) kv.2 [Char.ofNat 44] ::
      pairs_members fmt rest

section Spaced

variable (fmt : Double → List Char) (w : List Nat → List Char)

mutual
/-- The generated text of a tree with white space inserted between adjacent tokens: the
run `w (0 :: i :: p)` in front of the `i`-th member of the container at the path `p`, the
run `w (1 :: i :: p)` behind it, and the runs `w (2 :: i :: p)` and `w (3 :: i :: p)` in
front of and behind the colon of the `i`-th pair. An empty container is left as it is. -/
def spaced : List Nat → Value → List Char
  | _, Value.Null => "null".toList
  | _, Value.Bool arg => if arg then "true".toList else "false".toList
  | _, Value.Int arg => to_string arg
  | _, Value.Float arg => fmt arg
  | _, Value.String arg => generate_string arg
  | p, Value.Array arg => [Char.ofNat 91] ++ spaced_items p 0 arg ++ [Char.ofNat 93]
  | p, Value.Object arg => [Char.ofNat 123] ++ spaced_pairs p 0 arg ++ [Char.ofNat 125]
termination_by structural _ v => v
/-- The elements of an array with the inserted white space, from the `i`-th on. -/
def spaced_items : List Nat → Nat → List Value → List Char
  | _, _, [] => []
  | p, i, node :: rest =>
    w (0 :: i :: p) ++ spaced (i :: p) node ++ w (1 :: i :: p) ++
      (if rest.isEmpty then [] else [Char.ofNat 44]) ++ spaced_items p (i + 1) rest
termination_by structural _ _ l => l
/-- The pairs of an object with the inserted white space, from the `i`-th on. -/
def spaced_pairs : List Nat → Nat → List (List Char × Value) → List Char
  | _, _, [] => []
  | p, i, (key, node) :: rest =>
    w (0 :: i :: p) ++ generate_string key ++ w (2 :: i :: p) ++ [Char.ofNat 58] ++
      w (3 :: i :: p) ++ spaced (i :: p) node ++ w (1 :: i :: p) ++
      (if rest.isEmpty then [] else [Char.ofNat 44]) ++ spaced_pairs p (i + 1) rest
termination_by structural _ _ l => l
end

/-- The elements of a spaced array as the loop of `parse_array` meets them: behind an
element its white space, and the comma and the white space in front of the next one. -/
def sp_items : List Nat → Nat → List Value → List Item
  | _, _, [] => []
  | p, i, node :: rest =>
    Item.mk (spaced fmt w (i :: p) node) node
        (w (1 :: i :: p) ++
          (if rest.isEmpty then [] else [Char.ofNat 44] ++ w (0 :: (i + 1) :: p))) ::
      sp_items p (i + 1) rest

/-- The pairs of a spaced object as the loop of `parse_object` meets them. -/
def sp_members : List Nat → Nat → List (List Char × Value) → List Member
  | _, _, [] => []
  | p, i, kv :: rest =>
    Member.mk kv.1 (w (2 :: i :: p) ++ [Char.ofNat 58] ++ w (3 :: i :: p))
        (spaced fmt w (i :: p) kv.2) kv.2
        (w (1 :: i :: p) ++
          (if rest.isEmpty then [] else [Char.ofNat 44] ++ w (0 :: (i + 1) :: p))) ::
      sp_members p (i + 1) rest

end Spaced

/-- The four white space characters of JSON: space, tab, newline and carriage return. -/
def json_space (c : Char) : Bool :=
  c.toNat = 32 || c.toNat = 9 || c.toNat = 10 || c.toNat = 13

section Traced

variable (stod : List Char → Option Double) (s : List Char)

/-- The loop of `parse_array` as `array_loop`, together with the cursor positions at
which its iterations call `parse_value`, in order; an iteration calls it at the cursor
the iteration starts with. -/
def array_loop_traced : Nat → List Value → Nat → Res × List Nat
  | 0, _, _ => (Res.outOfFuel, [])
  | fuel + 1, arr, pos =>
    if holds_at s pos (fun c => c.toNat ≠ 93) then
      match parse_value stod s fuel pos with
      | Res.ret (some value) p1 =>
        let p2 := parse_whitespace s p1
        let p3 := if holds_at s p2 (fun c => c.toNat = 44) then p2 + 1 else p2
        let r := array_loop_traced fuel (arr ++ [value]) (parse_whitespace s p3)
        (r.1, pos :: r.2)
      | Res.ret none _ => (Res.fault, [pos])
      | Res.fault => (Res.fault, [pos])
      | Res.outOfFuel => (Res.outOfFuel, [pos])
    else (Res.ret (some (Value.Array arr)) (pos + 1), [])

/-- The loop of `parse_object` as `object_loop`, together with the cursor positions at
which its iterations call `parse_value`, in order: for the key at the cursor the iteration
starts with, then for the value. -/
def object_loop_traced : Nat → List (List Char × Value) → Nat → Res × List Nat
  | 0, _, _ => (Res.outOfFuel, [])
  | fuel + 1, obj, pos =>
    if holds_at s pos (fun c => c.toNat ≠ 125) then
      match parse_value stod s fuel pos with
      | Res.ret key p1 =>
        let p2 := parse_whitespace s p1
        match key with
        | none => (Res.fault, [pos])
        | some (Value.String k) =>
          let p3 := if holds_at s p2 (fun c => c.toNat = 58) then p2 + 1 else p2
          match parse_value stod s fuel (parse_whitespace s p3) with
          | Res.ret (some val) p4 =>
            let p5 := parse_whitespace s p4
            let p6 := if holds_at s p5 (fun c => c.toNat = 44) then p5 + 1 else p5
            let r := object_loop_traced fuel (map_set obj k val) (parse_whitespace s p6)
            (r.1, pos :: parse_whitespace s p3 :: r.2)
          | Res.ret none _ => (Res.fault, [pos, parse_whitespace s p3])
          | Res.fault => (Res.fault, [pos, parse_whitespace s p3])
          | Res.outOfFuel => (Res.outOfFuel, [pos, parse_whitespace s p3])
        | some _ => (Res.ret none p2, [pos])
      | Res.fault => (Res.fault, [pos])
      | Res.outOfFuel => (Res.outOfFuel, [pos])
    else (Res.ret (some (Value.Object obj)) (pos + 1), [])

/-- The function `parse_array` with the calls of its loop. -/
def parse_array_traced : Nat → Nat → Res × List Nat
  | 0, _ => (Res.outOfFuel, [])
  | fuel + 1, pos => array_loop_traced stod s fuel [] (pos + 1)

/-- The function `parse_object` with the calls of its loop. -/
def parse_object_traced : Nat → Nat → Res × List Nat
  | 0, _ => (Res.outOfFuel, [])
  | fuel + 1, pos => object_loop_traced stod s fuel [] (pos + 1)

/-- The function `parse_value` as in the embedding, together with the cursor positions of
the recursive calls of `parse_value` that this call makes through `parse_array` or
`parse_object`. -/
def parse_value_traced : Nat → Nat → Res × List Nat
  | 0, _ => (Res.outOfFuel, [])
  | fuel + 1, pos0 =>
    let pos := parse_whitespace s pos0
    match char_at s pos with
    | none => (Res.fault, [])
    | some c =>
      if c.toNat = 110 then (parse_null s pos, [])
      else if c.toNat = 116 then (parse_true s pos, [])
      else if c.toNat = 102 then (parse_false s pos, [])
      else if c.toNat = 34 then (parse_string s pos, [])
      else if c.toNat = 91 then parse_array_traced stod s fuel pos
      else if c.toNat = 123 then parse_object_traced stod s fuel pos
      else (parse_number stod s pos, [])

end Traced

/-! ## Reading the text at a cursor -/

theorem getElem?_of_drop {s : List Char} {pos : Nat} {c : Char} {r : List Char}
    (h : s.drop pos = c :: r) : s[pos]? = some c := by
  rw [← List.head?_drop, h]; rfl

theorem lt_length_of_drop {s : List Char} {pos : Nat} {c : Char} {r : List Char}
    (h : s.drop pos = c :: r) : pos < s.length := by
  by_contra hn
  rw [List.drop_eq_nil_of_le (by omega)] at h
  cases h

theorem drop_succ_of_drop {s : List Char} {pos : Nat} {c : Char} {r : List Char}
    (h : s.drop pos = c :: r) : s.drop (pos + 1) = r := by
  rw [← List.tail_drop, h]; rfl

theorem drop_add_of_drop {s : List Char} {pos : Nat} {a r : List Char}
    (h : s.drop pos = a ++ r) : s.drop (pos + a.length) = r := by
  rw [← List.drop_drop, h, List.drop_left]

theorem le_length_of_drop {s : List Char} {pos : Nat} {a r : List Char}
    (hle : pos ≤ s.length) (h : s.drop pos = a ++ r) : pos + a.length ≤ s.length := by
  have h1 : (s.drop pos).length = (a ++ r).length := by rw [h]
  rw [List.length_drop, List.length_append] at h1
  omega

theorem holds_at_of_drop {s : List Char} {pos : Nat} {c : Char} {r : List Char}
    (h : s.drop pos = c :: r) (p : Char → Bool) : holds_at s pos p = p c := by
  unfold holds_at; rw [getElem?_of_drop h]

theorem holds_at_of_drop_nil {s : List Char} {pos : Nat}
    (h : s.drop pos = []) (p : Char → Bool) : holds_at s pos p = false := by
  unfold holds_at
  rw [List.getElem?_eq_none (List.drop_eq_nil_iff.mp h)]

theorem holds_at_lt {s : List Char} {pos : Nat} {p : Char → Bool}
    (h : holds_at s pos p = true) : pos < s.length := by
  unfold holds_at at h
  by_contra hn
  rw [List.getElem?_eq_none (by omega)] at h
  cases h

theorem char_at_of_drop {s : List Char} {pos : Nat} {c : Char} {r : List Char}
    (h : s.drop pos = c :: r) : char_at s pos = some c := by
  have hlt := lt_length_of_drop h
  have h1 := getElem?_of_drop h
  unfold char_at
  rw [if_pos (by omega), List.getD_eq_getElem?_getD, h1]; rfl

theorem char_at_of_drop_nil {s : List Char} {pos : Nat}
    (hle : pos ≤ s.length) (h : s.drop pos = []) : char_at s pos = some (Char.ofNat 0) := by
  unfold char_at
  rw [if_pos hle, List.getD_eq_getElem?_getD, List.getElem?_eq_none (List.drop_eq_nil_iff.mp h)]
  rfl

theorem substr_of_drop {s : List Char} {pos : Nat} {a r : List Char}
    (h : s.drop pos = a ++ r) (hle : pos ≤ s.length) : substr s pos a.length = some a := by
  unfold substr
  rw [if_pos hle, h, List.take_left]

theorem substr_zero {s : List Char} {pos : Nat} (hle : pos ≤ s.length) :
    substr s pos 0 = some [] := by
  unfold substr
  rw [if_pos hle]; rfl

/-! ## The scanning loops -/

theorem whitespace_loop_eq (s : List Char) : ∀ (fuel pos : Nat), s.length - pos ≤ fuel →
    whitespace_loop s fuel pos = pos + ((s.drop pos).takeWhile isspace).length := by
  intro fuel
  induction fuel with
  | zero =>
    intro pos h
    rw [List.drop_eq_nil_of_le (by omega)]
    simp [whitespace_loop]
  | succ n ih =>
    intro pos h
    unfold whitespace_loop
    rcases hd : s.drop pos with _ | ⟨c, r⟩
    · rw [holds_at_of_drop_nil hd]; simp
    · rw [holds_at_of_drop hd]
      have hlt := lt_length_of_drop hd
      by_cases hc : isspace c = true
      · rw [if_pos hc, ih (pos + 1) (by omega), drop_succ_of_drop hd, List.takeWhile_cons, if_pos hc]
        simp; omega
      · rw [if_neg hc, List.takeWhile_cons, if_neg hc]; simp

theorem parse_whitespace_eq (s : List Char) (pos : Nat) :
    parse_whitespace s pos = pos + ((s.drop pos).takeWhile isspace).length :=
  whitespace_loop_eq s _ pos (le_refl _)

theorem parse_whitespace_ge (s : List Char) (pos : Nat) : pos ≤ parse_whitespace s pos := by
  rw [parse_whitespace_eq]; omega

theorem stops_nil (p : Char → Bool) : stops p [] := by
  intro c hc; cases hc

theorem stops_cons {p : Char → Bool} {c : Char} (r : List Char) (h : p c = false) :
    stops p (c :: r) := by
  intro d hd
  simp at hd
  rw [← hd]; exact h

theorem takeWhile_append_stops {p : Char → Bool} {w r : List Char}
    (hw : ∀ c ∈ w, p c = true) (hr : stops p r) : (w ++ r).takeWhile p = w := by
  induction w with
  | nil =>
    cases r with
    | nil => rfl
    | cons c r =>
      have := hr c (by simp)
      simp [List.takeWhile_cons, this]
  | cons a w ih =>
    have ha := hw a (by simp)
    simp only [List.cons_append, List.takeWhile_cons, ha, if_true]
    rw [ih (fun c hc => hw c (by simp [hc]))]

theorem parse_whitespace_of_drop {s : List Char} {pos : Nat} {w r : List Char}
    (h : s.drop pos = w ++ r) (hw : ∀ c ∈ w, isspace c = true) (hr : stops isspace r) :
    parse_whitespace s pos = pos + w.length := by
  rw [parse_whitespace_eq, h, takeWhile_append_stops hw hr]

theorem parse_whitespace_of_stops {s : List Char} {pos : Nat}
    (hr : stops isspace (s.drop pos)) : parse_whitespace s pos = pos := by
  have := @parse_whitespace_of_drop s pos [] (s.drop pos) rfl
    (by intro c hc; cases hc) hr
  simpa using this

theorem number_loop_eq (s : List Char) : ∀ (fuel pos : Nat), s.length - pos ≤ fuel →
    number_loop s fuel pos = pos + ((s.drop pos).takeWhile number_char).length := by
  intro fuel
  induction fuel with
  | zero =>
    intro pos h
    rw [List.drop_eq_nil_of_le (by omega)]
    simp [number_loop]
  | succ n ih =>
    intro pos h
    unfold number_loop
    rcases hd : s.drop pos with _ | ⟨c, r⟩
    · rw [holds_at_of_drop_nil hd]; simp
    · rw [holds_at_of_drop hd]
      have hlt := lt_length_of_drop hd
      by_cases hc : number_char c = true
      · rw [if_pos hc, ih (pos + 1) (by omega), drop_succ_of_drop hd, List.takeWhile_cons, if_pos hc]
        simp; omega
      · rw [if_neg hc, List.takeWhile_cons, if_neg hc]; simp

theorem quote_toNat : quote.toNat = 34 := by decide

theorem zero_ne_quote : Char.ofNat 0 ≠ quote := by decide

theorem string_loop_found {s : List Char} {pos : Nat} (hpos : pos < s.length) :
    ∀ (pre : List Char) (fuel endpos : Nat) (r : List Char),
      s.drop endpos = pre ++ quote :: r → (∀ c ∈ pre, c ≠ quote) → pre.length < fuel →
      string_loop s pos fuel endpos = some (endpos + pre.length) := by
  intro pre
  induction pre with
  | nil =>
    intro fuel endpos r h _ hf
    obtain ⟨n, rfl⟩ : ∃ n, fuel = n + 1 := ⟨fuel - 1, by simp at hf; omega⟩
    unfold string_loop
    rw [if_pos hpos, char_at_of_drop h]
    simp
  | cons a pre ih =>
    intro fuel endpos r h hq hf
    obtain ⟨n, rfl⟩ : ∃ n, fuel = n + 1 := ⟨fuel - 1, by simp at hf; omega⟩
    unfold string_loop
    rw [if_pos hpos, char_at_of_drop h]
    have ha : a ≠ quote := hq a (by simp)
    simp only [ha, ne_eq, not_false_eq_true, if_true]
    rw [ih n (endpos + 1) r (drop_succ_of_drop h) (fun c hc => hq c (by simp [hc]))
      (by simp at hf; omega)]
    simp; omega

theorem string_loop_past_end {s : List Char} {pos : Nat} (hpos : pos < s.length) :
    ∀ (fuel endpos : Nat), (∀ c ∈ s.drop endpos, c ≠ quote) →
      string_loop s pos fuel endpos = none := by
  intro fuel
  induction fuel with
  | zero => intro endpos _; rfl
  | succ n ih =>
    intro endpos h
    unfold string_loop
    rw [if_pos hpos]
    rcases hd : s.drop endpos with _ | ⟨c, r⟩
    · by_cases hle : endpos ≤ s.length
      · rw [char_at_of_drop_nil hle hd]
        simp only [zero_ne_quote, ne_eq, not_false_eq_true, if_true]
        apply ih
        rw [List.drop_eq_nil_of_le (by have := List.drop_eq_nil_iff.mp hd; omega)]
        intro c hc; cases hc
      · unfold char_at
        rw [if_neg hle]
    · rw [char_at_of_drop hd]
      have hc : c ≠ quote := h c (by rw [hd]; simp)
      simp only [hc, ne_eq, not_false_eq_true, if_true]
      apply ih
      rw [drop_succ_of_drop hd]
      intro d hdm
      exact h d (by rw [hd]; simp [hdm])

theorem string_loop_at_end {s : List Char} {pos : Nat} (hpos : ¬ pos < s.length)
    (fuel endpos : Nat) : string_loop s pos (fuel + 1) endpos = some endpos := by
  unfold string_loop
  rw [if_neg hpos]

/-- With the iterations `parse_string` allows, the scan fails exactly when it leaves the
buffer: the cursor is inside the text and no double quote follows it. -/
theorem string_loop_none_iff (s : List Char) (pos : Nat) :
    string_loop s pos (s.length + 2) pos = none ↔
      pos < s.length ∧ ∀ c ∈ s.drop pos, c ≠ quote := by
  constructor
  · intro h
    by_cases hpos : pos < s.length
    · refine ⟨hpos, ?_⟩
      by_contra hq
      have hsplit : s.drop pos = (s.drop pos).takeWhile (fun c => c != quote) ++
          (s.drop pos).dropWhile (fun c => c != quote) :=
        (List.takeWhile_append_dropWhile _ _).symm
      have hpre : ∀ c ∈ (s.drop pos).takeWhile (fun c => c != quote), c ≠ quote := by
        intro c hc
        have := List.mem_takeWhile_imp hc
        simpa using this
      cases hdw : (s.drop pos).dropWhile (fun c => c != quote) with
      | nil =>
        rw [hdw, List.append_nil] at hsplit
        apply hq
        intro c hc
        rw [hsplit] at hc
        exact hpre c hc
      | cons d r =>
        have hd : d = quote := by
          have := List.head_dropWhile_not (fun c => c != quote) (s.drop pos)
            (by rw [hdw]; simp)
          simp only [hdw, List.head_cons] at this
          simpa using this
        rw [hdw, hd] at hsplit
        have hlen : ((s.drop pos).takeWhile (fun c => c != quote)).length < s.length + 2 := by
          have h1 : (s.drop pos).length = ((s.drop pos).takeWhile (fun c => c != quote) ++
              quote :: r).length := by rw [← hsplit]
          rw [List.length_drop, List.length_append] at h1
          omega
        rw [string_loop_found hpos _ _ _ r hsplit hpre hlen] at h
        cases h
    · rw [string_loop_at_end hpos] at h
      cases h
  · rintro ⟨hpos, hq⟩
    exact string_loop_past_end hpos _ _ hq

/-! ## Numbers -/

theorem digit_char_toNat {d : Nat} (h : d < 10) : (digit_char d).toNat = 48 + d := by
  unfold digit_char
  interval_cases d <;> rfl

theorem isdigit_digit_char {d : Nat} (h : d < 10) : isdigit (digit_char d) = true := by
  unfold isdigit
  rw [digit_char_toNat h]
  simp; omega

theorem digits_value_append (ds : List Char) (c : Char) :
    digits_value (ds ++ [c]) = 10 * digits_value ds + (c.toNat - 48) := by
  unfold digits_value
  rw [List.foldl_append]; rfl

theorem to_string_loop_spec : ∀ (fuel n : Nat) (acc : List Char), n < fuel →
    ∃ ds, to_string_loop fuel n acc = ds ++ acc ∧ ds ≠ [] ∧
      (∀ c ∈ ds, isdigit c = true) ∧ digits_value ds = n := by
  intro fuel
  induction fuel with
  | zero => intro n acc h; omega
  | succ k ih =>
    intro n acc h
    unfold to_string_loop
    have hmod : n % 10 < 10 := Nat.mod_lt _ (by omega)
    by_cases h0 : n / 10 = 0
    · rw [if_pos h0]
      refine ⟨[digit_char (n % 10)], rfl, by simp, ?_, ?_⟩
      · intro c hc
        simp at hc
        rw [hc]; exact isdigit_digit_char hmod
      · have := digits_value_append [] (digit_char (n % 10))
        simp only [List.nil_append] at this
        rw [this, digit_char_toNat hmod]
        simp [digits_value]
        omega
    · rw [if_neg h0]
      obtain ⟨ds, h1, _, h3, h4⟩ := ih (n / 10) (digit_char (n % 10) :: acc) (by omega)
      refine ⟨ds ++ [digit_char (n % 10)], by rw [h1]; simp, by simp, ?_, ?_⟩
      · intro c hc
        rcases List.mem_append.mp hc with hc | hc
        · exact h3 c hc
        · simp at hc
          rw [hc]; exact isdigit_digit_char hmod
      · rw [digits_value_append, h4, digit_char_toNat hmod]
        omega

theorem to_string_spec {n : Int} (h : 0 ≤ n) :
    to_string n ≠ [] ∧ (∀ c ∈ to_string n, isdigit c = true) ∧
      (digits_value (to_string n) : Int) = n := by
  unfold to_string
  rw [if_neg (by omega)]
  obtain ⟨ds, h1, h2, h3, h4⟩ := to_string_loop_spec (n.natAbs + 1) n.natAbs [] (by omega)
  rw [h1, List.append_nil]
  refine ⟨h2, h3, ?_⟩
  rw [h4]; omega

theorem to_string_neg {n : Int} (h : n < 0) :
    ∃ ds, to_string n = Char.ofNat 45 :: ds := by
  unfold to_string
  rw [if_pos h]
  exact ⟨_, rfl⟩

theorem isdigit_not_isspace {c : Char} (h : isdigit c = true) : isspace c = false := by
  unfold isdigit at h
  unfold isspace
  simp at h ⊢
  omega

theorem isdigit_number_char {c : Char} (h : isdigit c = true) : number_char c = true := by
  unfold number_char
  simp [h]

theorem takeWhile_all {p : Char → Bool} {ds : List Char} (h : ∀ c ∈ ds, p c = true) :
    ds.takeWhile p = ds := by
  have := takeWhile_append_stops (r := []) h (stops_nil p)
  simpa using this

theorem dropWhile_of_stops {p : Char → Bool} {r : List Char} (h : stops p r) :
    r.dropWhile p = r := by
  cases r with
  | nil => rfl
  | cons c r =>
    have := h c (by simp)
    simp [List.dropWhile_cons, this]

theorem stoi_digits {ds : List Char} (hne : ds ≠ []) (hd : ∀ c ∈ ds, isdigit c = true) :
    stoi ds = if digits_value ds ≤ 2147483647 then some (digits_value ds : Int) else none := by
  obtain ⟨c, r, rfl⟩ := List.exists_cons_of_ne_nil hne
  have hc := hd c (by simp)
  have hsp : (c :: r).dropWhile isspace = c :: r :=
    dropWhile_of_stops (stops_cons r (isdigit_not_isspace hc))
  have hsign : strip_sign (c :: r) = (false, c :: r) := by
    unfold isdigit at hc
    simp at hc
    have h45 : ¬ c.toNat = 45 := by omega
    have h43 : ¬ c.toNat = 43 := by omega
    simp only [strip_sign, h45, h43, if_false]
  unfold stoi
  simp only [hsp, hsign, takeWhile_all hd]
  simp only [reduceCtorEq, if_false, Bool.false_eq_true]
  by_cases hv : digits_value (c :: r) ≤ 2147483647
  · rw [if_pos hv, if_neg (by omega)]
  · rw [if_neg hv, if_pos (by omega)]

theorem stoi_nil : stoi [] = none := by decide

theorem is_Float_digits {ds : List Char} (hd : ∀ c ∈ ds, isdigit c = true) :
    is_Float ds = false := by
  unfold is_Float
  simp only [Bool.or_eq_false_iff, List.any_eq_false, decide_eq_true_eq]
  constructor <;>
  · intro c hc
    have := hd c hc
    unfold isdigit at this
    simp at this
    omega

theorem is_Float_nil : is_Float [] = false := by decide

section
variable (stod : List Char → Option Double) (s : List Char)

theorem parse_value_succ (fuel pos0 : Nat) :
    parse_value stod s (fuel + 1) pos0 =
      match char_at s (parse_whitespace s pos0) with
      | none => Res.fault
      | some c =>
        if c.toNat = 110 then parse_null s (parse_whitespace s pos0)
        else if c.toNat = 116 then parse_true s (parse_whitespace s pos0)
        else if c.toNat = 102 then parse_false s (parse_whitespace s pos0)
        else if c.toNat = 34 then parse_string s (parse_whitespace s pos0)
        else if c.toNat = 91 then parse_array stod s fuel (parse_whitespace s pos0)
        else if c.toNat = 123 then parse_object stod s fuel (parse_whitespace s pos0)
        else parse_number stod s (parse_whitespace s pos0) := by
  rfl

theorem parse_array_succ (fuel pos : Nat) :
    parse_array stod s (fuel + 1) pos = array_loop stod s fuel [] (pos + 1) := by
  rfl

theorem parse_object_succ (fuel pos : Nat) :
    parse_object stod s (fuel + 1) pos = object_loop stod s fuel [] (pos + 1) := by
  rfl

theorem array_loop_succ (fuel : Nat) (arr : List Value) (pos : Nat) :
    array_loop stod s (fuel + 1) arr pos =
      if holds_at s pos (fun c => c.toNat ≠ 93) then
        match parse_value stod s fuel pos with
        | Res.ret (some value) p1 =>
          array_loop stod s fuel (arr ++ [value])
            (parse_whitespace s
              (if holds_at s (parse_whitespace s p1) (fun c => c.toNat = 44)
                then parse_whitespace s p1 + 1 else parse_whitespace s p1))
        | Res.ret none _ => Res.fault
        | Res.fault => Res.fault
        | Res.outOfFuel => Res.outOfFuel
      else Res.ret (some (Value.Array arr)) (pos + 1) := by
  rfl

theorem object_loop_succ (fuel : Nat) (obj : List (List Char × Value)) (pos : Nat) :
    object_loop stod s (fuel + 1) obj pos =
      if holds_at s pos (fun c => c.toNat ≠ 125) then
        match parse_value stod s fuel pos with
        | Res.ret key p1 =>
          match key with
          | none => Res.fault
          | some (Value.String k) =>
            match parse_value stod s fuel
                (parse_whitespace s
                  (if holds_at s (parse_whitespace s p1) (fun c => c.toNat = 58)
                    then parse_whitespace s p1 + 1 else parse_whitespace s p1)) with
            | Res.ret (some val) p4 =>
              object_loop stod s fuel (map_set obj k val)
                (parse_whitespace s
                  (if holds_at s (parse_whitespace s p4) (fun c => c.toNat = 44)
                    then parse_whitespace s p4 + 1 else parse_whitespace s p4))
            | Res.ret none _ => Res.fault
            | Res.fault => Res.fault
            | Res.outOfFuel => Res.outOfFuel
          | some _ => Res.ret none (parse_whitespace s p1)
        | Res.fault => Res.fault
        | Res.outOfFuel => Res.outOfFuel
      else Res.ret (some (Value.Object obj)) (pos + 1) := by
  rfl

theorem fuel_step : ∀ (fuel : Nat),
    (∀ pos, parse_value stod s fuel pos ≠ Res.outOfFuel →
      parse_value stod s (fuel + 1) pos = parse_value stod s fuel pos) ∧
    (∀ pos, parse_array stod s fuel pos ≠ Res.outOfFuel →
      parse_array stod s (fuel + 1) pos = parse_array stod s fuel pos) ∧
    (∀ arr pos, array_loop stod s fuel arr pos ≠ Res.outOfFuel →
      array_loop stod s (fuel + 1) arr pos = array_loop stod s fuel arr pos) ∧
    (∀ pos, parse_object stod s fuel pos ≠ Res.outOfFuel →
      parse_object stod s (fuel + 1) pos = parse_object stod s fuel pos) ∧
    (∀ obj pos, object_loop stod s fuel obj pos ≠ Res.outOfFuel →
      object_loop stod s (fuel + 1) obj pos = object_loop stod s fuel obj pos) := by
  intro fuel
  induction fuel with
  | zero =>
    refine ⟨?_, ?_, ?_, ?_, ?_⟩ <;> intros <;> exact absurd rfl ‹_›
  | succ n ih =>
    obtain ⟨ihv, iha, ihal, iho, ihol⟩ := ih
    refine ⟨?_, ?_, ?_, ?_, ?_⟩
    · intro pos h
      rw [parse_value_succ] at h
      rw [parse_value_succ stod s (n + 1), parse_value_succ stod s n]
      cases hc : char_at s (parse_whitespace s pos) with
      | none => rfl
      | some c =>
        rw [hc] at h
        simp only at h ⊢
        split_ifs at h ⊢ <;> first | rfl | exact iha _ h | exact iho _ h
    · intro pos h
      rw [parse_array_succ] at h
      rw [parse_array_succ stod s (n + 1), parse_array_succ stod s n]
      exact ihal _ _ h
    · intro arr pos h
      rw [array_loop_succ] at h
      rw [array_loop_succ stod s (n + 1), array_loop_succ stod s n]
      by_cases hg : holds_at s pos (fun c => c.toNat ≠ 93) = true
      · rw [if_pos hg] at h ⊢
        rw [if_pos hg]
        have hv : parse_value stod s n pos ≠ Res.outOfFuel := by
          intro hv; rw [hv] at h; exact h rfl
        rw [ihv pos hv]
        cases hr : parse_value stod s n pos with
        | ret v p1 =>
          rw [hr] at h
          cases v with
          | none => rfl
          | some value => exact ihal _ _ h
        | fault => rfl
        | outOfFuel => rfl
      · rw [if_neg hg, if_neg hg]
    · intro pos h
      rw [parse_object_succ] at h
      rw [parse_object_succ stod s (n + 1), parse_object_succ stod s n]
      exact ihol _ _ h
    · intro obj pos h
      rw [object_loop_succ] at h
      rw [object_loop_succ stod s (n + 1), object_loop_succ stod s n]
      by_cases hg : holds_at s pos (fun c => c.toNat ≠ 125) = true
      · rw [if_pos hg] at h ⊢
        rw [if_pos hg]
        have hv : parse_value stod s n pos ≠ Res.outOfFuel := by
          intro hv; rw [hv] at h; exact h rfl
        rw [ihv pos hv]
        cases hr : parse_value stod s n pos with
        | ret key p1 =>
          rw [hr] at h
          cases key with
          | none => rfl
          | some kv =>
            cases kv with
            | String k =>
              simp only at h ⊢
              generalize hq : parse_whitespace s
                (if holds_at s (parse_whitespace s p1) (fun c => decide (c.toNat = 58)) = true
                  then parse_whitespace s p1 + 1 else parse_whitespace s p1) = q at h ⊢
              have hv2 : parse_value stod s n q ≠ Res.outOfFuel := by
                intro hv2; rw [hv2] at h; exact h rfl
              rw [ihv q hv2]
              cases hr2 : parse_value stod s n q with
              | ret val p4 =>
                rw [hr2] at h
                cases val with
                | none => rfl
                | some val => exact ihol _ _ h
              | fault => rfl
              | outOfFuel => rfl
            | _ => rfl
        | fault => rfl
        | outOfFuel => rfl
      · rw [if_neg hg, if_neg hg]

theorem parse_value_mono {fuel fuel2 : Nat} {pos : Nat} {r : Res} (hle : fuel ≤ fuel2)
    (h : parse_value stod s fuel pos = r) (hr : r ≠ Res.outOfFuel) :
    parse_value stod s fuel2 pos = r := by
  induction hle with
  | refl => exact h
  | step _ ih =>
    rw [(fuel_step stod s _).1 pos (by rw [ih]; exact hr)]
    exact ih

theorem array_loop_mono {fuel fuel2 : Nat} {arr : List Value} {pos : Nat} {r : Res}
    (hle : fuel ≤ fuel2) (h : array_loop stod s fuel arr pos = r) (hr : r ≠ Res.outOfFuel) :
    array_loop stod s fuel2 arr pos = r := by
  induction hle with
  | refl => exact h
  | step _ ih =>
    rw [(fuel_step stod s _).2.2.1 arr pos (by rw [ih]; exact hr)]
    exact ih

theorem object_loop_mono {fuel fuel2 : Nat} {obj : List (List Char × Value)} {pos : Nat}
    {r : Res} (hle : fuel ≤ fuel2) (h : object_loop stod s fuel obj pos = r)
    (hr : r ≠ Res.outOfFuel) : object_loop stod s fuel2 obj pos = r := by
  induction hle with
  | refl => exact h
  | step _ ih =>
    rw [(fuel_step stod s _).2.2.2.2 obj pos (by rw [ih]; exact hr)]
    exact ih

end

/-! ## Every successful sub-parse advances the cursor -/

theorem char_at_lt {s : List Char} {pos : Nat} {c : Char}
    (h : char_at s pos = some c) (hc : c.toNat ≠ 0) : pos < s.length := by
  unfold char_at at h
  by_cases hle : pos ≤ s.length
  · rw [if_pos hle] at h
    by_contra hn
    have : pos = s.length := by omega
    subst this
    rw [List.getD_eq_getElem?_getD, List.getElem?_eq_none (le_refl _)] at h
    simp at h
    rw [← h] at hc
    exact hc rfl
  · rw [if_neg hle] at h
    cases h

theorem char_at_drop {s : List Char} {pos : Nat} {c : Char}
    (h : char_at s pos = some c) (hc : c.toNat ≠ 0) : ∃ r, s.drop pos = c :: r := by
  have hlt := char_at_lt h hc
  refine ⟨s.drop (pos + 1), ?_⟩
  rw [List.drop_eq_getElem_cons hlt]
  unfold char_at at h
  rw [if_pos (by omega), List.getD_eq_getElem _ _ hlt] at h
  simp at h
  rw [h]

theorem parse_null_cases (s : List Char) (pos : Nat) :
    parse_null s pos = Res.fault ∨ parse_null s pos = Res.ret none pos ∨
      parse_null s pos = Res.ret (some Value.Null) (pos + 4) := by
  unfold parse_null
  cases substr s pos 4 with
  | none => exact Or.inl rfl
  | some w =>
    simp only
    by_cases hw : w = "null".toList
    · rw [if_pos hw]; exact Or.inr (Or.inr rfl)
    · rw [if_neg hw]; exact Or.inr (Or.inl rfl)

theorem parse_true_cases (s : List Char) (pos : Nat) :
    parse_true s pos = Res.fault ∨ parse_true s pos = Res.ret none pos ∨
      parse_true s pos = Res.ret (some (Value.Bool true)) (pos + 4) := by
  unfold parse_true
  cases substr s pos 4 with
  | none => exact Or.inl rfl
  | some w =>
    simp only
    by_cases hw : w = "true".toList
    · rw [if_pos hw]; exact Or.inr (Or.inr rfl)
    · rw [if_neg hw]; exact Or.inr (Or.inl rfl)

theorem parse_false_cases (s : List Char) (pos : Nat) :
    parse_false s pos = Res.fault ∨ parse_false s pos = Res.ret none pos ∨
      parse_false s pos = Res.ret (some (Value.Bool false)) (pos + 5) := by
  unfold parse_false
  cases substr s pos 5 with
  | none => exact Or.inl rfl
  | some w =>
    simp only
    by_cases hw : w = "false".toList
    · rw [if_pos hw]; exact Or.inr (Or.inr rfl)
    · rw [if_neg hw]; exact Or.inr (Or.inl rfl)

theorem string_loop_ge {s : List Char} {pos : Nat} : ∀ (fuel endpos r : Nat),
    string_loop s pos fuel endpos = some r → endpos ≤ r := by
  intro fuel
  induction fuel with
  | zero => intro endpos r h; cases h
  | succ n ih =>
    intro endpos r h
    unfold string_loop at h
    split_ifs at h with hp
    · cases hc : char_at s endpos with
      | none => rw [hc] at h; cases h
      | some c =>
        rw [hc] at h
        simp only at h
        split_ifs at h with hq
        · have := ih _ _ h
          omega
        · cases h; exact le_refl _
    · cases h; exact le_refl _

theorem parse_string_cases (s : List Char) (pos : Nat) :
    parse_string s pos = Res.fault ∨
      ∃ str p, parse_string s pos = Res.ret (some (Value.String str)) p ∧ pos + 2 ≤ p := by
  simp only [parse_string]
  cases h : string_loop s (pos + 1) (s.length + 2) (pos + 1) with
  | none => exact Or.inl rfl
  | some endpos =>
    have hge := string_loop_ge _ _ _ h
    simp only
    cases substr s (pos + 1) (endpos - (pos + 1)) with
    | none => exact Or.inl rfl
    | some str => exact Or.inr ⟨str, endpos + 1, rfl, by omega⟩

theorem parse_number_lexeme (stod : List Char → Option Double) (s : List Char) (pos : Nat)
    (hle : pos ≤ s.length) :
    parse_number stod s pos =
      number_result stod ((s.drop pos).takeWhile number_char)
        (pos + ((s.drop pos).takeWhile number_char).length) := by
  unfold parse_number
  simp only
  rw [number_loop_eq s _ pos (le_refl _)]
  have hsplit : s.drop pos = (s.drop pos).takeWhile number_char ++
      (s.drop pos).dropWhile number_char := (List.takeWhile_append_dropWhile _ _).symm
  have hsub := substr_of_drop hsplit hle
  rw [Nat.add_sub_cancel_left, hsub]
  rfl

theorem parse_number_cases (stod : List Char → Option Double) (s : List Char) (pos : Nat) :
    parse_number stod s pos = Res.fault ∨
      (∃ p, parse_number stod s pos = Res.ret none p ∧ pos ≤ p) ∨
      ∃ v p, parse_number stod s pos = Res.ret (some v) p ∧ pos < p := by
  by_cases hle : pos ≤ s.length
  · rw [parse_number_lexeme stod s pos hle]
    unfold number_result
    generalize (s.drop pos).takeWhile number_char = number
    by_cases hf : is_Float number = true
    · rw [if_pos hf]
      cases stod number with
      | none => exact Or.inr (Or.inl ⟨_, rfl, by omega⟩)
      | some x =>
        refine Or.inr (Or.inr ⟨_, _, rfl, ?_⟩)
        cases number with
        | nil => rw [is_Float_nil] at hf; cases hf
        | cons c r => simp
    · rw [if_neg hf]
      cases hs : stoi number with
      | none => exact Or.inr (Or.inl ⟨_, rfl, by omega⟩)
      | some x =>
        refine Or.inr (Or.inr ⟨_, _, rfl, ?_⟩)
        cases number with
        | nil => rw [stoi_nil] at hs; cases hs
        | cons c r => simp
  · left
    unfold parse_number substr
    simp only
    rw [if_neg hle]

section
variable (stod : List Char → Option Double) (s : List Char)

theorem sep_skip_ge (p1 : Nat) (k : Nat) :
    p1 ≤ parse_whitespace s
      (if holds_at s (parse_whitespace s p1) (fun c => decide (c.toNat = k)) = true
        then parse_whitespace s p1 + 1 else parse_whitespace s p1) := by
  have h1 := parse_whitespace_ge s p1
  split_ifs
  · have := parse_whitespace_ge s (parse_whitespace s p1 + 1); omega
  · have := parse_whitespace_ge s (parse_whitespace s p1); omega

theorem advance : ∀ (fuel : Nat),
    (∀ pos v p, parse_value stod s fuel pos = Res.ret v p → pos ≤ p ∧ (v ≠ none → pos < p)) ∧
    (∀ pos v p, parse_array stod s fuel pos = Res.ret v p → pos < p) ∧
    (∀ arr pos v p, array_loop stod s fuel arr pos = Res.ret v p → pos < p) ∧
    (∀ pos v p, parse_object stod s fuel pos = Res.ret v p → pos < p) ∧
    (∀ obj pos v p, object_loop stod s fuel obj pos = Res.ret v p → pos < p) := by
  intro fuel
  induction fuel with
  | zero =>
    refine ⟨?_, ?_, ?_, ?_, ?_⟩ <;> intros <;> rename_i h <;> cases h
  | succ n ih =>
    obtain ⟨ihv, iha, ihal, iho, ihol⟩ := ih
    refine ⟨?_, ?_, ?_, ?_, ?_⟩
    · intro pos v p h
      rw [parse_value_succ] at h
      have hws := parse_whitespace_ge s pos
      generalize parse_whitespace s pos = q at h hws
      cases hc : char_at s q with
      | none => rw [hc] at h; cases h
      | some c =>
        rw [hc] at h
        simp only at h
        split_ifs at h
        · rcases parse_null_cases s q with h1 | h1 | h1 <;> rw [h1] at h <;> cases h
          · exact ⟨hws, fun hv => absurd rfl hv⟩
          · exact ⟨by omega, fun _ => by omega⟩
        · rcases parse_true_cases s q with h1 | h1 | h1 <;> rw [h1] at h <;> cases h
          · exact ⟨hws, fun hv => absurd rfl hv⟩
          · exact ⟨by omega, fun _ => by omega⟩
        · rcases parse_false_cases s q with h1 | h1 | h1 <;> rw [h1] at h <;> cases h
          · exact ⟨hws, fun hv => absurd rfl hv⟩
          · exact ⟨by omega, fun _ => by omega⟩
        · rcases parse_string_cases s q with h1 | ⟨str, p2, h1, h2⟩ <;> rw [h1] at h <;> cases h
          exact ⟨by omega, fun _ => by omega⟩
        · have := iha _ _ _ h
          exact ⟨by omega, fun _ => by omega⟩
        · have := iho _ _ _ h
          exact ⟨by omega, fun _ => by omega⟩
        · rcases parse_number_cases stod s q with h1 | ⟨p2, h1, h2⟩ | ⟨v2, p2, h1, h2⟩ <;>
            rw [h1] at h <;> cases h
          · exact ⟨by omega, fun hv => absurd rfl hv⟩
          · exact ⟨by omega, fun _ => by omega⟩
    · intro pos v p h
      rw [parse_array_succ] at h
      have := ihal _ _ _ _ h
      omega
    · intro arr pos v p h
      rw [array_loop_succ] at h
      split_ifs at h with hg
      · cases hr : parse_value stod s n pos with
        | ret v1 p1 =>
          rw [hr] at h
          cases v1 with
          | none => cases h
          | some value =>
            simp only at h
            have h1 := (ihv _ _ _ hr).2 (by simp)
            have h2 := sep_skip_ge s p1 44
            have h3 := ihal _ _ _ _ h
            omega
        | fault => rw [hr] at h; cases h
        | outOfFuel => rw [hr] at h; cases h
      · cases h; omega
    · intro pos v p h
      rw [parse_object_succ] at h
      have := ihol _ _ _ _ h
      omega
    · intro obj pos v p h
      rw [object_loop_succ] at h
      split_ifs at h with hg
      · cases hr : parse_value stod s n pos with
        | ret key p1 =>
          rw [hr] at h
          cases key with
          | none => cases h
          | some kv =>
            have h1 := (ihv _ _ _ hr).2 (by simp)
            cases kv with
            | String k =>
              simp only at h
              have h2 := sep_skip_ge s p1 58
              generalize parse_whitespace s
                (if holds_at s (parse_whitespace s p1) (fun c => decide (c.toNat = 58)) = true
                  then parse_whitespace s p1 + 1 else parse_whitespace s p1) = q at h h2
              cases hr2 : parse_value stod s n q with
              | ret val p4 =>
                rw [hr2] at h
                cases val with
                | none => cases h
                | some val =>
                  simp only at h
                  have h3 := (ihv _ _ _ hr2).1
                  have h4 := sep_skip_ge s p4 44
                  have h5 := ihol _ _ _ _ h
                  omega
              | fault => rw [hr2] at h; cases h
              | outOfFuel => rw [hr2] at h; cases h
            | _ =>
              simp only at h
              cases h
              have := parse_whitespace_ge s p1
              omega
        | fault => rw [hr] at h; cases h
        | outOfFuel => rw [hr] at h; cases h
      · cases h; omega

end

/-! ## The fuel `parser` supplies is never used up -/

section
variable (stod : List Char → Option Double) (s : List Char)

theorem parse_null_fuel (pos : Nat) : parse_null s pos ≠ Res.outOfFuel := by
  rcases parse_null_cases s pos with h | h | h <;> rw [h] <;> intro h2 <;> cases h2

theorem parse_true_fuel (pos : Nat) : parse_true s pos ≠ Res.outOfFuel := by
  rcases parse_true_cases s pos with h | h | h <;> rw [h] <;> intro h2 <;> cases h2

theorem parse_false_fuel (pos : Nat) : parse_false s pos ≠ Res.outOfFuel := by
  rcases parse_false_cases s pos with h | h | h <;> rw [h] <;> intro h2 <;> cases h2

theorem parse_string_fuel (pos : Nat) : parse_string s pos ≠ Res.outOfFuel := by
  rcases parse_string_cases s pos with h | ⟨_, _, h, _⟩ <;> rw [h] <;> intro h2 <;> cases h2

theorem parse_number_fuel (pos : Nat) : parse_number stod s pos ≠ Res.outOfFuel := by
  rcases parse_number_cases stod s pos with h | ⟨_, h, _⟩ | ⟨_, _, h, _⟩ <;> rw [h] <;>
    intro h2 <;> cases h2

theorem fuel_adequate : ∀ (fuel : Nat),
    (∀ pos, 3 * (s.length - pos) + 1 ≤ fuel → parse_value stod s fuel pos ≠ Res.outOfFuel) ∧
    (∀ pos, pos < s.length → 3 * (s.length - pos) ≤ fuel →
      parse_array stod s fuel pos ≠ Res.outOfFuel) ∧
    (∀ arr pos, 3 * (s.length - pos) + 2 ≤ fuel →
      array_loop stod s fuel arr pos ≠ Res.outOfFuel) ∧
    (∀ pos, pos < s.length → 3 * (s.length - pos) ≤ fuel →
      parse_object stod s fuel pos ≠ Res.outOfFuel) ∧
    (∀ obj pos, 3 * (s.length - pos) + 2 ≤ fuel →
      object_loop stod s fuel obj pos ≠ Res.outOfFuel) := by
  intro fuel
  induction fuel with
  | zero =>
    refine ⟨?_, ?_, ?_, ?_, ?_⟩ <;> intros <;> omega
  | succ n ih =>
    obtain ⟨ihv, iha, ihal, iho, ihol⟩ := ih
    refine ⟨?_, ?_, ?_, ?_, ?_⟩
    · intro pos hf
      rw [parse_value_succ]
      have hws := parse_whitespace_ge s pos
      generalize parse_whitespace s pos = q at hws
      cases hc : char_at s q with
      | none => intro h; cases h
      | some c =>
        simp only
        split_ifs with h1 h2 h3 h4 h5 h6
        · exact parse_null_fuel s q
        · exact parse_true_fuel s q
        · exact parse_false_fuel s q
        · exact parse_string_fuel s q
        · have := char_at_lt hc (by omega)
          exact iha q this (by omega)
        · have := char_at_lt hc (by omega)
          exact iho q this (by omega)
        · exact parse_number_fuel stod s q
    · intro pos hlt hf
      rw [parse_array_succ]
      exact ihal _ _ (by omega)
    · intro arr pos hf
      rw [array_loop_succ]
      split_ifs with hg
      · have hlt := holds_at_lt hg
        have hv := ihv pos (by omega)
        cases hr : parse_value stod s n pos with
        | ret v1 p1 =>
          cases v1 with
          | none => intro h; cases h
          | some value =>
            simp only
            have h1 := ((advance stod s n).1 _ _ _ hr).2 (by simp)
            have h2 := sep_skip_ge s p1 44
            exact ihal _ _ (by omega)
        | fault => intro h; cases h
        | outOfFuel => exact absurd hr hv
      · intro h; cases h
    · intro pos hlt hf
      rw [parse_object_succ]
      exact ihol _ _ (by omega)
    · intro obj pos hf
      rw [object_loop_succ]
      split_ifs with hg
      · have hlt := holds_at_lt hg
        have hv := ihv pos (by omega)
        cases hr : parse_value stod s n pos with
        | ret key p1 =>
          cases key with
          | none => intro h; cases h
          | some kv =>
            have h1 := ((advance stod s n).1 _ _ _ hr).2 (by simp)
            cases kv with
            | String k =>
              simp only
              have h2 := sep_skip_ge s p1 58
              generalize parse_whitespace s
                (if holds_at s (parse_whitespace s p1) (fun c => decide (c.toNat = 58)) = true
                  then parse_whitespace s p1 + 1 else parse_whitespace s p1) = q at h2
              have hv2 := ihv q (by omega)
              cases hr2 : parse_value stod s n q with
              | ret val p4 =>
                cases val with
                | none => intro h; cases h
                | some val =>
                  simp only
                  have h3 := ((advance stod s n).1 _ _ _ hr2).1
                  have h4 := sep_skip_ge s p4 44
                  exact ihol _ _ (by omega)
              | fault => intro h; cases h
              | outOfFuel => exact absurd hr2 hv2
            | _ => intro h; cases h
        | fault => intro h; cases h
        | outOfFuel => exact absurd hr hv
      · intro h; cases h

/-- With the fuel `parser` supplies, `parse` never runs out of fuel. -/
theorem parser_fuel_adequate : parser stod s ≠ Outcome.outOfFuel := by
  unfold parser parse
  have hws := parse_whitespace_ge s 0
  have h := (fuel_adequate stod s (3 * s.length + 4)).1 (parse_whitespace s 0) (by omega)
  cases hr : parse_value stod s (3 * s.length + 4) (parse_whitespace s 0) with
  | ret v p =>
    cases v <;> (intro h2; cases h2)
  | fault => intro h2; cases h2
  | outOfFuel => exact absurd hr h

theorem parser_of_parse_value {fuel : Nat} {r : Res}
    (h : parse_value stod s fuel (parse_whitespace s 0) = r) (hr : r ≠ Res.outOfFuel) :
    parse_value stod s (3 * s.length + 4) (parse_whitespace s 0) = r := by
  have hws := parse_whitespace_ge s 0
  have h2 := (fuel_adequate stod s (3 * s.length + 4)).1 (parse_whitespace s 0) (by omega)
  rcases Nat.le_total fuel (3 * s.length + 4) with hle | hle
  · exact parse_value_mono stod s hle h hr
  · have := parse_value_mono stod s hle rfl h2
    rw [← this]; exact h

/-- A value `parse_value` returns with some fuel is the Node `parser` returns. -/
theorem parser_of_value {fuel : Nat} {value : Value} {p : Nat}
    (h : parse_value stod s fuel (parse_whitespace s 0) = Res.ret (some value) p) :
    parser stod s = Outcome.node value := by
  unfold parser parse
  rw [parser_of_parse_value stod s h (by intro hh; cases hh)]

theorem parser_of_none {fuel : Nat} {p : Nat}
    (h : parse_value stod s fuel (parse_whitespace s 0) = Res.ret none p) :
    parser stod s = Outcome.missing := by
  unfold parser parse
  rw [parser_of_parse_value stod s h (by intro hh; cases hh)]

theorem parser_of_fault {fuel : Nat}
    (h : parse_value stod s fuel (parse_whitespace s 0) = Res.fault) :
    parser stod s = Outcome.fault := by
  unfold parser parse
  rw [parser_of_parse_value stod s h (by intro hh; cases hh)]

end

/-! ## Dispatch of `parse_value` -/

section
variable (stod : List Char → Option Double) (s : List Char)

theorem parse_value_at {pos : Nat} {c : Char} {r : List Char} (h : s.drop pos = c :: r)
    (hc : isspace c = false) (fuel : Nat) :
    parse_value stod s (fuel + 1) pos =
      if c.toNat = 110 then parse_null s pos
      else if c.toNat = 116 then parse_true s pos
      else if c.toNat = 102 then parse_false s pos
      else if c.toNat = 34 then parse_string s pos
      else if c.toNat = 91 then parse_array stod s fuel pos
      else if c.toNat = 123 then parse_object stod s fuel pos
      else parse_number stod s pos := by
  have hst : stops isspace (s.drop pos) := by rw [h]; exact stops_cons r hc
  rw [parse_value_succ, parse_whitespace_of_stops hst, char_at_of_drop h]

theorem parse_number_of_drop {pos : Nat} {lex rest : List Char} (h : s.drop pos = lex ++ rest)
    (hle : pos ≤ s.length) (hlex : ∀ c ∈ lex, number_char c = true)
    (hrest : stops number_char rest) :
    parse_number stod s pos = number_result stod lex (pos + lex.length) := by
  rw [parse_number_lexeme stod s pos hle, h, takeWhile_append_stops hlex hrest]

theorem number_result_nil (pos : Nat) : number_result stod [] pos = Res.ret none pos := rfl

theorem number_char_cases {c : Char} (h : number_char c = true) :
    isdigit c = true ∨ c.toNat = 101 ∨ c.toNat = 46 := by
  unfold number_char at h
  simp at h
  tauto

theorem number_char_not_isspace {c : Char} (h : number_char c = true) : isspace c = false := by
  rcases number_char_cases h with h | h | h
  · exact isdigit_not_isspace h
  · unfold isspace; simp [h]
  · unfold isspace; simp [h]

theorem number_char_dispatch {c : Char} (h : number_char c = true) :
    c.toNat ≠ 110 ∧ c.toNat ≠ 116 ∧ c.toNat ≠ 102 ∧ c.toNat ≠ 34 ∧ c.toNat ≠ 91 ∧
      c.toNat ≠ 123 := by
  rcases number_char_cases h with h | h | h
  · unfold isdigit at h
    simp at h
    omega
  · omega
  · omega

theorem digits_of_not_is_Float {lex : List Char} (hlex : ∀ c ∈ lex, number_char c = true)
    (hf : is_Float lex = false) : ∀ c ∈ lex, isdigit c = true := by
  intro c hc
  unfold is_Float at hf
  simp only [Bool.or_eq_false_iff, List.any_eq_false, decide_eq_true_eq] at hf
  rcases number_char_cases (hlex c hc) with h | h | h
  · exact h
  · exact absurd h (hf.2 c hc)
  · exact absurd h (hf.1 c hc)

theorem parse_value_number {pos : Nat} {lex rest : List Char} (h : s.drop pos = lex ++ rest)
    (hne : lex ≠ []) (hlex : ∀ c ∈ lex, number_char c = true)
    (hrest : stops number_char rest) (fuel : Nat) :
    parse_value stod s (fuel + 1) pos = number_result stod lex (pos + lex.length) := by
  obtain ⟨c, l, rfl⟩ := List.exists_cons_of_ne_nil hne
  have hc := hlex c (by simp)
  have hd : s.drop pos = c :: (l ++ rest) := by rw [h]; rfl
  obtain ⟨h1, h2, h3, h4, h5, h6⟩ := number_char_dispatch hc
  rw [parse_value_at stod s hd (number_char_not_isspace hc), if_neg h1, if_neg h2, if_neg h3,
    if_neg h4, if_neg h5, if_neg h6]
  exact parse_number_of_drop stod s h (le_of_lt (lt_length_of_drop hd)) hlex hrest

end

/-! ## Claims about failures and numbers -/

/-- C2 (the code at the failing inputs): a member that cannot produce a value makes
`value.value()` throw out of `parse_array` and `parse_object`, so `parse` faults on
`[x]`, on `{"a":x}` and on `[-1]` instead of returning the empty optional. -/
theorem parse_faults_on_missing_member (stod : List Char → Option Double) :
    parser stod "[x]".toList = Outcome.fault ∧
      parser stod "\x7b\"a\":x\x7d".toList = Outcome.fault ∧
      parser stod "[-1]".toList = Outcome.fault :=
  ⟨rfl, rfl, rfl⟩

section
variable (stod : List Char → Option Double)

theorem parse_string_lone_quote (s : List Char) (pos : Nat) (h : pos + 1 = s.length) :
    parse_string s pos = Res.ret (some (Value.String [])) (pos + 2) := by
  simp only [parse_string]
  rw [string_loop_at_end (by omega)]
  simp only [Nat.sub_self]
  rw [substr_zero (by omega)]

theorem parse_string_unterminated (s : List Char) (pos : Nat) (h : pos + 1 < s.length)
    (hq : ∀ c ∈ s.drop (pos + 1), c ≠ quote) : parse_string s pos = Res.fault := by
  simp only [parse_string]
  rw [string_loop_past_end h _ _ hq]

/-- On a text that starts with a double quote and holds no further one, `parse` returns
the empty String when nothing follows the quote; on a longer text the scan of
`parse_string`, whose bound tests `pos` instead of `endpos`, runs off the end of the
buffer. -/
theorem parser_unterminated_string (cs : List Char) (h : ∀ c ∈ cs, c ≠ quote) :
    parser stod (quote :: cs) =
      if cs = [] then Outcome.node (Value.String []) else Outcome.fault := by
  have hd : (quote :: cs).drop 0 = quote :: cs := rfl
  have hws : parse_whitespace (quote :: cs) 0 = 0 :=
    parse_whitespace_of_stops (by rw [hd]; exact stops_cons cs (by decide))
  have hv : parse_value stod (quote :: cs) 1 0 = parse_string (quote :: cs) 0 := by
    rw [parse_value_at stod _ hd (by decide)]
    rfl
  by_cases hcs : cs = []
  · subst hcs
    rfl
  · rw [if_neg hcs]
    have hlen : 0 + 1 < (quote :: cs).length := by
      cases cs with
      | nil => exact absurd rfl hcs
      | cons c r => simp
    rw [parse_string_unterminated _ 0 hlen (by simpa using h)] at hv
    rw [← hws] at hv
    exact parser_of_fault stod _ hv

/-- C5 (the code): on a text that starts with a double quote and holds no further one,
`parse` never returns the empty optional. On the lone quote the scan of `parse_string`
does not run and `parse` returns the empty String; on every longer text the scan, whose
bound tests `pos` instead of `endpos`, leaves the buffer and `parse` faults. -/
theorem unterminated_string_not_missing (cs : List Char) (h : ∀ c ∈ cs, c ≠ quote) :
    parser stod (quote :: cs) =
        (if cs = [] then Outcome.node (Value.String []) else Outcome.fault) ∧
      parser stod (quote :: cs) ≠ Outcome.missing := by
  have hp := parser_unterminated_string stod cs h
  refine ⟨hp, ?_⟩
  rw [hp]
  split_ifs <;> intro hm <;> cases hm

/-- Witness of C5: the lone double quote parses to the empty String, and `parse` faults
on `"abc`. -/
theorem unterminated_string_not_missing_witness :
    parser stod_examples "\"".toList = Outcome.node (Value.String []) ∧
      parser stod_examples "\"abc".toList = Outcome.fault := by
  have h1 := (unterminated_string_not_missing stod_examples [] (by simp)).1
  have h2 := (unterminated_string_not_missing stod_examples "abc".toList (by decide)).1
  rw [if_pos rfl] at h1
  rw [if_neg (by decide)] at h2
  exact ⟨h1, h2⟩

/-- The result of `parse` on a text that is white space, a maximal run `lex` of digits, `.`
and `e`, and anything behind it. -/
theorem parser_number (w lex rest : List Char) (hw : ∀ c ∈ w, isspace c = true)
    (hne : lex ≠ []) (hlex : ∀ c ∈ lex, number_char c = true)
    (hrest : stops number_char rest) :
    parser stod (w ++ lex ++ rest) =
      if is_Float lex then
        match stod lex with
        | some x => Outcome.node (Value.Float x)
        | none => Outcome.missing
      else if digits_value lex ≤ 2147483647 then Outcome.node (Value.Int (digits_value lex))
      else Outcome.missing := by
  obtain ⟨c, l, hcl⟩ := List.exists_cons_of_ne_nil hne
  have hc : number_char c = true := hlex c (by rw [hcl]; simp)
  have hd0 : (w ++ lex ++ rest).drop 0 = w ++ (lex ++ rest) := by simp
  have hst : stops isspace (lex ++ rest) := by
    rw [hcl]; exact stops_cons _ (number_char_not_isspace hc)
  have hws : parse_whitespace (w ++ lex ++ rest) 0 = w.length := by
    rw [parse_whitespace_of_drop hd0 hw hst]; simp
  have hd : (w ++ lex ++ rest).drop w.length = lex ++ rest := by
    rw [List.append_assoc, List.drop_left]
  have hv := parse_value_number stod (w ++ lex ++ rest) hd hne hlex hrest 0
  rw [← hws] at hv
  unfold number_result at hv
  by_cases hf : is_Float lex = true
  · rw [if_pos hf] at hv ⊢
    cases hx : stod lex with
    | none => rw [hx] at hv; exact parser_of_none stod _ hv
    | some x => rw [hx] at hv; exact parser_of_value stod _ hv
  · rw [if_neg hf] at hv ⊢
    have hdig := digits_of_not_is_Float hlex (by simpa using hf)
    rw [stoi_digits hne hdig] at hv
    by_cases hm : digits_value lex ≤ 2147483647
    · rw [if_pos hm] at hv ⊢
      exact parser_of_value stod _ hv
    · rw [if_neg hm] at hv ⊢
      exact parser_of_none stod _ hv

/-- C7: the lexeme of a top-level number, a maximal run of digits, `.` and `e`, decides
the variant. With a `.` or an `e` the result is the `Float` that `std::stod` converts, or
the empty optional, and never an `Int`; without one it is the `Int` of its decimal value,
or the empty optional when `std::stoi` rejects the value. White space may lead. -/
theorem number_classification (w lex rest : List Char) (hw : ∀ c ∈ w, isspace c = true)
    (hne : lex ≠ []) (hlex : ∀ c ∈ lex, number_char c = true)
    (hrest : stops number_char rest) :
    parser stod (w ++ lex ++ rest) =
      if is_Float lex then
        match stod lex with
        | some x => Outcome.node (Value.Float x)
        | none => Outcome.missing
      else if digits_value lex ≤ 2147483647 then Outcome.node (Value.Int (digits_value lex))
      else Outcome.missing :=
  parser_number stod w lex rest hw hne hlex hrest

/-- Witness of C7: `7` is `Int 7`, while `7.0` and `7e1` are `Float`. -/
theorem number_classification_witness :
    parser stod_examples "7".toList = Outcome.node (Value.Int 7) ∧
      parser stod_examples "7.0".toList = Outcome.node (Value.Float (Double.mk 4619567317775286272)) ∧
      parser stod_examples "7e1".toList = Outcome.node (Value.Float (Double.mk 4634626229029306368)) :=
  ⟨number_classification stod_examples [] "7".toList [] (by simp) (by simp) (by decide)
    (stops_nil _),
   number_classification stod_examples [] "7.0".toList [] (by simp) (by simp) (by decide)
    (stops_nil _),
   number_classification stod_examples [] "7e1".toList [] (by simp) (by simp) (by decide)
    (stops_nil _)⟩

/-- C6 (the code on the claim's inputs): a text of digits parses to the `Int` of its
decimal value only up to 2147483647; `std::stoi` converts to a 32-bit `int` and throws
beyond, so `parse` returns the empty optional on every larger value. -/
theorem parse_digits (ds : List Char) (hne : ds ≠ []) (hd : ∀ c ∈ ds, isdigit c = true) :
    parser stod ds =
      if digits_value ds ≤ 2147483647 then Outcome.node (Value.Int (digits_value ds))
      else Outcome.missing := by
  have h := parser_number stod [] ds [] (by simp) hne
    (fun c hc => isdigit_number_char (hd c hc)) (stops_nil _)
  rw [List.nil_append, List.append_nil, is_Float_digits hd] at h
  exact h

/-- Witness of C6: 2147483647 parses and 2147483648 and 9223372036854775807 do not. -/
theorem parse_digits_witness :
    parser stod_examples "2147483647".toList = Outcome.node (Value.Int 2147483647) ∧
      parser stod_examples "2147483648".toList = Outcome.missing ∧
      parser stod_examples "9223372036854775807".toList = Outcome.missing :=
  ⟨parse_digits stod_examples "2147483647".toList (by simp) (by decide),
   parse_digits stod_examples "2147483648".toList (by simp) (by decide),
   parse_digits stod_examples "9223372036854775807".toList (by simp) (by decide)⟩

end

/-! ## The shape of the generated text -/

theorem Value.induct {P : Value → Prop} (hNull : P Value.Null) (hBool : ∀ b, P (Value.Bool b))
    (hInt : ∀ n, P (Value.Int n)) (hFloat : ∀ x, P (Value.Float x))
    (hString : ∀ str, P (Value.String str))
    (hArray : ∀ xs, (∀ x ∈ xs, P x) → P (Value.Array xs))
    (hObject : ∀ kvs, (∀ kv ∈ kvs, P kv.2) → P (Value.Object kvs)) : ∀ t, P t := by
  intro t
  refine @Value.rec P (fun xs => ∀ x ∈ xs, P x)
    (fun kvs => ∀ kv ∈ kvs, P kv.2) (fun kv => P kv.2)
    hNull hBool hInt hFloat hString hArray hObject ?_ ?_ ?_ ?_ ?_ t
  · intro x hx; cases hx
  · intro head tail h1 h2 x hx
    rcases List.mem_cons.mp hx with rfl | hx
    · exact h1
    · exact h2 x hx
  · intro kv hkv; cases hkv
  · intro head tail h1 h2 kv hkv
    rcases List.mem_cons.mp hkv with rfl | hkv
    · exact h1
    · exact h2 kv hkv
  · intro k v h; exact h

section
variable (fmt : Double → List Char)

theorem array_items_nil (acc : List Char) : array_items fmt [] acc = acc := by
  rw [array_items]

theorem array_items_cons (x : Value) (xs : List Value) (acc : List Char) :
    array_items fmt (x :: xs) acc =
      array_items fmt xs (acc ++ generate fmt x ++ [Char.ofNat 44]) := by
  rw [array_items]

theorem object_items_nil (acc : List Char) : object_items fmt [] acc = acc := by
  rw [object_items]

theorem object_items_cons (k : List Char) (x : Value) (kvs : List (List Char × Value))
    (acc : List Char) :
    object_items fmt ((k, x) :: kvs) acc =
      object_items fmt kvs
        (acc ++ generate_string k ++ [Char.ofNat 58] ++ generate fmt x ++ [Char.ofNat 44]) := by
  rw [object_items]

theorem generate_Array (xs : List Value) :
    generate fmt (Value.Array xs) =
      close_items xs.isEmpty (array_items fmt xs [Char.ofNat 91]) (Char.ofNat 93) := by
  rw [generate]

theorem generate_Object (kvs : List (List Char × Value)) :
    generate fmt (Value.Object kvs) =
      close_items kvs.isEmpty (object_items fmt kvs [Char.ofNat 123]) (Char.ofNat 125) := by
  rw [generate]

theorem array_items_dropLast : ∀ (xs : List Value), xs ≠ [] → ∀ (acc : List Char),
    (array_items fmt xs acc).dropLast = acc ++ join_with [Char.ofNat 44] (xs.map (generate fmt))
  | [], h, _ => absurd rfl h
  | [x], _, acc => by
    rw [array_items_cons, array_items_nil, List.dropLast_concat]
    rfl
  | x :: y :: rest, _, acc => by
    rw [array_items_cons, array_items_dropLast (y :: rest) (by simp)]
    simp [join_with]

/-- The text of an array: the element texts joined by commas, between brackets. -/
theorem generate_Array_eq (xs : List Value) :
    generate fmt (Value.Array xs) =
      [Char.ofNat 91] ++ join_with [Char.ofNat 44] (xs.map (generate fmt)) ++ [Char.ofNat 93] := by
  rw [generate_Array]
  unfold close_items
  cases xs with
  | nil => rw [array_items_nil]; rfl
  | cons x xs =>
    rw [List.isEmpty_cons, if_neg (by simp), array_items_dropLast fmt _ (by simp)]

theorem object_items_dropLast : ∀ (kvs : List (List Char × Value)), kvs ≠ [] →
    ∀ (acc : List Char),
    (object_items fmt kvs acc).dropLast =
      acc ++ join_with [Char.ofNat 44] (kvs.map (member_text fmt))
  | [], h, _ => absurd rfl h
  | [(k, x)], _, acc => by
    rw [object_items_cons, object_items_nil, List.dropLast_concat]
    simp [join_with, member_text]
  | (k, x) :: kv :: rest, _, acc => by
    rw [object_items_cons, object_items_dropLast (kv :: rest) (by simp)]
    simp [join_with, member_text]

/-- The text of an object: the pair texts, in the order of the map, joined by commas,
between braces. -/
theorem generate_Object_eq (kvs : List (List Char × Value)) :
    generate fmt (Value.Object kvs) =
      [Char.ofNat 123] ++ join_with [Char.ofNat 44] (kvs.map (member_text fmt)) ++
        [Char.ofNat 125] := by
  rw [generate_Object]
  unfold close_items
  cases kvs with
  | nil => rw [object_items_nil]; rfl
  | cons kv kvs =>
    rw [List.isEmpty_cons, if_neg (by simp), object_items_dropLast fmt _ (by simp)]

end

/-! ## The generator and the reference serializer -/

theorem digit_char_eq_digitChar {d : Nat} (h : d < 10) : digit_char d = Nat.digitChar d := by
  interval_cases d <;> rfl

theorem to_string_loop_eq_toDigitsCore : ∀ (fuel n : Nat) (acc : List Char),
    to_string_loop fuel n acc = Nat.toDigitsCore 10 fuel n acc := by
  intro fuel
  induction fuel with
  | zero => intro n acc; rfl
  | succ k ih =>
    intro n acc
    unfold to_string_loop Nat.toDigitsCore
    simp only
    rw [digit_char_eq_digitChar (Nat.mod_lt _ (by omega)), ih]

theorem to_string_eq_decimal (n : Int) : to_string n = decimal n := by
  unfold to_string decimal Nat.toDigits
  simp only [to_string_loop_eq_toDigitsCore]

/-! ### The order of the keys -/

theorem char_eq_of_toNat {a b : Char} (h : a.toNat = b.toNat) : a = b := by
  rw [← Char.ofNat_toNat a, ← Char.ofNat_toNat b, h]

theorem str_lt_nil_right (a : List Char) : str_lt a [] = false := by
  cases a <;> rfl

theorem str_lt_cons (a b : Char) (as bs : List Char) :
    str_lt (a :: as) (b :: bs) =
      (decide (a.toNat < b.toNat) || (decide (a.toNat = b.toNat) && str_lt as bs)) := by
  rw [str_lt]

theorem str_lt_irrefl : ∀ (a : List Char), str_lt a a = false
  | [] => rfl
  | c :: r => by
    rw [str_lt_cons, str_lt_irrefl r]
    simp

theorem str_lt_asymm : ∀ (a b : List Char), str_lt a b = true → str_lt b a = false
  | _, [], h => by rw [str_lt_nil_right] at h; cases h
  | [], _ :: _, _ => rfl
  | a :: as, b :: bs, h => by
    rw [str_lt_cons] at h ⊢
    simp only [Bool.or_eq_true, Bool.and_eq_true, decide_eq_true_eq] at h
    rcases h with h | ⟨h1, h2⟩
    · simp only [Bool.or_eq_false_iff, Bool.and_eq_false_iff, decide_eq_false_iff_not]
      exact ⟨by omega, Or.inl (by omega)⟩
    · have := str_lt_asymm as bs h2
      simp only [Bool.or_eq_false_iff, Bool.and_eq_false_iff, decide_eq_false_iff_not]
      exact ⟨by omega, Or.inr this⟩

theorem str_lt_trans : ∀ (a b c : List Char), str_lt a b = true → str_lt b c = true →
    str_lt a c = true
  | _, _, [], _, h2 => by rw [str_lt_nil_right] at h2; cases h2
  | _, [], _ :: _, h1, _ => by rw [str_lt_nil_right] at h1; cases h1
  | [], _ :: _, _ :: _, _, _ => rfl
  | a :: as, b :: bs, c :: cs, h1, h2 => by
    rw [str_lt_cons] at h1 h2 ⊢
    simp only [Bool.or_eq_true, Bool.and_eq_true, decide_eq_true_eq] at h1 h2 ⊢
    rcases h1 with h1 | ⟨h1, h1r⟩ <;> rcases h2 with h2 | ⟨h2, h2r⟩
    · exact Or.inl (by omega)
    · exact Or.inl (by omega)
    · exact Or.inl (by omega)
    · exact Or.inr ⟨by omega, str_lt_trans as bs cs h1r h2r⟩

theorem str_lt_connected : ∀ (a b : List Char), str_lt a b = false → str_lt b a = false →
    a = b
  | [], [], _, _ => rfl
  | [], _ :: _, h, _ => by cases h
  | _ :: _, [], _, h => by cases h
  | a :: as, b :: bs, h1, h2 => by
    rw [str_lt_cons] at h1 h2
    simp only [Bool.or_eq_false_iff, Bool.and_eq_false_iff, decide_eq_false_iff_not] at h1 h2
    have hab : a.toNat = b.toNat := by omega
    have h3 : str_lt as bs = false := by
      rcases h1.2 with h | h
      · exact absurd hab h
      · exact h
    have h4 : str_lt bs as = false := by
      rcases h2.2 with h | h
      · exact absurd hab.symm h
      · exact h
    rw [char_eq_of_toNat hab, str_lt_connected as bs h3 h4]

theorem keys_ascending_cons2 (k1 k2 : List Char) (rest : List (List Char)) :
    keys_ascending (k1 :: k2 :: rest) = (str_lt k1 k2 && keys_ascending (k2 :: rest)) := by
  rw [keys_ascending]

theorem keys_ascending_tail {k : List Char} {rest : List (List Char)}
    (h : keys_ascending (k :: rest) = true) : keys_ascending rest = true := by
  cases rest with
  | nil => rfl
  | cons k2 rest =>
    rw [keys_ascending_cons2] at h
    simp only [Bool.and_eq_true] at h
    exact h.2

theorem sort_by_key_ascending : ∀ (ps : List (List Char × List Char)),
    keys_ascending (ps.map Prod.fst) = true → sort_by_key ps = ps
  | [], _ => rfl
  | [p], _ => rfl
  | p :: q :: rest, h => by
    have ht : keys_ascending ((q :: rest).map Prod.fst) = true := keys_ascending_tail h
    simp only [List.map_cons] at h
    rw [keys_ascending_cons2] at h
    simp only [Bool.and_eq_true] at h
    have hq := str_lt_asymm _ _ h.1
    unfold sort_by_key
    rw [sort_by_key_ascending (q :: rest) ht]
    unfold insert_by_key
    rw [if_neg (by simp [hq])]

/-! ### The predicates on lists of trees -/

theorem wf_list_iff : ∀ (xs : List Value), wf_list xs = true ↔ ∀ x ∈ xs, x.wf = true
  | [] => by simp [wf_list]
  | x :: xs => by
    rw [wf_list]
    simp [wf_list_iff xs]

theorem wf_members_iff : ∀ (kvs : List (List Char × Value)),
    wf_members kvs = true ↔ ∀ kv ∈ kvs, kv.2.wf = true
  | [] => by simp [wf_members]
  | (k, x) :: kvs => by
    rw [wf_members]
    simp [wf_members_iff kvs]

theorem wf_Array (xs : List Value) : (Value.Array xs).wf = true ↔ ∀ x ∈ xs, x.wf = true := by
  rw [Value.wf, wf_list_iff]

theorem wf_Object (kvs : List (List Char × Value)) :
    (Value.Object kvs).wf = true ↔
      keys_ascending (kvs.map Prod.fst) = true ∧ ∀ kv ∈ kvs, kv.2.wf = true := by
  rw [Value.wf, Bool.and_eq_true, wf_members_iff]

section
variable (fmt : Double → List Char)

theorem serialize_list_eq : ∀ (xs : List Value),
    serialize_list fmt xs = xs.map (serialize fmt)
  | [] => by rw [serialize_list]; rfl
  | x :: xs => by rw [serialize_list, serialize_list_eq xs]; rfl

theorem serialize_members_eq : ∀ (kvs : List (List Char × Value)),
    serialize_members fmt kvs = kvs.map (fun kv => (kv.1, serialize fmt kv.2))
  | [] => by rw [serialize_members]; rfl
  | (k, x) :: kvs => by rw [serialize_members, serialize_members_eq kvs]; rfl

theorem generate_eq_serialize_of_wf (t : Value) (hwf : t.wf = true) :
    generate fmt t = serialize fmt t := by
  revert hwf
  induction t using Value.induct with
  | hNull => intro _; rw [generate, serialize]
  | hBool b => intro _; rw [generate, serialize]
  | hInt n => intro _; rw [generate, serialize, to_string_eq_decimal]
  | hFloat x => intro _; rw [generate, serialize]
  | hString str => intro _; rw [generate, serialize]; rfl
  | hArray xs ih =>
    intro hwf
    rw [wf_Array] at hwf
    rw [generate_Array_eq, serialize, serialize_list_eq]
    have : xs.map (generate fmt) = xs.map (serialize fmt) :=
      List.map_congr_left (fun x hx => ih x hx (hwf x hx))
    rw [this]
    rfl
  | hObject kvs ih =>
    intro hwf
    rw [wf_Object] at hwf
    rw [generate_Object_eq, serialize, serialize_members_eq]
    have hkeys : (kvs.map (fun kv => (kv.1, serialize fmt kv.2))).map Prod.fst =
        kvs.map Prod.fst := by
      rw [List.map_map]; rfl
    rw [sort_by_key_ascending _ (by rw [hkeys]; exact hwf.1), List.map_map]
    have : kvs.map (member_text fmt) =
        kvs.map (pair_text ∘ fun kv => (kv.1, serialize fmt kv.2)) :=
      List.map_congr_left (fun kv hkv => by
        simp only [member_text, pair_text, generate_string, Function.comp]
        rw [ih kv hkv (hwf.2 kv hkv)])
    rw [this]
    rfl

/-- C10: on every Float-free tree whose objects hold their entries as the map does, in
ascending key order, `generate` produces the text of the reference serializer. -/
theorem generate_eq_serialize (t : Value) (_ : t.float_free = true) (hwf : t.wf = true) :
    generate fmt t = serialize fmt t :=
  generate_eq_serialize_of_wf fmt t hwf

/-- Witness of C10: the tree of `{"a":[true,false,null],"b":120}`. -/
theorem generate_eq_serialize_witness :
    generate (fun _ => []) (Value.Object [("a".toList,
        Value.Array [Value.Bool true, Value.Bool false, Value.Null]), ("b".toList, Value.Int 120)])
      = "\x7b\"a\":[true,false,null],\"b\":120\x7d".toList ∧
    serialize (fun _ => []) (Value.Object [("a".toList,
        Value.Array [Value.Bool true, Value.Bool false, Value.Null]), ("b".toList, Value.Int 120)])
      = "\x7b\"a\":[true,false,null],\"b\":120\x7d".toList :=
  ⟨by decide,
   (generate_eq_serialize (fun _ => []) _ (by decide) (by decide)).symm.trans (by decide)⟩

end

/-! ## The loops of `parse_array` and `parse_object` -/

theorem stops_append_of_starts {k : Nat} {text : List Char} (h : starts_member k text)
    (r : List Char) (j : Nat) (hj : j = 44 ∨ j = 58) :
    stops (fun c => isspace c || decide (c.toNat = j)) (text ++ r) := by
  obtain ⟨c, l, rfl, h1, h2, h3, _⟩ := h
  apply stops_cons
  rcases hj with rfl | rfl <;> simp [h1, h2, h3]

theorem stops_of_closes {k : Nat} {tl : List Char} (h : closes k tl) (j : Nat) (hjk : j ≠ k)
    (hk : k ≠ 32 ∧ ¬ (9 ≤ k ∧ k ≤ 13)) :
    stops (fun c => isspace c || decide (c.toNat = j)) tl := by
  intro c hc
  have := h c hc
  unfold isspace
  simp [this]
  omega

theorem holds_at_closes {s : List Char} {pos k : Nat} {tl : List Char}
    (h : s.drop pos = tl) (hc : closes k tl) :
    holds_at s pos (fun c => decide (c.toNat ≠ k)) = false := by
  cases tl with
  | nil => exact holds_at_of_drop_nil h _
  | cons c r =>
    rw [holds_at_of_drop h]
    have := hc c (by simp)
    simp [this]

theorem stops_weaken {p q : Char → Bool} {r : List Char} (h : stops p r)
    (hpq : ∀ c, p c = false → q c = false) : stops q r :=
  fun c hc => hpq c (h c hc)

theorem sep_skip {s : List Char} {pos k : Nat} {sep r : List Char}
    (h : s.drop pos = sep ++ r) (hsep : is_sep k sep)
    (hk : isspace (Char.ofNat k) = false) (hkn : (Char.ofNat k).toNat = k)
    (hr : stops (fun c => isspace c || decide (c.toNat = k)) r) :
    parse_whitespace s
      (if holds_at s (parse_whitespace s pos) (fun c => decide (c.toNat = k)) = true
        then parse_whitespace s pos + 1 else parse_whitespace s pos) = pos + sep.length := by
  have hrs : stops isspace r := stops_weaken hr (fun c hc => by
    simp only [Bool.or_eq_false_iff] at hc; exact hc.1)
  obtain ⟨w1, w2, hw1, hw2, hs | hs⟩ := hsep
  · subst hs
    have hw : ∀ c ∈ w1 ++ w2, isspace c = true := by
      intro c hc
      rcases List.mem_append.mp hc with hc | hc
      · exact hw1 c hc
      · exact hw2 c hc
    rw [parse_whitespace_of_drop h hw hrs]
    have hd := drop_add_of_drop h
    have hg : holds_at s (pos + (w1 ++ w2).length) (fun c => decide (c.toNat = k)) = false := by
      cases r with
      | nil => exact holds_at_of_drop_nil hd _
      | cons c r =>
        rw [holds_at_of_drop hd]
        have := hr c (by simp)
        simp only [Bool.or_eq_false_iff] at this
        exact this.2
    rw [hg]
    simp only [Bool.false_eq_true, if_false]
    exact parse_whitespace_of_stops (by rw [hd]; exact hrs)
  · subst hs
    have h1 : s.drop pos = w1 ++ (Char.ofNat k :: (w2 ++ r)) := by rw [h]; simp
    rw [parse_whitespace_of_drop h1 hw1 (stops_cons _ hk)]
    have hd := drop_add_of_drop h1
    rw [holds_at_of_drop hd]
    simp only [hkn, decide_True, if_true]
    have hd2 := drop_succ_of_drop hd
    rw [parse_whitespace_of_drop hd2 hw2 hrs]
    simp
    omega

theorem items_text_cons (i : Item) (rest : List Item) :
    items_text (i :: rest) = i.text ++ i.sep ++ items_text rest := rfl

theorem stops_items_text {stod : List Char → Option Double} {items : List Item}
    {tl : List Char} (hok : array_items_ok stod items tl) (htl : closes 93 tl) :
    stops (fun c => isspace c || decide (c.toNat = 44)) (items_text items ++ tl) := by
  cases items with
  | nil => exact stops_of_closes htl 44 (by omega) (by omega)
  | cons i rest =>
    rw [items_text_cons, List.append_assoc, List.append_assoc]
    exact stops_append_of_starts hok.1 _ 44 (Or.inl rfl)

theorem array_loop_items (stod : List Char → Option Double) (s : List Char) :
    ∀ (items : List Item) (tl : List Char) (acc : List Value) (pos : Nat),
      array_items_ok stod items tl → closes 93 tl → s.drop pos = items_text items ++ tl →
      ∃ fuel, array_loop stod s fuel acc pos =
        Res.ret (some (Value.Array (acc ++ items.map Item.val)))
          (pos + (items_text items).length + 1) := by
  intro items
  induction items with
  | nil =>
    intro tl acc pos _ htl hd
    refine ⟨1, ?_⟩
    rw [array_loop_succ, holds_at_closes hd htl]
    simp [items_text]
  | cons i rest ih =>
    intro tl acc pos hok htl hd
    obtain ⟨hst, hp, hsep, hrest⟩ := hok
    rw [items_text_cons, List.append_assoc, List.append_assoc] at hd
    obtain ⟨f1, hf1⟩ := hp s pos hd
    have hd1 := drop_add_of_drop hd
    have hskip := sep_skip hd1 hsep (by decide) (by decide) (stops_items_text hrest htl)
    have hd2 := drop_add_of_drop hd1
    obtain ⟨f2, hf2⟩ := ih tl (acc ++ [i.val]) _ hrest htl hd2
    refine ⟨max f1 f2 + 1, ?_⟩
    have hg : holds_at s pos (fun c => decide (c.toNat ≠ 93)) = true := by
      obtain ⟨c, l, hcl, _, _, _, h93⟩ := hst
      rw [hcl] at hd
      rw [holds_at_of_drop hd]
      simp [h93]
    rw [array_loop_succ, if_pos hg,
      parse_value_mono stod s (le_max_left f1 f2) hf1 (by intro h; cases h)]
    simp only
    rw [hskip, array_loop_mono stod s (le_max_right f1 f2) hf2 (by intro h; cases h)]
    simp [items_text_cons]
    omega

theorem quote_free_iff (str : List Char) :
    quote_free str = true ↔ ∀ c ∈ str, c ≠ quote := by
  unfold quote_free
  simp

theorem parse_value_string (stod : List Char → Option Double) {s : List Char} {pos : Nat}
    {str follow : List Char} (h : s.drop pos = generate_string str ++ follow)
    (hq : quote_free str = true) (fuel : Nat) :
    parse_value stod s (fuel + 1) pos =
      Res.ret (some (Value.String str)) (pos + (generate_string str).length) := by
  have hd : s.drop pos = quote :: (str ++ quote :: follow) := by
    rw [h]; simp [generate_string]
  have hd1 := drop_succ_of_drop hd
  have hlt1 : pos + 1 < s.length := by
    have h1 := lt_length_of_drop hd
    have h2 : (s.drop (pos + 1)).length = (str ++ quote :: follow).length := by rw [hd1]
    rw [List.length_drop, List.length_append, List.length_cons] at h2
    omega
  have hv : parse_value stod s (fuel + 1) pos = parse_string s pos := by
    rw [parse_value_at stod s hd (by decide)]
    rfl
  rw [hv]
  simp only [parse_string]
  rw [string_loop_found hlt1 str _ _ follow hd1 ((quote_free_iff str).mp hq) (by
    have : (s.drop (pos + 1)).length = (str ++ quote :: follow).length := by rw [hd1]
    rw [List.length_drop, List.length_append] at this
    omega)]
  simp only [Nat.add_sub_cancel_left]
  rw [substr_of_drop hd1 (by omega)]
  simp [generate_string]
  omega

theorem members_text_cons (m : Member) (rest : List Member) :
    members_text (m :: rest) =
      generate_string m.key ++ m.colon ++ m.text ++ m.sep ++ members_text rest := rfl

theorem stops_members_text {ms : List Member}
    {tl : List Char} (htl : closes 125 tl) :
    stops (fun c => isspace c || decide (c.toNat = 44)) (members_text ms ++ tl) := by
  cases ms with
  | nil => exact stops_of_closes htl 44 (by omega) (by omega)
  | cons m rest =>
    rw [members_text_cons]
    simp only [generate_string, List.append_assoc, List.singleton_append, List.cons_append]
    exact stops_cons _ (by decide)

theorem object_loop_members (stod : List Char → Option Double) (s : List Char) :
    ∀ (ms : List Member) (tl : List Char) (obj : List (List Char × Value)) (pos : Nat),
      object_members_ok stod ms tl → closes 125 tl → s.drop pos = members_text ms ++ tl →
      ∃ fuel, object_loop stod s fuel obj pos =
        Res.ret (some (Value.Object (assign_all obj ms)))
          (pos + (members_text ms).length + 1) := by
  intro ms
  induction ms with
  | nil =>
    intro tl obj pos _ htl hd
    refine ⟨1, ?_⟩
    rw [object_loop_succ, holds_at_closes hd htl]
    simp [members_text, assign_all]
  | cons m rest ih =>
    intro tl obj pos hok htl hd
    obtain ⟨hq, hcolon, hst, hp, hsep, hrest⟩ := hok
    rw [members_text_cons] at hd
    simp only [List.append_assoc] at hd
    have hkey := fun fuel => parse_value_string stod hd hq fuel
    have hd1 := drop_add_of_drop hd
    have hskip1 := sep_skip hd1 hcolon (by decide) (by decide)
      (stops_append_of_starts hst _ 58 (Or.inr rfl))
    have hd2 := drop_add_of_drop hd1
    obtain ⟨f1, hf1⟩ := hp s _ hd2
    have hd3 := drop_add_of_drop hd2
    have hskip2 := sep_skip hd3 hsep (by decide) (by decide)
      (stops_members_text htl)
    have hd4 := drop_add_of_drop hd3
    obtain ⟨f2, hf2⟩ := ih tl (map_set obj m.key m.val) _ hrest htl hd4
    refine ⟨max (max f1 f2) 1 + 1, ?_⟩
    have hg : holds_at s pos (fun c => decide (c.toNat ≠ 125)) = true := by
      have hdq : s.drop pos = quote :: (m.key ++ quote :: (m.colon ++ (m.text ++
          (m.sep ++ (members_text rest ++ tl))))) := by
        rw [hd]; simp [generate_string]
      rw [holds_at_of_drop hdq]
      decide
    obtain ⟨n, hn⟩ : ∃ n, max (max f1 f2) 1 = n + 1 :=
      ⟨max (max f1 f2) 1 - 1, by have := le_max_right (max f1 f2) 1; omega⟩
    rw [object_loop_succ, if_pos hg, hn, hkey n]
    simp only
    rw [hskip1, ← hn,
      parse_value_mono stod s (le_trans (le_max_left f1 f2) (le_max_left _ 1)) hf1
        (by intro h; cases h)]
    simp only
    rw [hskip2,
      object_loop_mono stod s (le_trans (le_max_right f1 f2) (le_max_left _ 1)) hf2
        (by intro h; cases h)]
    simp [members_text_cons, assign_all]
    omega

/-! ## Generated members -/

section
variable (fmt : Double → List Char)

theorem items_text_comma_items : ∀ (xs : List Value),
    items_text (comma_items fmt xs) = join_with [Char.ofNat 44] (xs.map (generate fmt))
  | [] => rfl
  | [x] => by simp [comma_items, items_text, join_with]
  | x :: y :: rest => by
    rw [comma_items, items_text_cons, items_text_comma_items (y :: rest)]
    simp [join_with]

theorem comma_items_val : ∀ (xs : List Value), (comma_items fmt xs).map Item.val = xs
  | [] => rfl
  | [x] => rfl
  | x :: y :: rest => by
    rw [comma_items, List.map_cons, comma_items_val (y :: rest)]

theorem members_text_comma_members : ∀ (kvs : List (List Char × Value)),
    members_text (comma_members fmt kvs) =
      join_with [Char.ofNat 44] (kvs.map (member_text fmt))
  | [] => rfl
  | [kv] => by simp [comma_members, members_text, join_with, member_text]
  | kv :: kv2 :: rest => by
    rw [comma_members, members_text_cons, members_text_comma_members (kv2 :: rest)]
    simp [join_with, member_text]

theorem assign_all_comma_members : ∀ (kvs obj : List (List Char × Value)),
    assign_all obj (comma_members fmt kvs) = set_all obj kvs
  | [], _ => rfl
  | [kv], _ => rfl
  | kv :: kv2 :: rest, obj => by
    have ih := assign_all_comma_members (kv2 :: rest) (map_set obj kv.1 kv.2)
    unfold assign_all set_all at ih ⊢
    rw [comma_members, List.foldl_cons, List.foldl_cons]
    exact ih

theorem is_sep_nil (k : Nat) : is_sep k [] :=
  ⟨[], [], by simp, by simp, Or.inl rfl⟩

theorem is_sep_single (k : Nat) : is_sep k [Char.ofNat k] :=
  ⟨[], [], by simp, by simp, Or.inr rfl⟩

theorem stops_number_char_of_closes {k : Nat} {tl : List Char} (h : closes k tl)
    (hk : k = 93 ∨ k = 125) : stops number_char tl := by
  intro c hc
  have := h c hc
  unfold number_char isdigit
  simp [this]
  omega

theorem array_items_ok_comma (stod : List Char → Option Double) (tl : List Char)
    (htl : closes 93 tl) : ∀ (xs : List Value),
      (∀ x ∈ xs, starts_member 93 (generate fmt x) ∧
        ∀ follow, stops number_char follow → parses_to stod (generate fmt x) x follow) →
      array_items_ok stod (comma_items fmt xs) tl
  | [], _ => trivial
  | [x], h => by
    obtain ⟨h1, h2⟩ := h x (by simp)
    refine ⟨h1, ?_, is_sep_nil 44, trivial⟩
    exact h2 _ (stops_number_char_of_closes htl (Or.inl rfl))
  | x :: y :: rest, h => by
    obtain ⟨h1, h2⟩ := h x (by simp)
    refine ⟨h1, ?_, is_sep_single 44, ?_⟩
    · exact h2 _ (stops_cons _ (by decide))
    · exact array_items_ok_comma stod tl htl (y :: rest) (fun z hz => h z (by simp [hz]))

theorem object_members_ok_comma (stod : List Char → Option Double) (tl : List Char)
    (htl : closes 125 tl) : ∀ (kvs : List (List Char × Value)),
      (∀ kv ∈ kvs, quote_free kv.1 = true ∧ starts_member 125 (generate fmt kv.2) ∧
        ∀ follow, stops number_char follow → parses_to stod (generate fmt kv.2) kv.2 follow) →
      object_members_ok stod (comma_members fmt kvs) tl
  | [], _ => trivial
  | [kv], h => by
    obtain ⟨h0, h1, h2⟩ := h kv (by simp)
    refine ⟨h0, is_sep_single 58, h1, ?_, is_sep_nil 44, trivial⟩
    exact h2 _ (stops_number_char_of_closes htl (Or.inr rfl))
  | kv :: kv2 :: rest, h => by
    obtain ⟨h0, h1, h2⟩ := h kv (by simp)
    refine ⟨h0, is_sep_single 58, h1, ?_, is_sep_single 44, ?_⟩
    · exact h2 _ (stops_cons _ (by decide))
    · exact object_members_ok_comma stod tl htl (kv2 :: rest) (fun z hz => h z (by simp [hz]))

end

/-! ## Assignments into the map -/

theorem map_set_nil (k : List Char) (v : Value) : map_set [] k v = [(k, v)] := by
  rw [map_set]

theorem map_set_cons (k1 : List Char) (v1 : Value) (m : List (List Char × Value))
    (k : List Char) (v : Value) :
    map_set ((k1, v1) :: m) k v =
      if str_lt k k1 then (k, v) :: (k1, v1) :: m
      else if str_lt k1 k then (k1, v1) :: map_set m k v
      else (k1, v) :: m := by
  rw [map_set]

theorem map_set_append : ∀ (m : List (List Char × Value)) (k : List Char) (v : Value),
    (∀ kv ∈ m, str_lt kv.1 k = true) → map_set m k v = m ++ [(k, v)]
  | [], k, v, _ => map_set_nil k v
  | (k1, v1) :: m, k, v, h => by
    have h1 : str_lt k1 k = true := h (k1, v1) (by simp)
    rw [map_set_cons, if_neg (by simp [str_lt_asymm _ _ h1]), if_pos h1,
      map_set_append m k v (fun kv hkv => h kv (by simp [hkv]))]
    rfl

theorem keys_ascending_pairwise : ∀ (ks : List (List Char)), keys_ascending ks = true →
    ks.Pairwise (fun a b => str_lt a b = true)
  | [], _ => List.Pairwise.nil
  | [k], _ => List.pairwise_singleton _ _
  | k1 :: k2 :: rest, h => by
    have ht := keys_ascending_pairwise (k2 :: rest) (keys_ascending_tail h)
    rw [keys_ascending_cons2] at h
    simp only [Bool.and_eq_true] at h
    refine List.Pairwise.cons ?_ ht
    intro k hk
    rcases List.mem_cons.mp hk with rfl | hk
    · exact h.1
    · exact str_lt_trans _ _ _ h.1 ((List.pairwise_cons.mp ht).1 k hk)

theorem set_all_append : ∀ (kvs obj : List (List Char × Value)),
    ((obj ++ kvs).map Prod.fst).Pairwise (fun a b => str_lt a b = true) →
    set_all obj kvs = obj ++ kvs
  | [], obj, _ => by simp [set_all]
  | (k, v) :: rest, obj, h => by
    have hlt : ∀ kv ∈ obj, str_lt kv.1 k = true := by
      intro kv hkv
      rw [List.map_append, List.pairwise_append] at h
      exact h.2.2 kv.1 (List.mem_map_of_mem _ hkv) k (by simp)
    have ih := set_all_append rest (obj ++ [(k, v)]) (by simpa using h)
    unfold set_all at ih ⊢
    rw [List.foldl_cons, map_set_append obj k v hlt, ih]
    simp

/-- Assigning the entries of a map, in its own order, into the empty map gives it back. -/
theorem set_all_ascending (kvs : List (List Char × Value))
    (h : keys_ascending (kvs.map Prod.fst) = true) : set_all [] kvs = kvs := by
  have := set_all_append kvs [] (by simpa using keys_ascending_pairwise _ h)
  simpa using this

/-! ## Parsing a generated text -/

theorem class_list_iff : ∀ (xs : List Value),
    class_list xs = true ↔ ∀ x ∈ xs, x.round_trip_class = true
  | [] => by simp [class_list]
  | x :: xs => by
    rw [class_list]
    simp [class_list_iff xs]

theorem class_members_iff : ∀ (kvs : List (List Char × Value)),
    class_members kvs = true ↔
      ∀ kv ∈ kvs, quote_free kv.1 = true ∧ kv.2.round_trip_class = true
  | [] => by simp [class_members]
  | (k, x) :: kvs => by
    rw [class_members]
    simp [class_members_iff kvs, and_assoc]

theorem class_Array (xs : List Value) :
    (Value.Array xs).round_trip_class = true ↔ ∀ x ∈ xs, x.round_trip_class = true := by
  rw [Value.round_trip_class, class_list_iff]

theorem class_Object (kvs : List (List Char × Value)) :
    (Value.Object kvs).round_trip_class = true ↔
      ∀ kv ∈ kvs, quote_free kv.1 = true ∧ kv.2.round_trip_class = true := by
  rw [Value.round_trip_class, class_members_iff]

theorem class_Int (n : Int) :
    (Value.Int n).round_trip_class = true ↔ 0 ≤ n ∧ n ≤ 2147483647 := by
  rw [Value.round_trip_class]
  simp

theorem class_Float (x : Double) : (Value.Float x).round_trip_class = false := by
  rw [Value.round_trip_class]

section
variable (stod : List Char → Option Double) (fmt : Double → List Char)

theorem starts_member_cons {k : Nat} (c : Char) (r : List Char) (h1 : isspace c = false)
    (h2 : c.toNat ≠ 44) (h3 : c.toNat ≠ 58) (h4 : c.toNat ≠ k) : starts_member k (c :: r) :=
  ⟨c, r, rfl, h1, h2, h3, h4⟩

theorem generate_starts (t : Value) (ht : t.round_trip_class = true) (k : Nat)
    (hk : k = 93 ∨ k = 125) : starts_member k (generate fmt t) := by
  cases t with
  | Null =>
    rw [generate]
    exact starts_member_cons _ _ (by decide) (by decide) (by decide)
      (by rcases hk with rfl | rfl <;> decide)
  | Bool b =>
    rw [generate]
    cases b
    · exact starts_member_cons _ _ (by decide) (by decide) (by decide)
        (by rcases hk with rfl | rfl <;> decide)
    · exact starts_member_cons _ _ (by decide) (by decide) (by decide)
        (by rcases hk with rfl | rfl <;> decide)
  | Int n =>
    rw [generate]
    obtain ⟨h1, h2, _⟩ := to_string_spec ((class_Int n).mp ht).1
    obtain ⟨c, r, hcr⟩ := List.exists_cons_of_ne_nil h1
    have hc := h2 c (by rw [hcr]; simp)
    rw [hcr]
    have hsp := isdigit_not_isspace hc
    unfold isdigit at hc
    simp at hc
    exact starts_member_cons _ _ hsp (by omega) (by omega) (by omega)
  | Float x => rw [class_Float] at ht; cases ht
  | String str =>
    rw [generate]
    exact starts_member_cons _ _ (by decide) (by decide) (by decide)
      (by rcases hk with rfl | rfl <;> decide)
  | Array xs =>
    rw [generate_Array_eq]
    exact starts_member_cons _ _ (by decide) (by decide) (by decide)
      (by rcases hk with rfl | rfl <;> decide)
  | Object kvs =>
    rw [generate_Object_eq]
    exact starts_member_cons _ _ (by decide) (by decide) (by decide)
      (by rcases hk with rfl | rfl <;> decide)

theorem parses_null (follow : List Char) :
    parses_to stod "null".toList Value.Null follow := by
  intro s pos h
  refine ⟨1, ?_⟩
  have hd : s.drop pos = Char.ofNat 110 :: ("ull".toList ++ follow) := h
  rw [parse_value_at stod s hd (by decide), if_pos (by decide)]
  unfold parse_null
  have hsub : substr s pos 4 = some "null".toList :=
    substr_of_drop (a := "null".toList) h (le_of_lt (lt_length_of_drop hd))
  rw [hsub]
  rfl

theorem parses_true (follow : List Char) :
    parses_to stod "true".toList (Value.Bool true) follow := by
  intro s pos h
  refine ⟨1, ?_⟩
  have hd : s.drop pos = Char.ofNat 116 :: ("rue".toList ++ follow) := h
  rw [parse_value_at stod s hd (by decide), if_neg (by decide), if_pos (by decide)]
  unfold parse_true
  have hsub : substr s pos 4 = some "true".toList :=
    substr_of_drop (a := "true".toList) h (le_of_lt (lt_length_of_drop hd))
  rw [hsub]
  rfl

theorem parses_false (follow : List Char) :
    parses_to stod "false".toList (Value.Bool false) follow := by
  intro s pos h
  refine ⟨1, ?_⟩
  have hd : s.drop pos = Char.ofNat 102 :: ("alse".toList ++ follow) := h
  rw [parse_value_at stod s hd (by decide), if_neg (by decide), if_neg (by decide),
    if_pos (by decide)]
  unfold parse_false
  have hsub : substr s pos 5 = some "false".toList :=
    substr_of_drop (a := "false".toList) h (le_of_lt (lt_length_of_drop hd))
  rw [hsub]
  rfl

theorem parses_int (n : Int) (h0 : 0 ≤ n) (hmax : n ≤ 2147483647) (follow : List Char)
    (hf : stops number_char follow) : parses_to stod (to_string n) (Value.Int n) follow := by
  intro s pos h
  refine ⟨1, ?_⟩
  obtain ⟨h1, h2, h3⟩ := to_string_spec h0
  rw [parse_value_number stod s h h1 (fun c hc => isdigit_number_char (h2 c hc)) hf]
  unfold number_result
  rw [is_Float_digits h2, stoi_digits h1 h2, h3]
  have : digits_value (to_string n) ≤ 2147483647 := by omega
  simp [this]

theorem parses_string (str : List Char) (hq : quote_free str = true) (follow : List Char) :
    parses_to stod (generate_string str) (Value.String str) follow := by
  intro s pos h
  exact ⟨1, parse_value_string stod h hq 0⟩

/-- The array loop on the comma-separated texts of elements that `parse_value` reads. -/
theorem array_loop_generated (s : List Char) (xs : List Value) (tl : List Char)
    (htl : closes 93 tl)
    (h : ∀ x ∈ xs, starts_member 93 (generate fmt x) ∧
      ∀ follow, stops number_char follow → parses_to stod (generate fmt x) x follow)
    (pos : Nat)
    (hd : s.drop pos = join_with [Char.ofNat 44] (xs.map (generate fmt)) ++ tl) :
    ∃ fuel, array_loop stod s fuel [] pos =
      Res.ret (some (Value.Array xs))
        (pos + (join_with [Char.ofNat 44] (xs.map (generate fmt))).length + 1) := by
  rw [← items_text_comma_items] at hd ⊢
  obtain ⟨f, hf⟩ := array_loop_items stod s (comma_items fmt xs) tl [] pos
    (array_items_ok_comma fmt stod tl htl xs h) htl hd
  rw [comma_items_val, List.nil_append] at hf
  exact ⟨f, hf⟩

/-- The object loop on the comma-separated texts of pairs whose values `parse_value`
reads. -/
theorem object_loop_generated (s : List Char) (kvs : List (List Char × Value))
    (tl : List Char) (htl : closes 125 tl)
    (h : ∀ kv ∈ kvs, quote_free kv.1 = true ∧ starts_member 125 (generate fmt kv.2) ∧
      ∀ follow, stops number_char follow → parses_to stod (generate fmt kv.2) kv.2 follow)
    (pos : Nat)
    (hd : s.drop pos = join_with [Char.ofNat 44] (kvs.map (member_text fmt)) ++ tl) :
    ∃ fuel, object_loop stod s fuel [] pos =
      Res.ret (some (Value.Object (set_all [] kvs)))
        (pos + (join_with [Char.ofNat 44] (kvs.map (member_text fmt))).length + 1) := by
  rw [← members_text_comma_members] at hd ⊢
  obtain ⟨f, hf⟩ := object_loop_members stod s (comma_members fmt kvs) tl [] pos
    (object_members_ok_comma fmt stod tl htl kvs h) htl hd
  rw [assign_all_comma_members] at hf
  exact ⟨f, hf⟩

theorem parses_array (xs : List Value)
    (h : ∀ x ∈ xs, starts_member 93 (generate fmt x) ∧
      ∀ follow, stops number_char follow → parses_to stod (generate fmt x) x follow)
    (follow : List Char) : parses_to stod (generate fmt (Value.Array xs)) (Value.Array xs) follow := by
  intro s pos hd
  rw [generate_Array_eq] at hd ⊢
  have hd0 : s.drop pos = Char.ofNat 91 ::
      (join_with [Char.ofNat 44] (xs.map (generate fmt)) ++ (Char.ofNat 93 :: follow)) := by
    rw [hd]; simp
  have hcl : closes 93 (Char.ofNat 93 :: follow) := by
    intro c hc; simp at hc; rw [← hc]; rfl
  obtain ⟨f, hf⟩ := array_loop_generated stod fmt s xs _ hcl h (pos + 1) (drop_succ_of_drop hd0)
  refine ⟨f + 2, ?_⟩
  rw [parse_value_at stod s hd0 (by decide), if_neg (by decide), if_neg (by decide),
    if_neg (by decide), if_neg (by decide), if_pos (by decide), parse_array_succ, hf]
  simp
  omega

theorem parses_object (kvs : List (List Char × Value))
    (h : ∀ kv ∈ kvs, quote_free kv.1 = true ∧ starts_member 125 (generate fmt kv.2) ∧
      ∀ follow, stops number_char follow → parses_to stod (generate fmt kv.2) kv.2 follow)
    (follow : List Char) :
    parses_to stod (generate fmt (Value.Object kvs)) (Value.Object (set_all [] kvs)) follow := by
  intro s pos hd
  rw [generate_Object_eq] at hd ⊢
  have hd0 : s.drop pos = Char.ofNat 123 ::
      (join_with [Char.ofNat 44] (kvs.map (member_text fmt)) ++ (Char.ofNat 125 :: follow)) := by
    rw [hd]; simp
  have hcl : closes 125 (Char.ofNat 125 :: follow) := by
    intro c hc; simp at hc; rw [← hc]; rfl
  obtain ⟨f, hf⟩ := object_loop_generated stod fmt s kvs _ hcl h (pos + 1)
    (drop_succ_of_drop hd0)
  refine ⟨f + 2, ?_⟩
  rw [parse_value_at stod s hd0 (by decide), if_neg (by decide), if_neg (by decide),
    if_neg (by decide), if_neg (by decide), if_neg (by decide), if_pos (by decide),
    parse_object_succ, hf]
  simp
  omega

/-- The generated text of a tree of the round-trip class is read back as the tree, with
the cursor right behind it, whatever follows; behind an `Int` there must be no digit,
`.` or `e`. -/
theorem parse_value_generate (t : Value) (hc : t.round_trip_class = true)
    (hwf : t.wf = true) (follow : List Char)
    (hfollow : ∀ n, t = Value.Int n → stops number_char follow) :
    parses_to stod (generate fmt t) t follow := by
  revert hc hwf follow
  induction t using Value.induct with
  | hNull => intro _ _ follow _; rw [generate]; exact parses_null stod follow
  | hBool b =>
    intro _ _ follow _
    rw [generate]
    cases b
    · exact parses_false stod follow
    · exact parses_true stod follow
  | hInt n =>
    intro hc _ follow hfollow
    rw [generate]
    obtain ⟨h0, hmax⟩ := (class_Int n).mp hc
    exact parses_int stod n h0 hmax follow (hfollow n rfl)
  | hFloat x => intro hc; rw [class_Float] at hc; cases hc
  | hString str =>
    intro hc _ follow _
    rw [generate]
    exact parses_string stod str (by rw [Value.round_trip_class] at hc; exact hc) follow
  | hArray xs ih =>
    intro hc hwf follow _
    rw [class_Array] at hc
    rw [wf_Array] at hwf
    exact parses_array stod fmt xs (fun x hx =>
      ⟨generate_starts fmt x (hc x hx) 93 (Or.inl rfl),
       fun fl hfl => ih x hx (hc x hx) (hwf x hx) fl (fun _ _ => hfl)⟩) follow
  | hObject kvs ih =>
    intro hc hwf follow _
    rw [class_Object] at hc
    rw [wf_Object] at hwf
    have := parses_object stod fmt kvs (fun kv hkv =>
      ⟨(hc kv hkv).1, generate_starts fmt kv.2 (hc kv hkv).2 125 (Or.inr rfl),
       fun fl hfl => ih kv hkv (hc kv hkv).2 (hwf.2 kv hkv) fl (fun _ _ => hfl)⟩) follow
    rw [set_all_ascending kvs hwf.1] at this
    exact this

/-- C1: for every tree of the round-trip class, whose objects hold their entries as the
map does, `parse` of the generated text succeeds and returns the tree. -/
theorem round_trip (t : Value) (hc : t.round_trip_class = true) (hwf : t.wf = true) :
    parser stod (generate fmt t) = Outcome.node t := by
  have hp := parse_value_generate stod fmt t hc hwf [] (fun _ _ => stops_nil _)
  obtain ⟨c, r, hcr, hsp, _⟩ := generate_starts fmt t hc 93 (Or.inl rfl)
  have hws : parse_whitespace (generate fmt t) 0 = 0 :=
    parse_whitespace_of_stops (by
      show stops isspace (generate fmt t)
      rw [hcr]; exact stops_cons r hsp)
  obtain ⟨f, hf⟩ := hp (generate fmt t) 0 (by simp)
  rw [← hws] at hf
  exact parser_of_value stod _ hf

/-- Witness of C1: the tree of `{"a":1,"b":[true,false,null]}`. -/
theorem round_trip_witness :
    generate (fun _ => []) (Value.Object [("a".toList, Value.Int 1),
        ("b".toList, Value.Array [Value.Bool true, Value.Bool false, Value.Null])])
      = "\x7b\"a\":1,\"b\":[true,false,null]\x7d".toList ∧
    parser stod_examples "\x7b\"a\":1,\"b\":[true,false,null]\x7d".toList =
      Outcome.node (Value.Object [("a".toList, Value.Int 1),
        ("b".toList, Value.Array [Value.Bool true, Value.Bool false, Value.Null])]) :=
  ⟨by decide,
   round_trip stod_examples (fun _ => []) (Value.Object [("a".toList, Value.Int 1),
        ("b".toList, Value.Array [Value.Bool true, Value.Bool false, Value.Null])])
     (by decide) (by decide)⟩

end

/-! ## Texts of arrays and objects -/

section
variable (stod : List Char → Option Double) (fmt : Double → List Char)

theorem closes_nil (k : Nat) : closes k [] := by
  intro c hc; cases hc

theorem closes_same (k : Nat) (hk : (Char.ofNat k).toNat = k) (r : List Char) :
    closes k (Char.ofNat k :: r) := by
  intro c hc
  simp at hc
  rw [← hc]; exact hk

/-- The text of an opening bracket, comma-separated generated elements of the round-trip
class, and then either nothing or a closing bracket and anything, parses to the array of
the elements. -/
theorem parser_array_text (xs : List Value)
    (hxs : ∀ x ∈ xs, x.round_trip_class = true ∧ x.wf = true) (tl : List Char)
    (htl : closes 93 tl) :
    parser stod ([Char.ofNat 91] ++ join_with [Char.ofNat 44] (xs.map (generate fmt)) ++ tl) =
      Outcome.node (Value.Array xs) := by
  generalize hs : [Char.ofNat 91] ++ join_with [Char.ofNat 44] (xs.map (generate fmt)) ++ tl = s
  have hd0 : s.drop 0 = Char.ofNat 91 ::
      (join_with [Char.ofNat 44] (xs.map (generate fmt)) ++ tl) := by
    rw [← hs]; simp
  have hws : parse_whitespace s 0 = 0 :=
    parse_whitespace_of_stops (by rw [hd0]; exact stops_cons _ (by decide))
  obtain ⟨f, hf⟩ := array_loop_generated stod fmt s xs tl htl (fun x hx =>
    ⟨generate_starts fmt x (hxs x hx).1 93 (Or.inl rfl),
     fun fl hfl => parse_value_generate stod fmt x (hxs x hx).1 (hxs x hx).2 fl
       (fun _ _ => hfl)⟩) 1 (drop_succ_of_drop hd0)
  have hv : parse_value stod s (f + 2) (parse_whitespace s 0) = Res.ret (some (Value.Array xs))
      (1 + (join_with [Char.ofNat 44] (xs.map (generate fmt))).length + 1) := by
    rw [hws, parse_value_at stod s hd0 (by decide), if_neg (by decide), if_neg (by decide),
      if_neg (by decide), if_neg (by decide), if_pos (by decide), parse_array_succ, hf]
  exact parser_of_value stod s hv

/-- The text of an opening brace, comma-separated generated pairs of the round-trip class,
and then either nothing or a closing brace and anything, parses to the object that the
assignments of the pairs, in order, build. -/
theorem parser_object_text (kvs : List (List Char × Value))
    (hkvs : ∀ kv ∈ kvs, quote_free kv.1 = true ∧ kv.2.round_trip_class = true ∧ kv.2.wf = true)
    (tl : List Char) (htl : closes 125 tl) :
    parser stod ([Char.ofNat 123] ++ join_with [Char.ofNat 44] (kvs.map (member_text fmt)) ++ tl)
      = Outcome.node (Value.Object (set_all [] kvs)) := by
  generalize hs :
    [Char.ofNat 123] ++ join_with [Char.ofNat 44] (kvs.map (member_text fmt)) ++ tl = s
  have hd0 : s.drop 0 = Char.ofNat 123 ::
      (join_with [Char.ofNat 44] (kvs.map (member_text fmt)) ++ tl) := by
    rw [← hs]; simp
  have hws : parse_whitespace s 0 = 0 :=
    parse_whitespace_of_stops (by rw [hd0]; exact stops_cons _ (by decide))
  obtain ⟨f, hf⟩ := object_loop_generated stod fmt s kvs tl htl (fun kv hkv =>
    ⟨(hkvs kv hkv).1, generate_starts fmt kv.2 (hkvs kv hkv).2.1 125 (Or.inr rfl),
     fun fl hfl => parse_value_generate stod fmt kv.2 (hkvs kv hkv).2.1 (hkvs kv hkv).2.2 fl
       (fun _ _ => hfl)⟩) 1 (drop_succ_of_drop hd0)
  have hv : parse_value stod s (f + 2) (parse_whitespace s 0) =
      Res.ret (some (Value.Object (set_all [] kvs)))
        (1 + (join_with [Char.ofNat 44] (kvs.map (member_text fmt))).length + 1) := by
    rw [hws, parse_value_at stod s hd0 (by decide), if_neg (by decide), if_neg (by decide),
      if_neg (by decide), if_neg (by decide), if_neg (by decide), if_pos (by decide),
      parse_object_succ, hf]
  exact parser_of_value stod s hv

/-- C9: the text of a bracketed, comma-separated list of canonical decimals of integers in
`0 .. 2147483647` parses to the array of these `Int`s in the same order, and `generate`
of that array is the text again. -/
theorem array_order_preserved (ns : List Int) (hns : ∀ n ∈ ns, 0 ≤ n ∧ n ≤ 2147483647) :
    parser stod ("[".toList ++ join_with ",".toList (ns.map decimal) ++ "]".toList) =
        Outcome.node (Value.Array (ns.map Value.Int)) ∧
      generate fmt (Value.Array (ns.map Value.Int)) =
        "[".toList ++ join_with ",".toList (ns.map decimal) ++ "]".toList := by
  have hmap : (ns.map Value.Int).map (generate fmt) = ns.map decimal := by
    rw [List.map_map]
    apply List.map_congr_left
    intro n _
    simp only [Function.comp]
    rw [generate, to_string_eq_decimal]
  have hxs : ∀ x ∈ ns.map Value.Int, x.round_trip_class = true ∧ x.wf = true := by
    intro x hx
    obtain ⟨n, hn, rfl⟩ := List.mem_map.mp hx
    exact ⟨(class_Int n).mpr (hns n hn), rfl⟩
  have h := parser_array_text stod fmt (ns.map Value.Int) hxs "]".toList
    (closes_same 93 (by decide) [])
  rw [hmap] at h
  refine ⟨h, ?_⟩
  rw [generate_Array_eq, hmap]
  rfl

/-- Witness of C9: the texts `[3,1,2]` and `[]`. -/
theorem array_order_preserved_witness :
    (parser stod_examples "[3,1,2]".toList =
        Outcome.node (Value.Array [Value.Int 3, Value.Int 1, Value.Int 2]) ∧
      generate (fun _ => []) (Value.Array [Value.Int 3, Value.Int 1, Value.Int 2]) =
        "[3,1,2]".toList) ∧
    (parser stod_examples "[]".toList = Outcome.node (Value.Array []) ∧
      generate (fun _ => []) (Value.Array []) = "[]".toList) :=
  ⟨array_order_preserved stod_examples (fun _ => []) [3, 1, 2] (by decide),
   array_order_preserved stod_examples (fun _ => []) [] (by simp)⟩

/-- The cursor behind the text of an opening bracket and comma-separated generated
elements: `parse_value` returns it one behind the end of the elements, also when no closing
bracket is there. -/
theorem array_text_cursor (xs : List Value)
    (hxs : ∀ x ∈ xs, x.round_trip_class = true ∧ x.wf = true) (tl : List Char)
    (htl : closes 93 tl) :
    ∃ fuel, parse_value stod
        ([Char.ofNat 91] ++ join_with [Char.ofNat 44] (xs.map (generate fmt)) ++ tl) fuel 0 =
      Res.ret (some (Value.Array xs))
        (1 + (join_with [Char.ofNat 44] (xs.map (generate fmt))).length + 1) := by
  generalize hs : [Char.ofNat 91] ++ join_with [Char.ofNat 44] (xs.map (generate fmt)) ++ tl = s
  have hd0 : s.drop 0 = Char.ofNat 91 ::
      (join_with [Char.ofNat 44] (xs.map (generate fmt)) ++ tl) := by
    rw [← hs]; simp
  obtain ⟨f, hf⟩ := array_loop_generated stod fmt s xs tl htl (fun x hx =>
    ⟨generate_starts fmt x (hxs x hx).1 93 (Or.inl rfl),
     fun fl hfl => parse_value_generate stod fmt x (hxs x hx).1 (hxs x hx).2 fl
       (fun _ _ => hfl)⟩) 1 (drop_succ_of_drop hd0)
  refine ⟨f + 2, ?_⟩
  rw [parse_value_at stod s hd0 (by decide), if_neg (by decide), if_neg (by decide),
    if_neg (by decide), if_neg (by decide), if_pos (by decide), parse_array_succ, hf]

/-- The cursor behind the text of an opening brace and comma-separated generated pairs. -/
theorem object_text_cursor (kvs : List (List Char × Value))
    (hkvs : ∀ kv ∈ kvs, quote_free kv.1 = true ∧ kv.2.round_trip_class = true ∧ kv.2.wf = true)
    (tl : List Char) (htl : closes 125 tl) :
    ∃ fuel, parse_value stod
        ([Char.ofNat 123] ++ join_with [Char.ofNat 44] (kvs.map (member_text fmt)) ++ tl) fuel 0 =
      Res.ret (some (Value.Object (set_all [] kvs)))
        (1 + (join_with [Char.ofNat 44] (kvs.map (member_text fmt))).length + 1) := by
  generalize hs :
    [Char.ofNat 123] ++ join_with [Char.ofNat 44] (kvs.map (member_text fmt)) ++ tl = s
  have hd0 : s.drop 0 = Char.ofNat 123 ::
      (join_with [Char.ofNat 44] (kvs.map (member_text fmt)) ++ tl) := by
    rw [← hs]; simp
  obtain ⟨f, hf⟩ := object_loop_generated stod fmt s kvs tl htl (fun kv hkv =>
    ⟨(hkvs kv hkv).1, generate_starts fmt kv.2 (hkvs kv hkv).2.1 125 (Or.inr rfl),
     fun fl hfl => parse_value_generate stod fmt kv.2 (hkvs kv hkv).2.1 (hkvs kv hkv).2.2 fl
       (fun _ _ => hfl)⟩) 1 (drop_succ_of_drop hd0)
  refine ⟨f + 2, ?_⟩
  rw [parse_value_at stod s hd0 (by decide), if_neg (by decide), if_neg (by decide),
    if_neg (by decide), if_neg (by decide), if_neg (by decide), if_pos (by decide),
    parse_object_succ, hf]

/-- C4 (the code): on a text that opens an array or an object, holds comma-separated
generated members of the round-trip class and ends without the closing bracket or brace,
`parse` does not return the empty optional: the loop leaves on the end of the text and
`parse` returns the array of the elements, or the object that the assignments of the
pairs build, and the closing `pos++` leaves the cursor one behind the end of the text. -/
theorem unterminated_container (xs : List Value) (kvs : List (List Char × Value))
    (hxs : ∀ x ∈ xs, x.round_trip_class = true ∧ x.wf = true)
    (hkvs : ∀ kv ∈ kvs, quote_free kv.1 = true ∧ kv.2.round_trip_class = true ∧ kv.2.wf = true) :
    parser stod ("[".toList ++ join_with ",".toList (xs.map (generate fmt))) =
        Outcome.node (Value.Array xs) ∧
      parser stod ("\x7b".toList ++ join_with ",".toList (kvs.map (member_text fmt))) =
        Outcome.node (Value.Object (set_all [] kvs)) ∧
      (∃ fuel, parse_value stod
          ("[".toList ++ join_with ",".toList (xs.map (generate fmt))) fuel 0 =
        Res.ret (some (Value.Array xs))
          (("[".toList ++ join_with ",".toList (xs.map (generate fmt))).length + 1)) ∧
      (∃ fuel, parse_value stod
          ("\x7b".toList ++ join_with ",".toList (kvs.map (member_text fmt))) fuel 0 =
        Res.ret (some (Value.Object (set_all [] kvs)))
          (("\x7b".toList ++ join_with ",".toList (kvs.map (member_text fmt))).length + 1)) := by
  have h1 := parser_array_text stod fmt xs hxs [] (closes_nil 93)
  have h2 := parser_object_text stod fmt kvs hkvs [] (closes_nil 125)
  obtain ⟨f3, h3⟩ := array_text_cursor stod fmt xs hxs [] (closes_nil 93)
  obtain ⟨f4, h4⟩ := object_text_cursor stod fmt kvs hkvs [] (closes_nil 125)
  rw [List.append_nil] at h1 h2 h3 h4
  refine ⟨h1, h2, ⟨f3, ?_⟩, ⟨f4, ?_⟩⟩
  · rw [show "[".toList = [Char.ofNat 91] from rfl, show ",".toList = [Char.ofNat 44] from rfl,
      h3, List.length_append, List.length_singleton]
  · rw [show "\x7b".toList = [Char.ofNat 123] from rfl,
      show ",".toList = [Char.ofNat 44] from rfl, h4, List.length_append, List.length_singleton]

/-- Witness of C4: the unterminated texts `[`, `[1`, `[1,2` and `{"a":1` parse to the
array or object of the members read, not to the empty optional. -/
theorem unterminated_container_witness :
    parser stod_examples "[".toList = Outcome.node (Value.Array []) ∧
      parser stod_examples "[1".toList = Outcome.node (Value.Array [Value.Int 1]) ∧
      parser stod_examples "[1,2".toList =
        Outcome.node (Value.Array [Value.Int 1, Value.Int 2]) ∧
      parser stod_examples "\x7b\"a\":1".toList =
        Outcome.node (Value.Object [("a".toList, Value.Int 1)]) ∧
      (∃ fuel, parse_value stod_examples "[1".toList fuel 0 =
        Res.ret (some (Value.Array [Value.Int 1])) 3) :=
  ⟨(unterminated_container stod_examples (fun _ => []) [] [] (by simp) (by simp)).1,
   (unterminated_container stod_examples (fun _ => []) [Value.Int 1] [] (by decide)
      (by simp)).1,
   (unterminated_container stod_examples (fun _ => []) [Value.Int 1, Value.Int 2]
      [("a".toList, Value.Int 1)] (by decide) (by decide)).1,
   (unterminated_container stod_examples (fun _ => []) [Value.Int 1, Value.Int 2]
      [("a".toList, Value.Int 1)] (by decide) (by decide)).2.1,
   (unterminated_container stod_examples (fun _ => []) [Value.Int 1] [] (by decide)
      (by simp)).2.2.1⟩

end

/-! ## Duplicate keys -/

theorem map_find_cons (k1 : List Char) (v1 : Value) (m : List (List Char × Value))
    (k : List Char) :
    map_find ((k1, v1) :: m) k = if k1 = k then some v1 else map_find m k := by
  rw [map_find]

theorem str_lt_ne {a b : List Char} (h : str_lt a b = true) : a ≠ b := by
  intro hab
  rw [hab, str_lt_irrefl] at h
  cases h

theorem map_find_map_set : ∀ (m : List (List Char × Value)) (k : List Char) (v : Value)
    (k2 : List Char),
    map_find (map_set m k v) k2 = if k = k2 then some v else map_find m k2
  | [], k, v, k2 => by
    rw [map_set_nil, map_find_cons]
  | (k1, v1) :: m, k, v, k2 => by
    rw [map_set_cons]
    by_cases h1 : str_lt k k1 = true
    · rw [if_pos h1, map_find_cons]
    · rw [if_neg h1]
      by_cases h2 : str_lt k1 k = true
      · rw [if_pos h2, map_find_cons, map_find_map_set m k v k2, map_find_cons]
        have hne := str_lt_ne h2
        by_cases hk : k = k2
        · subst hk
          rw [if_neg hne, if_pos rfl, if_pos rfl]
        · rw [if_neg hk, if_neg hk]
      · rw [if_neg h2]
        have heq : k = k1 := str_lt_connected _ _ (by simpa using h1) (by simpa using h2)
        subst heq
        rw [map_find_cons, map_find_cons]
        by_cases hk : k = k2
        · rw [if_pos hk, if_pos hk]
        · rw [if_neg hk, if_neg hk, if_neg hk]

theorem last_value_cons (k1 : List Char) (v1 : Value) (rest : List (List Char × Value))
    (k : List Char) :
    last_value ((k1, v1) :: rest) k =
      (last_value rest k).orElse (fun _ => if k1 = k then some v1 else none) := by
  rw [last_value]
  cases last_value rest k <;> rfl

theorem map_find_set_all : ∀ (kvs obj : List (List Char × Value)) (k : List Char),
    map_find (set_all obj kvs) k = (last_value kvs k).orElse (fun _ => map_find obj k)
  | [], obj, k => rfl
  | (k1, v1) :: rest, obj, k => by
    have ih := map_find_set_all rest (map_set obj k1 v1) k
    unfold set_all at ih ⊢
    rw [List.foldl_cons, ih, last_value_cons, map_find_map_set]
    cases last_value rest k with
    | some v => rfl
    | none =>
      simp only [Option.orElse]
      by_cases hk : k1 = k
      · rw [if_pos hk, if_pos hk]
      · rw [if_neg hk, if_neg hk]

theorem mem_keys_map_set : ∀ (m : List (List Char × Value)) (k : List Char) (v : Value)
    (k2 : List Char), k2 ∈ (map_set m k v).map Prod.fst → k2 = k ∨ k2 ∈ m.map Prod.fst
  | [], k, v, k2, h => by
    rw [map_set_nil] at h
    simp at h
    exact Or.inl h
  | (k1, v1) :: m, k, v, k2, h => by
    rw [map_set_cons] at h
    split_ifs at h with h1 h2
    · simp at h ⊢
      tauto
    · simp only [List.map_cons, List.mem_cons] at h ⊢
      rcases h with h | h
      · exact Or.inr (Or.inl h)
      · rcases mem_keys_map_set m k v k2 h with h | h
        · exact Or.inl h
        · exact Or.inr (Or.inr h)
    · simp at h ⊢
      tauto

theorem map_set_pairwise : ∀ (m : List (List Char × Value)) (k : List Char) (v : Value),
    (m.map Prod.fst).Pairwise (fun a b => str_lt a b = true) →
    ((map_set m k v).map Prod.fst).Pairwise (fun a b => str_lt a b = true)
  | [], k, v, _ => by
    rw [map_set_nil]
    exact List.pairwise_singleton _ _
  | (k1, v1) :: m, k, v, h => by
    rw [map_set_cons]
    simp only [List.map_cons] at h
    obtain ⟨hhead, htail⟩ := List.pairwise_cons.mp h
    split_ifs with h1 h2
    · simp only [List.map_cons]
      refine List.Pairwise.cons ?_ h
      intro a ha
      rcases List.mem_cons.mp ha with rfl | ha
      · exact h1
      · exact str_lt_trans _ _ _ h1 (hhead a ha)
    · simp only [List.map_cons]
      refine List.Pairwise.cons ?_ (map_set_pairwise m k v htail)
      intro a ha
      rcases mem_keys_map_set m k v a ha with rfl | ha
      · exact h2
      · exact hhead a ha
    · simp only [List.map_cons]
      exact h

theorem set_all_pairwise : ∀ (kvs obj : List (List Char × Value)),
    (obj.map Prod.fst).Pairwise (fun a b => str_lt a b = true) →
    ((set_all obj kvs).map Prod.fst).Pairwise (fun a b => str_lt a b = true)
  | [], _, h => h
  | (k1, v1) :: rest, obj, h => by
    have ih := set_all_pairwise rest (map_set obj k1 v1) (map_set_pairwise obj k1 v1 h)
    unfold set_all at ih ⊢
    rw [List.foldl_cons]
    exact ih

theorem pairwise_keys_ascending : ∀ (ks : List (List Char)),
    ks.Pairwise (fun a b => str_lt a b = true) → keys_ascending ks = true
  | [], _ => rfl
  | [_], _ => rfl
  | k1 :: k2 :: rest, h => by
    obtain ⟨hhead, htail⟩ := List.pairwise_cons.mp h
    rw [keys_ascending_cons2, hhead k2 (by simp), pairwise_keys_ascending (k2 :: rest) htail]
    rfl

section
variable (stod : List Char → Option Double) (fmt : Double → List Char)

/-- C8: the text of a canonical object whose keys may repeat parses to the object that the
assignments of its pairs, in order, build; its keys are strictly ascending, so each is
bound once, and each key is bound to the value of its last pair in the text. -/
theorem duplicate_keys_last_wins (kvs : List (List Char × Value))
    (hkvs : ∀ kv ∈ kvs, quote_free kv.1 = true ∧ kv.2.round_trip_class = true ∧ kv.2.wf = true) :
    parser stod ("\x7b".toList ++ join_with ",".toList (kvs.map (member_text fmt)) ++
        "\x7d".toList) = Outcome.node (Value.Object (set_all [] kvs)) ∧
      keys_ascending ((set_all [] kvs).map Prod.fst) = true ∧
      ((set_all [] kvs).map Prod.fst).Nodup ∧
      ∀ k, map_find (set_all [] kvs) k = last_value kvs k := by
  have hp := set_all_pairwise kvs [] List.Pairwise.nil
  refine ⟨parser_object_text stod fmt kvs hkvs _ (closes_same 125 (by decide) []),
    pairwise_keys_ascending _ hp, ?_, ?_⟩
  · exact hp.imp (fun h => str_lt_ne h)
  · intro k
    rw [map_find_set_all]
    cases last_value kvs k <;> rfl

/-- Witness of C8: the text `{"a":1,"a":2}` parses to the object whose only entry binds `a`
to `Int 2`. -/
theorem duplicate_keys_last_wins_witness :
    parser stod_examples "\x7b\"a\":1,\"a\":2\x7d".toList =
        Outcome.node (Value.Object [("a".toList, Value.Int 2)]) ∧
      map_find [("a".toList, Value.Int 2)] "a".toList = some (Value.Int 2) :=
  ⟨(duplicate_keys_last_wins stod_examples (fun _ => [])
      [("a".toList, Value.Int 1), ("a".toList, Value.Int 2)] (by decide)).1,
   rfl⟩

end

/-! ## The mutation interface -/

theorem map_index_nil (k : List Char) : map_index [] k = [(k, Value.Null)] := by
  rw [map_index]

theorem map_index_cons (k1 : List Char) (v1 : Value) (m : List (List Char × Value))
    (k : List Char) :
    map_index ((k1, v1) :: m) k =
      if str_lt k k1 then (k, Value.Null) :: (k1, v1) :: m
      else if str_lt k1 k then (k1, v1) :: map_index m k
      else (k1, v1) :: m := by
  rw [map_index]

theorem map_write_nil (k : List Char) (r : Value) : map_write [] k r = [] := by
  rw [map_write]

theorem map_write_cons (k1 : List Char) (v1 : Value) (m : List (List Char × Value))
    (k : List Char) (r : Value) :
    map_write ((k1, v1) :: m) k r =
      if k1 = k then (k1, r) :: m else (k1, v1) :: map_write m k r := by
  rw [map_write]

theorem map_find_nil (k : List Char) : map_find [] k = none := by
  rw [map_find]

theorem mem_keys_of_map_find : ∀ (m : List (List Char × Value)) (k : List Char) (v : Value),
    map_find m k = some v → k ∈ m.map Prod.fst
  | [], k, v, h => by rw [map_find_nil] at h; cases h
  | (k1, v1) :: m, k, v, h => by
    rw [map_find_cons] at h
    by_cases hk : k1 = k
    · simp [hk]
    · rw [if_neg hk] at h
      simp only [List.map_cons, List.mem_cons]
      exact Or.inr (mem_keys_of_map_find m k v h)

/-- On a map that holds the key, `operator[]` changes nothing. -/
theorem map_index_present : ∀ (m : List (List Char × Value)) (k : List Char) (v : Value),
    (m.map Prod.fst).Pairwise (fun a b => str_lt a b = true) → map_find m k = some v →
    map_index m k = m
  | [], k, v, _, h => by rw [map_find_nil] at h; cases h
  | (k1, v1) :: m, k, v, hp, h => by
    simp only [List.map_cons] at hp
    obtain ⟨hhead, htail⟩ := List.pairwise_cons.mp hp
    rw [map_find_cons] at h
    rw [map_index_cons]
    by_cases hk : k1 = k
    · subst hk
      rw [if_neg (by simp [str_lt_irrefl]), if_neg (by simp [str_lt_irrefl])]
    · rw [if_neg hk] at h
      have hlt : str_lt k1 k = true := hhead k (mem_keys_of_map_find m k v h)
      rw [if_neg (by simp [str_lt_asymm _ _ hlt]), if_pos hlt,
        map_index_present m k v htail h]

/-- After `operator[]` the key is bound: to `Null` when it was absent. -/
theorem map_find_map_index_absent : ∀ (m : List (List Char × Value)) (k : List Char),
    map_find m k = none → ∀ k2, map_find (map_index m k) k2 =
      if k = k2 then some Value.Null else map_find m k2
  | [], k, _, k2 => by
    rw [map_index_nil, map_find_cons]
  | (k1, v1) :: m, k, h, k2 => by
    rw [map_find_cons] at h
    by_cases hk : k1 = k
    · rw [if_pos hk] at h; cases h
    · rw [if_neg hk] at h
      rw [map_index_cons]
      by_cases h1 : str_lt k k1 = true
      · rw [if_pos h1, map_find_cons]
      · rw [if_neg h1]
        by_cases h2 : str_lt k1 k = true
        · rw [if_pos h2, map_find_cons, map_find_map_index_absent m k h k2, map_find_cons]
          by_cases hk2 : k = k2
          · subst hk2
            rw [if_neg hk, if_pos rfl, if_pos rfl]
          · rw [if_neg hk2, if_neg hk2]
        · exact absurd (str_lt_connected _ _ (by simpa using h1) (by simpa using h2)).symm hk

theorem map_index_length_absent : ∀ (m : List (List Char × Value)) (k : List Char),
    map_find m k = none → (map_index m k).length = m.length + 1
  | [], k, _ => by rw [map_index_nil]; rfl
  | (k1, v1) :: m, k, h => by
    rw [map_find_cons] at h
    by_cases hk : k1 = k
    · rw [if_pos hk] at h; cases h
    · rw [if_neg hk] at h
      rw [map_index_cons]
      split_ifs with h1 h2
      · simp
      · simp [map_index_length_absent m k h]
      · exact absurd (str_lt_connected _ _ (by simpa using h1) (by simpa using h2)).symm hk

/-- A store through the reference of `operator[]` is the assignment `obj[key] = val`. -/
theorem map_write_map_index : ∀ (m : List (List Char × Value)) (k : List Char) (v : Value),
    map_write (map_index m k) k v = map_set m k v
  | [], k, v => by
    rw [map_index_nil, map_write_cons, if_pos rfl, map_set_nil]
  | (k1, v1) :: m, k, v => by
    rw [map_index_cons, map_set_cons]
    by_cases h1 : str_lt k k1 = true
    · rw [if_pos h1, if_pos h1, map_write_cons, if_pos rfl]
    · rw [if_neg h1, if_neg h1]
      by_cases h2 : str_lt k1 k = true
      · rw [if_pos h2, if_pos h2, map_write_cons, if_neg (str_lt_ne h2),
          map_write_map_index m k v]
      · rw [if_neg h2, if_neg h2, map_write_cons,
          if_pos (str_lt_connected _ _ (by simpa using h1) (by simpa using h2)).symm]

theorem map_find_map_write : ∀ (m : List (List Char × Value)) (k : List Char) (r v : Value),
    map_find m k = some v → ∀ k2, map_find (map_write m k r) k2 =
      if k = k2 then some r else map_find m k2
  | [], k, r, v, h, _ => by rw [map_find_nil] at h; cases h
  | (k1, v1) :: m, k, r, v, h, k2 => by
    rw [map_find_cons] at h
    rw [map_write_cons]
    by_cases hk : k1 = k
    · subst hk
      rw [if_pos rfl, map_find_cons, map_find_cons]
      by_cases hk2 : k1 = k2
      · rw [if_pos hk2, if_pos hk2]
      · rw [if_neg hk2, if_neg hk2, if_neg hk2]
    · rw [if_neg hk] at h
      rw [if_neg hk, map_find_cons, map_find_map_write m k r v h k2, map_find_cons]
      by_cases hk2 : k = k2
      · subst hk2
        rw [if_neg hk, if_pos rfl, if_pos rfl]
      · rw [if_neg hk2, if_neg hk2]

theorem map_write_keys : ∀ (m : List (List Char × Value)) (k : List Char) (r : Value),
    (map_write m k r).map Prod.fst = m.map Prod.fst
  | [], k, r => by rw [map_write_nil]
  | (k1, v1) :: m, k, r => by
    rw [map_write_cons]
    split_ifs
    · rfl
    · simp only [List.map_cons]
      rw [map_write_keys m k r]

/-- After `operator[]` the key is bound. -/
theorem map_find_map_index_self : ∀ (m : List (List Char × Value)) (k : List Char),
    ∃ v, map_find (map_index m k) k = some v
  | [], k => by
    rw [map_index_nil, map_find_cons, if_pos rfl]
    exact ⟨_, rfl⟩
  | (k1, v1) :: m, k => by
    rw [map_index_cons]
    by_cases h1 : str_lt k k1 = true
    · rw [if_pos h1, map_find_cons, if_pos rfl]
      exact ⟨_, rfl⟩
    · rw [if_neg h1]
      by_cases h2 : str_lt k1 k = true
      · rw [if_pos h2, map_find_cons, if_neg (str_lt_ne h2)]
        exact map_find_map_index_self m k
      · rw [if_neg h2, map_find_cons,
          if_pos (str_lt_connected _ _ (by simpa using h1) (by simpa using h2)).symm]
        exact ⟨_, rfl⟩

/-- C12: on an Object whose entries are in the order of the map, `operator[]` with an
absent key binds the key to a `Null` Node, returns that Node and leaves every other
entry as it was; with a present key it returns the Node bound to the key and leaves the
Object unchanged. -/
theorem index_by_key_get_or_insert (obj : List (List Char × Value)) (k : List Char)
    (hasc : keys_ascending (obj.map Prod.fst) = true) :
    (map_find obj k = none →
      ∃ m, index_by_key (Value.Object obj) k = (Value.Object m, some Value.Null) ∧
        map_find m k = some Value.Null ∧ (∀ k2, k2 ≠ k → map_find m k2 = map_find obj k2) ∧
        m.length = obj.length + 1) ∧
    (∀ v, map_find obj k = some v →
      index_by_key (Value.Object obj) k = (Value.Object obj, some v)) := by
  have hp := keys_ascending_pairwise _ hasc
  constructor
  · intro habs
    have hfind := map_find_map_index_absent obj k habs
    refine ⟨map_index obj k, ?_, ?_, ?_, map_index_length_absent obj k habs⟩
    · simp only [index_by_key]
      rw [hfind k, if_pos rfl]
    · rw [hfind k, if_pos rfl]
    · intro k2 hk2
      rw [hfind k2, if_neg (fun h => hk2 h.symm)]
  · intro v hv
    simp only [index_by_key]
    rw [map_index_present obj k v hp hv, hv]

/-- Witness of C12: the Object of `{"a":1}` indexed by the absent key `b` and by the
present key `a`. -/
theorem index_by_key_get_or_insert_witness :
    index_by_key (Value.Object [("a".toList, Value.Int 1)]) "b".toList =
        (Value.Object [("a".toList, Value.Int 1), ("b".toList, Value.Null)], some Value.Null) ∧
      index_by_key (Value.Object [("a".toList, Value.Int 1)]) "a".toList =
        (Value.Object [("a".toList, Value.Int 1)], some (Value.Int 1)) :=
  ⟨rfl,
   (index_by_key_get_or_insert [("a".toList, Value.Int 1)] "a".toList rfl).2 (Value.Int 1) rfl⟩

/-- C13: `operator[]` by key throws exactly on a Node that is no Object; `operator[]` by
position throws exactly on a Node that is no Array or on an index that is not below
the length, and returns the element at the index otherwise; a call that throws leaves
the Node as it was. -/
theorem access_error_exactly (n : Node) (key : List Char) (i : Nat) :
    ((index_by_key n key).2 = none ↔ ∀ obj, n ≠ Value.Object obj) ∧
      ((index_by_position n i).2 = none ↔ ∀ xs, n = Value.Array xs → xs.length ≤ i) ∧
      (∀ xs, n = Value.Array xs → ∀ (h : i < xs.length),
        (index_by_position n i).2 = some (xs.get (Fin.mk i h))) ∧
      ((index_by_key n key).2 = none → (index_by_key n key).1 = n) ∧
      (index_by_position n i).1 = n := by
  refine ⟨?_, ?_, ?_, ?_, ?_⟩
  · cases n with
    | Object obj =>
      simp only [index_by_key]
      constructor
      · intro h
        obtain ⟨v, hv⟩ := map_find_map_index_self obj key
        rw [hv] at h
        cases h
      · intro h; exact absurd rfl (h obj)
    | _ => simp [index_by_key]
  · cases n with
    | Array xs =>
      simp only [index_by_position]
      constructor
      · intro h ys hys
        cases hys
        exact List.getElem?_eq_none_iff.mp h
      · intro h
        exact List.getElem?_eq_none (h xs rfl)
    | _ => simp [index_by_position]
  · intro xs hxs h
    subst hxs
    simp only [index_by_position]
    rw [List.getElem?_eq_getElem h]
    rfl
  · cases n with
    | Object obj =>
      simp only [index_by_key]
      intro h
      obtain ⟨v, hv⟩ := map_find_map_index_self obj key
      rw [hv] at h
      cases h
    | _ => intro _; rfl
  · cases n <;> rfl

/-- C14: `push` on an Array appends the node behind the elements, which keep their values
and order, so the length grows by one; on a Node that is no Array it returns without an
exception and leaves the Node as it was. -/
theorem push_appends_or_ignores (rhs : Node) :
    (∀ xs, push (Value.Array xs) rhs = some (Value.Array (xs ++ [rhs])) ∧
        (xs ++ [rhs]).length = xs.length + 1 ∧ (xs ++ [rhs]).take xs.length = xs ∧
        (xs ++ [rhs]).getLast? = some rhs) ∧
      (∀ n, (∀ xs, n ≠ Value.Array xs) → push n rhs = some n) := by
  constructor
  · intro xs
    refine ⟨rfl, by simp, by simp, by simp⟩
  · intro n hn
    cases n with
    | Array xs => exact absurd rfl (hn xs)
    | _ => rfl

/-- C15 (the code on the claim's inputs): `push` never throws. On every Node that is no
Array, for which its comment documents a `std::runtime_error`, it returns normally and
leaves the Node as it was. -/
theorem push_never_throws (n rhs : Node) :
    push n rhs ≠ none ∧ ((∀ xs, n ≠ Value.Array xs) → push n rhs = some n) ∧
      push Value.Null (Value.Bool true) = some Value.Null := by
  refine ⟨?_, ?_, rfl⟩
  · cases n <;> simp [push]
  · intro hn
    cases n with
    | Array xs => exact absurd rfl (hn xs)
    | _ => rfl

theorem push_by_key_present (obj : List (List Char × Value)) (k : List Char)
    (xs : List Value) (rhs : Node)
    (hp : (obj.map Prod.fst).Pairwise (fun a b => str_lt a b = true))
    (hk : map_find obj k = some (Value.Array xs)) :
    push_by_key (Value.Object obj) k rhs =
      some (Value.Object (map_write obj k (Value.Array (xs ++ [rhs])))) := by
  simp only [push_by_key, index_by_key]
  rw [map_index_present obj k _ hp hk, hk]
  rfl

theorem assign_by_key_Object (obj : List (List Char × Value)) (k : List Char) (rhs : Node) :
    assign_by_key (Value.Object obj) k rhs = some (Value.Object (map_set obj k rhs)) := by
  simp only [assign_by_key, index_by_key]
  obtain ⟨v, hv⟩ := map_find_map_index_self obj k
  rw [hv]
  simp only [store_by_key]
  rw [map_write_map_index]

/-- C11: on an Object, in the order of the map, that binds `configurations` to an Array
`xs`, the two appends of `main` leave `configurations` bound to `xs` followed by
`Bool true` and `Null` and every other key as it was; the assignment through
`x["version"]` then binds `version` to `Int 114514` and leaves the value of every other
key as it was. -/
theorem mutation_sequencing (obj : List (List Char × Value)) (xs : List Value)
    (hasc : keys_ascending (obj.map Prod.fst) = true)
    (hconf : map_find obj "configurations".toList = some (Value.Array xs)) :
    ∃ m2 m3, main_appends (Value.Object obj) = some (Value.Object m2) ∧
      map_find m2 "configurations".toList =
        some (Value.Array (xs ++ [Value.Bool true, Value.Null])) ∧
      (∀ k, k ≠ "configurations".toList → map_find m2 k = map_find obj k) ∧
      main_mutations (Value.Object obj) = some (Value.Object m3) ∧
      map_find m3 "version".toList = some (Value.Int 114514) ∧
      (∀ k, k ≠ "version".toList → map_find m3 k = map_find m2 k) ∧
      keys_ascending (m3.map Prod.fst) = true := by
  have hp := keys_ascending_pairwise _ hasc
  have h1 := push_by_key_present obj "configurations".toList xs (Value.Bool true) hp hconf
  have hf1 := map_find_map_write obj "configurations".toList
    (Value.Array (xs ++ [Value.Bool true])) _ hconf
  have hp1 : ((map_write obj "configurations".toList
      (Value.Array (xs ++ [Value.Bool true]))).map Prod.fst).Pairwise
      (fun a b => str_lt a b = true) := by
    rw [map_write_keys]; exact hp
  have hc1 := hf1 "configurations".toList
  rw [if_pos rfl] at hc1
  have h2 := push_by_key_present _ "configurations".toList (xs ++ [Value.Bool true])
    Value.Null hp1 hc1
  have hf2 := map_find_map_write _ "configurations".toList
    (Value.Array (xs ++ [Value.Bool true] ++ [Value.Null])) _ hc1
  have hp2 : ((map_write (map_write obj "configurations".toList
      (Value.Array (xs ++ [Value.Bool true]))) "configurations".toList
      (Value.Array (xs ++ [Value.Bool true] ++ [Value.Null]))).map Prod.fst).Pairwise
      (fun a b => str_lt a b = true) := by
    rw [map_write_keys]; exact hp1
  have happ : main_appends (Value.Object obj) = some (Value.Object
      (map_write (map_write obj "configurations".toList
        (Value.Array (xs ++ [Value.Bool true]))) "configurations".toList
        (Value.Array (xs ++ [Value.Bool true] ++ [Value.Null])))) := by
    simp only [main_appends]
    rw [h1]
    simp only
    rw [h2]
  refine ⟨_, map_set (map_write (map_write obj "configurations".toList
      (Value.Array (xs ++ [Value.Bool true]))) "configurations".toList
      (Value.Array (xs ++ [Value.Bool true] ++ [Value.Null]))) "version".toList
      (Value.Int 114514), happ, ?_, ?_, ?_, ?_, ?_, ?_⟩
  · rw [hf2, if_pos rfl]
    simp
  · intro k hk
    rw [hf2, if_neg (fun h => hk h.symm), hf1, if_neg (fun h => hk h.symm)]
  · simp only [main_mutations]
    rw [happ]
    simp only
    rw [assign_by_key_Object]
  · rw [map_find_map_set, if_pos rfl]
  · intro k hk
    rw [map_find_map_set, if_neg (fun h => hk h.symm)]
  · exact pairwise_keys_ascending _ (map_set_pairwise _ _ _ hp2)

/-- Witness of C11: the tree of `{"configurations":[1],"version":0}`. -/
theorem mutation_sequencing_witness :
    main_mutations (Value.Object [("configurations".toList, Value.Array [Value.Int 1]),
        ("version".toList, Value.Int 0)]) =
      some (Value.Object [("configurations".toList,
          Value.Array [Value.Int 1, Value.Bool true, Value.Null]),
        ("version".toList, Value.Int 114514)]) ∧
    ∃ m2 m3, main_appends (Value.Object [("configurations".toList, Value.Array [Value.Int 1]),
        ("version".toList, Value.Int 0)]) = some (Value.Object m2) ∧
      map_find m2 "configurations".toList =
        some (Value.Array ([Value.Int 1] ++ [Value.Bool true, Value.Null])) ∧
      (∀ k, k ≠ "configurations".toList → map_find m2 k =
        map_find [("configurations".toList, Value.Array [Value.Int 1]),
          ("version".toList, Value.Int 0)] k) ∧
      main_mutations (Value.Object [("configurations".toList, Value.Array [Value.Int 1]),
        ("version".toList, Value.Int 0)]) = some (Value.Object m3) ∧
      map_find m3 "version".toList = some (Value.Int 114514) ∧
      (∀ k, k ≠ "version".toList → map_find m3 k = map_find m2 k) ∧
      keys_ascending (m3.map Prod.fst) = true :=
  ⟨rfl, mutation_sequencing [("configurations".toList, Value.Array [Value.Int 1]),
      ("version".toList, Value.Int 0)] [Value.Int 1] (by decide) rfl⟩

section
variable (stod : List Char → Option Double) (fmt : Double → List Char)

/-- C16: for every tree of the round-trip class and every trailing text, where the tree is
no `Int` or the trailing text does not begin with a digit, `.` or `e`, `parse` of the
generated text followed by the trailing text succeeds and returns the tree. -/
theorem prefix_acceptance (t : Value) (hc : t.round_trip_class = true) (hwf : t.wf = true)
    (r : List Char) (hr : (∀ n, t ≠ Value.Int n) ∨ stops number_char r) :
    parser stod (generate fmt t ++ r) = Outcome.node t := by
  have hp := parse_value_generate stod fmt t hc hwf r (fun n hn => by
    rcases hr with h | h
    · exact absurd hn (h n)
    · exact h)
  obtain ⟨c, l, hcl, hsp, _⟩ := generate_starts fmt t hc 93 (Or.inl rfl)
  have hws : parse_whitespace (generate fmt t ++ r) 0 = 0 :=
    parse_whitespace_of_stops (by
      show stops isspace (generate fmt t ++ r)
      rw [hcl]; exact stops_cons _ hsp)
  obtain ⟨f, hf⟩ := hp (generate fmt t ++ r) 0 rfl
  rw [← hws] at hf
  exact parser_of_value stod _ hf

/-- Witness of C16: `null garbage` parses to `Null`, and `[1]]x` to the array of `Int 1`. -/
theorem prefix_acceptance_witness :
    parser stod_examples "null garbage".toList = Outcome.node Value.Null ∧
      parser stod_examples "[1]]x".toList = Outcome.node (Value.Array [Value.Int 1]) ∧
      parser stod_examples "12,3".toList = Outcome.node (Value.Int 12) :=
  ⟨prefix_acceptance stod_examples (fun _ => []) Value.Null rfl rfl " garbage".toList
      (Or.inl (fun n h => by cases h)),
   prefix_acceptance stod_examples (fun _ => []) (Value.Array [Value.Int 1]) (by decide)
      (by decide) "]x".toList (Or.inl (fun n h => by cases h)),
   prefix_acceptance stod_examples (fun _ => []) (Value.Int 12) (by decide) (by decide)
      ",3".toList (Or.inr (stops_cons _ (by decide)))⟩

end

/-! ## The white space that is skipped -/

theorem isspace_iff (c : Char) :
    isspace c = true ↔
      c = Char.ofNat 32 ∨ c = Char.ofNat 9 ∨ c = Char.ofNat 10 ∨ c = Char.ofNat 11 ∨
        c = Char.ofNat 12 ∨ c = Char.ofNat 13 := by
  constructor
  · intro h
    unfold isspace at h
    simp only [Bool.or_eq_true, Bool.and_eq_true, decide_eq_true_eq] at h
    have hc : c.toNat = 32 ∨ c.toNat = 9 ∨ c.toNat = 10 ∨ c.toNat = 11 ∨ c.toNat = 12 ∨
        c.toNat = 13 := by omega
    rcases hc with h | h | h | h | h | h
    · exact Or.inl (char_eq_of_toNat h)
    · exact Or.inr (Or.inl (char_eq_of_toNat h))
    · exact Or.inr (Or.inr (Or.inl (char_eq_of_toNat h)))
    · exact Or.inr (Or.inr (Or.inr (Or.inl (char_eq_of_toNat h))))
    · exact Or.inr (Or.inr (Or.inr (Or.inr (Or.inl (char_eq_of_toNat h)))))
    · exact Or.inr (Or.inr (Or.inr (Or.inr (Or.inr (char_eq_of_toNat h)))))
  · intro h
    rcases h with rfl | rfl | rfl | rfl | rfl | rfl <;> rfl

theorem holds_at_takeWhile (s : List Char) (p : Char → Bool) (pos i : Nat) (h1 : pos ≤ i)
    (h2 : i < pos + ((s.drop pos).takeWhile p).length) : holds_at s i p = true := by
  have hsplit : s.drop pos = (s.drop pos).takeWhile p ++ (s.drop pos).dropWhile p :=
    (List.takeWhile_append_dropWhile _ _).symm
  have hi : s[i]? = ((s.drop pos).takeWhile p)[i - pos]? := by
    have : s[i]? = (s.drop pos)[i - pos]? := by
      rw [List.getElem?_drop]
      congr 1
      omega
    rw [this]
    conv_lhs => rw [hsplit]
    rw [List.getElem?_append_left (by omega)]
  have hlt : i - pos < ((s.drop pos).takeWhile p).length := by omega
  unfold holds_at
  rw [hi, List.getElem?_eq_getElem hlt]
  show p _ = true
  exact List.mem_takeWhile_imp (List.getElem_mem hlt)

theorem holds_at_after_takeWhile (s : List Char) (p : Char → Bool) (pos : Nat) :
    holds_at s (pos + ((s.drop pos).takeWhile p).length) p = false := by
  have hsplit : s.drop pos = (s.drop pos).takeWhile p ++ (s.drop pos).dropWhile p :=
    (List.takeWhile_append_dropWhile _ _).symm
  have hd := drop_add_of_drop hsplit
  cases hdw : (s.drop pos).dropWhile p with
  | nil =>
    rw [hdw] at hd
    exact holds_at_of_drop_nil hd p
  | cons c r =>
    rw [hdw] at hd
    rw [holds_at_of_drop hd]
    have := List.head_dropWhile_not p (s.drop pos) (by rw [hdw]; simp)
    simp only [hdw, List.head_cons] at this
    exact this

/-- C17, counterexample: a vertical tab or a form feed in front of `7` is skipped, so
the skip does not stop at it and the text parses to `Int 7` instead of being read as if
that character began the value. -/
theorem whitespace_skip_counterexample :
    parse_whitespace [Char.ofNat 11, Char.ofNat 55] 0 = 1 ∧
      parse_whitespace [Char.ofNat 12, Char.ofNat 55] 0 = 1 ∧
      parser stod_examples [Char.ofNat 11, Char.ofNat 55] = Outcome.node (Value.Int 7) ∧
      parser stod_examples [Char.ofNat 12, Char.ofNat 55] = Outcome.node (Value.Int 7) :=
  ⟨rfl, rfl, rfl, rfl⟩

/-- C17, amended: the white space skip advances over the six characters of
`std::isspace`, space, tab, newline, vertical tab, form feed and carriage return, and over
no other: from any cursor it stops at the first position at or after it that is the end
of the input or holds a character that is none of the six. -/
theorem whitespace_skip (s : List Char) (pos : Nat) :
    pos ≤ parse_whitespace s pos ∧
      (∀ i, pos ≤ i → i < parse_whitespace s pos → holds_at s i isspace = true) ∧
      holds_at s (parse_whitespace s pos) isspace = false ∧
      (∀ c, isspace c = true ↔
        c = Char.ofNat 32 ∨ c = Char.ofNat 9 ∨ c = Char.ofNat 10 ∨ c = Char.ofNat 11 ∨
          c = Char.ofNat 12 ∨ c = Char.ofNat 13) := by
  refine ⟨parse_whitespace_ge s pos, ?_, ?_, isspace_iff⟩
  · intro i h1 h2
    rw [parse_whitespace_eq] at h2
    exact holds_at_takeWhile s isspace pos i h1 h2
  · rw [parse_whitespace_eq]
    exact holds_at_after_takeWhile s isspace pos

/-! ## Lenient separators -/

section
variable (stod : List Char → Option Double) (fmt : Double → List Char)

theorem items_text_sep_items (sep last : List Char) : ∀ (xs : List Value), xs ≠ [] →
    items_text (sep_items fmt sep last xs) = join_with sep (xs.map (generate fmt)) ++ last
  | [], h => absurd rfl h
  | [x], _ => by simp [sep_items, items_text, join_with]
  | x :: y :: rest, _ => by
    rw [sep_items, items_text_cons, items_text_sep_items sep last (y :: rest) (by simp)]
    simp [join_with]

theorem sep_items_val (sep last : List Char) :
    ∀ (xs : List Value), (sep_items fmt sep last xs).map Item.val = xs
  | [] => rfl
  | [x] => rfl
  | x :: y :: rest => by
    rw [sep_items, List.map_cons, sep_items_val sep last (y :: rest)]

theorem array_items_ok_sep (tl sep last : List Char) (hsep : is_sep 44 sep)
    (hlast : is_sep 44 last) (hs1 : ∀ r, stops number_char (sep ++ r))
    (hs2 : stops number_char (last ++ tl)) : ∀ (xs : List Value),
      (∀ x ∈ xs, starts_member 93 (generate fmt x) ∧
        ∀ follow, stops number_char follow → parses_to stod (generate fmt x) x follow) →
      array_items_ok stod (sep_items fmt sep last xs) tl
  | [], _ => trivial
  | [x], h => by
    obtain ⟨h1, h2⟩ := h x (by simp)
    refine ⟨h1, ?_, hlast, trivial⟩
    exact h2 _ (by simpa [items_text] using hs2)
  | x :: y :: rest, h => by
    obtain ⟨h1, h2⟩ := h x (by simp)
    refine ⟨h1, ?_, hsep, ?_⟩
    · exact h2 _ (hs1 _)
    · exact array_items_ok_sep tl sep last hsep hlast hs1 hs2 (y :: rest)
        (fun z hz => h z (by simp [hz]))

/-- The text of an opening bracket, elements that `parse_value` reads, each followed by a
separator, and then either nothing or a closing bracket and anything, parses to the array
of the elements. -/
theorem parser_array_items (items : List Item) (tl : List Char)
    (hok : array_items_ok stod items tl) (htl : closes 93 tl) :
    parser stod ([Char.ofNat 91] ++ items_text items ++ tl) =
      Outcome.node (Value.Array (items.map Item.val)) := by
  generalize hs : [Char.ofNat 91] ++ items_text items ++ tl = s
  have hd0 : s.drop 0 = Char.ofNat 91 :: (items_text items ++ tl) := by
    rw [← hs]; simp
  have hws : parse_whitespace s 0 = 0 :=
    parse_whitespace_of_stops (by rw [hd0]; exact stops_cons _ (by decide))
  obtain ⟨f, hf⟩ := array_loop_items stod s items tl [] 1 hok htl (drop_succ_of_drop hd0)
  rw [List.nil_append] at hf
  have hv : parse_value stod s (f + 2) (parse_whitespace s 0) =
      Res.ret (some (Value.Array (items.map Item.val))) (1 + (items_text items).length + 1) := by
    rw [hws, parse_value_at stod s hd0 (by decide), if_neg (by decide), if_neg (by decide),
      if_neg (by decide), if_neg (by decide), if_pos (by decide), parse_array_succ, hf]
  exact parser_of_value stod s hv

/-- C18: for a non-empty array of trees of the round-trip class, whose generated text is
the bracketed comma-separated texts of the elements, that text, the text with a comma
inserted in front of the closing bracket, and the text with every separating comma of the
array replaced by one space all parse to the same array. -/
theorem array_lenient_separators (xs : List Value) (hne : xs ≠ [])
    (hxs : ∀ x ∈ xs, x.round_trip_class = true ∧ x.wf = true) :
    generate fmt (Value.Array xs) =
        "[".toList ++ join_with ",".toList (xs.map (generate fmt)) ++ "]".toList ∧
      parser stod (generate fmt (Value.Array xs)) = Outcome.node (Value.Array xs) ∧
      parser stod ("[".toList ++ join_with ",".toList (xs.map (generate fmt)) ++ ",]".toList) =
        Outcome.node (Value.Array xs) ∧
      parser stod ("[".toList ++ join_with " ".toList (xs.map (generate fmt)) ++ "]".toList) =
        Outcome.node (Value.Array xs) := by
  have hel : ∀ x ∈ xs, starts_member 93 (generate fmt x) ∧
      ∀ follow, stops number_char follow → parses_to stod (generate fmt x) x follow :=
    fun x hx => ⟨generate_starts fmt x (hxs x hx).1 93 (Or.inl rfl),
      fun fl hfl => parse_value_generate stod fmt x (hxs x hx).1 (hxs x hx).2 fl
        (fun _ _ => hfl)⟩
  have hcl : closes 93 "]".toList := closes_same 93 (by decide) []
  have hg : generate fmt (Value.Array xs) =
      "[".toList ++ join_with ",".toList (xs.map (generate fmt)) ++ "]".toList := by
    rw [generate_Array_eq]; rfl
  refine ⟨hg, ?_, ?_, ?_⟩
  · rw [hg]
    exact parser_array_text stod fmt xs hxs "]".toList hcl
  · have hok := array_items_ok_sep stod fmt "]".toList ",".toList ",".toList
      (is_sep_single 44) (is_sep_single 44) (fun r => stops_cons _ (by decide))
      (stops_cons _ (by decide)) xs hel
    have h := parser_array_items stod _ _ hok hcl
    rw [items_text_sep_items fmt _ _ xs hne, sep_items_val] at h
    simpa [List.append_assoc] using h
  · have hsp : is_sep 44 " ".toList :=
      ⟨" ".toList, [], by decide, by simp, Or.inl (by simp)⟩
    have hok := array_items_ok_sep stod fmt "]".toList " ".toList [] hsp (is_sep_nil 44)
      (fun r => stops_cons _ (by decide)) (stops_cons _ (by decide)) xs hel
    have h := parser_array_items stod _ _ hok hcl
    rw [items_text_sep_items fmt _ _ xs hne, sep_items_val] at h
    simpa [List.append_assoc] using h

/-- Witness of C18: the text `[1,]` parses to the array of `Int 1`, and the text `[1 2]`
to the array of `Int 1` and `Int 2`. -/
theorem array_lenient_separators_witness :
    parser stod_examples "[1,]".toList = Outcome.node (Value.Array [Value.Int 1]) ∧
      parser stod_examples "[1 2]".toList =
        Outcome.node (Value.Array [Value.Int 1, Value.Int 2]) :=
  ⟨(array_lenient_separators stod_examples (fun _ => []) [Value.Int 1] (by simp)
      (by decide)).2.2.1,
   (array_lenient_separators stod_examples (fun _ => []) [Value.Int 1, Value.Int 2]
      (by simp) (by decide)).2.2.2⟩

end

/-! ## A key that is no String -/

section
variable (stod : List Char → Option Double) (fmt : Double → List Char)

/-- The object loop in front of well-formed pairs continues as the loop behind them. -/
theorem object_loop_prefix (s : List Char) (r : Res) (hr : r ≠ Res.outOfFuel) :
    ∀ (ms : List Member) (tl : List Char) (obj : List (List Char × Value)) (pos : Nat),
      object_members_ok stod ms tl →
      stops (fun c => isspace c || decide (c.toNat = 44)) tl →
      s.drop pos = members_text ms ++ tl →
      (∃ fuel, object_loop stod s fuel (assign_all obj ms) (pos + (members_text ms).length) = r) →
      ∃ fuel, object_loop stod s fuel obj pos = r := by
  intro ms
  induction ms with
  | nil =>
    intro tl obj pos _ _ _ h
    simpa [members_text, assign_all] using h
  | cons m rest ih =>
    intro tl obj pos hok htl hd hlater
    obtain ⟨hq, hcolon, hst, hp, hsep, hrest⟩ := hok
    rw [members_text_cons] at hd
    simp only [List.append_assoc] at hd
    have hkey := fun fuel => parse_value_string stod hd hq fuel
    have hd1 := drop_add_of_drop hd
    have hskip1 := sep_skip hd1 hcolon (by decide) (by decide)
      (stops_append_of_starts hst _ 58 (Or.inr rfl))
    have hd2 := drop_add_of_drop hd1
    obtain ⟨f1, hf1⟩ := hp s _ hd2
    have hd3 := drop_add_of_drop hd2
    have hnext : stops (fun c => isspace c || decide (c.toNat = 44))
        (members_text rest ++ tl) := by
      cases rest with
      | nil => simpa [members_text] using htl
      | cons m2 rest2 =>
        rw [members_text_cons]
        simp only [generate_string, List.append_assoc, List.singleton_append, List.cons_append]
        exact stops_cons _ (by decide)
    have hskip2 := sep_skip hd3 hsep (by decide) (by decide) hnext
    have hd4 := drop_add_of_drop hd3
    have hlater2 : ∃ fuel, object_loop stod s fuel (assign_all (map_set obj m.key m.val) rest)
        (pos + (generate_string m.key).length + m.colon.length + m.text.length +
          m.sep.length + (members_text rest).length) = r := by
      obtain ⟨f, hf⟩ := hlater
      refine ⟨f, ?_⟩
      rw [← hf]
      simp only [members_text_cons, assign_all, List.foldl_cons, List.length_append]
      congr 1
      omega
    obtain ⟨f2, hf2⟩ := ih tl (map_set obj m.key m.val) _ hrest htl hd4 hlater2
    refine ⟨max (max f1 f2) 1 + 1, ?_⟩
    have hg : holds_at s pos (fun c => decide (c.toNat ≠ 125)) = true := by
      have hdq : s.drop pos = quote :: (m.key ++ quote :: (m.colon ++ (m.text ++
          (m.sep ++ (members_text rest ++ tl))))) := by
        rw [hd]; simp [generate_string]
      rw [holds_at_of_drop hdq]
      decide
    obtain ⟨n, hn⟩ : ∃ n, max (max f1 f2) 1 = n + 1 :=
      ⟨max (max f1 f2) 1 - 1, by have := le_max_right (max f1 f2) 1; omega⟩
    rw [object_loop_succ, if_pos hg, hn, hkey n]
    simp only
    rw [hskip1, ← hn,
      parse_value_mono stod s (le_trans (le_max_left f1 f2) (le_max_left _ 1)) hf1
        (by intro h; cases h)]
    simp only
    rw [hskip2,
      object_loop_mono stod s (le_trans (le_max_right f1 f2) (le_max_left _ 1)) hf2 hr]

/-- The object loop at a value that is no String, in key position. -/
theorem object_loop_key (s : List Char) (obj : List (List Char × Value)) (pos : Nat)
    (ktext : List Char) (v : Value) (rest : List Char) (hd : s.drop pos = ktext ++ rest)
    (hst : starts_member 125 ktext) (hp : parses_to stod ktext v rest)
    (hv : ∀ k, v ≠ Value.String k) :
    ∃ fuel, object_loop stod s fuel obj pos =
      Res.ret none (parse_whitespace s (pos + ktext.length)) := by
  obtain ⟨f, hf⟩ := hp s pos hd
  refine ⟨f + 1, ?_⟩
  have hg : holds_at s pos (fun c => decide (c.toNat ≠ 125)) = true := by
    obtain ⟨c, l, hcl, _, _, _, h125⟩ := hst
    rw [hcl] at hd
    rw [holds_at_of_drop hd]
    simp [h125]
  rw [object_loop_succ, if_pos hg, hf]
  cases v with
  | String k => exact absurd rfl (hv k)
  | Null => rfl
  | Bool b => rfl
  | Int n => rfl
  | Float d => rfl
  | Array xs => rfl
  | Object kvs => rfl

theorem members_text_pairs_members : ∀ (kvs : List (List Char × Value)),
    members_text (pairs_members fmt kvs) = pairs_text fmt kvs
  | [] => rfl
  | kv :: rest => by
    rw [pairs_members, members_text_cons, members_text_pairs_members rest, pairs_text]
    simp [member_text]

theorem object_members_ok_pairs (tl : List Char) : ∀ (kvs : List (List Char × Value)),
    (∀ kv ∈ kvs, quote_free kv.1 = true ∧ kv.2.round_trip_class = true ∧ kv.2.wf = true) →
    object_members_ok stod (pairs_members fmt kvs) tl
  | [], _ => trivial
  | kv :: rest, h => by
    obtain ⟨h0, h1, h2⟩ := h kv (by simp)
    refine ⟨h0, is_sep_single 58, generate_starts fmt kv.2 h1 125 (Or.inr rfl), ?_,
      is_sep_single 44, ?_⟩
    · exact parse_value_generate stod fmt kv.2 h1 h2 _ (fun _ _ => stops_cons _ (by decide))
    · exact object_members_ok_pairs tl rest (fun z hz => h z (by simp [hz]))

/-- A number lexeme that `std::stod` converts is read as that Float. -/
theorem parses_float (lex : List Char) (d : Double) (hne : lex ≠ [])
    (hlex : ∀ c ∈ lex, number_char c = true) (hfl : is_Float lex = true)
    (hs : stod lex = some d) (follow : List Char) (hf : stops number_char follow) :
    parses_to stod lex (Value.Float d) follow := by
  intro s pos h
  refine ⟨1, ?_⟩
  rw [parse_value_number stod s h hne hlex hf]
  unfold number_result
  rw [if_pos hfl, hs]

/-- C19: the text of an opening brace, generated pairs of the round-trip class with a comma
after each, and then, in key position, a text that `parse_value` reads as a value that is
no String, followed by anything, is a parse failure: `parse` returns the empty optional. -/
theorem non_string_key_fails (kvs : List (List Char × Value))
    (hkvs : ∀ kv ∈ kvs, quote_free kv.1 = true ∧ kv.2.round_trip_class = true ∧ kv.2.wf = true)
    (ktext : List Char) (v : Value) (rest : List Char) (hst : starts_member 125 ktext)
    (hp : parses_to stod ktext v rest) (hv : ∀ k, v ≠ Value.String k) :
    parser stod ("\x7b".toList ++ pairs_text fmt kvs ++ ktext ++ rest) = Outcome.missing := by
  generalize hs : "\x7b".toList ++ pairs_text fmt kvs ++ ktext ++ rest = s
  have hd0 : s.drop 0 = Char.ofNat 123 :: (pairs_text fmt kvs ++ (ktext ++ rest)) := by
    rw [← hs]; simp
  have hws : parse_whitespace s 0 = 0 :=
    parse_whitespace_of_stops (by rw [hd0]; exact stops_cons _ (by decide))
  have hd1 : s.drop 1 = members_text (pairs_members fmt kvs) ++ (ktext ++ rest) := by
    rw [members_text_pairs_members]; exact drop_succ_of_drop hd0
  obtain ⟨f1, hf1⟩ := object_loop_key stod s (assign_all [] (pairs_members fmt kvs))
    (1 + (members_text (pairs_members fmt kvs)).length) ktext v rest
    (drop_add_of_drop hd1) hst hp hv
  obtain ⟨f, hf⟩ := object_loop_prefix stod s _ (by intro h; cases h)
    (pairs_members fmt kvs) (ktext ++ rest) [] 1 (object_members_ok_pairs stod fmt _ kvs hkvs)
    (stops_append_of_starts hst _ 44 (Or.inl rfl)) hd1 ⟨f1, hf1⟩
  have hval : parse_value stod s (f + 2) (parse_whitespace s 0) = Res.ret none
      (parse_whitespace s (1 + (members_text (pairs_members fmt kvs)).length + ktext.length)) := by
    rw [hws, parse_value_at stod s hd0 (by decide), if_neg (by decide), if_neg (by decide),
      if_neg (by decide), if_neg (by decide), if_neg (by decide), if_pos (by decide),
      parse_object_succ, hf]
  exact parser_of_none stod s hval

end

/-- Witness of C19: the texts `{1:2}`, `{"a":1,null:2}`, `{true`, `{[1]:2}`, `{{}:2}` and
`{7.0:1}` are parse failures. -/
theorem non_string_key_fails_witness :
    parser stod_examples "\x7b1:2\x7d".toList = Outcome.missing ∧
      parser stod_examples "\x7b\"a\":1,null:2\x7d".toList = Outcome.missing ∧
      parser stod_examples "\x7btrue".toList = Outcome.missing ∧
      parser stod_examples "\x7b[1]:2\x7d".toList = Outcome.missing ∧
      parser stod_examples "\x7b\x7b\x7d:2\x7d".toList = Outcome.missing ∧
      parser stod_examples "\x7b7.0:1\x7d".toList = Outcome.missing :=
  ⟨non_string_key_fails stod_examples (fun _ => []) [] (by decide) "1".toList (Value.Int 1)
      ":2\x7d".toList (starts_member_cons _ _ (by decide) (by decide) (by decide) (by decide))
      (parses_int stod_examples 1 (by decide) (by decide) _ (stops_cons _ (by decide)))
      (fun k h => by cases h),
   non_string_key_fails stod_examples (fun _ => []) [("a".toList, Value.Int 1)] (by decide)
      "null".toList Value.Null ":2\x7d".toList
      (starts_member_cons _ _ (by decide) (by decide) (by decide) (by decide))
      (parses_null stod_examples _) (fun k h => by cases h),
   non_string_key_fails stod_examples (fun _ => []) [] (by decide) "true".toList
      (Value.Bool true) []
      (starts_member_cons _ _ (by decide) (by decide) (by decide) (by decide))
      (parses_true stod_examples _) (fun k h => by cases h),
   non_string_key_fails stod_examples (fun _ => []) [] (by decide) "[1]".toList
      (Value.Array [Value.Int 1]) ":2\x7d".toList
      (starts_member_cons _ _ (by decide) (by decide) (by decide) (by decide))
      (parse_value_generate stod_examples (fun _ => []) (Value.Array [Value.Int 1])
        (by decide) (by decide) _ (fun n h => by cases h))
      (fun k h => by cases h),
   non_string_key_fails stod_examples (fun _ => []) [] (by decide) "\x7b\x7d".toList
      (Value.Object []) ":2\x7d".toList
      (starts_member_cons _ _ (by decide) (by decide) (by decide) (by decide))
      (parse_value_generate stod_examples (fun _ => []) (Value.Object [])
        (by decide) (by decide) _ (fun n h => by cases h))
      (fun k h => by cases h),
   non_string_key_fails stod_examples (fun _ => []) [] (by decide) "7.0".toList
      (Value.Float (Double.mk 4619567317775286272)) ":1\x7d".toList
      (starts_member_cons _ _ (by decide) (by decide) (by decide) (by decide))
      (parses_float stod_examples "7.0".toList _ (by simp) (by decide) (by decide) rfl _
        (stops_cons _ (by decide)))
      (fun k h => by cases h)⟩

/-! ## White space between tokens -/

section
variable (stod : List Char → Option Double) (fmt : Double → List Char)
  (w : List Nat → List Char)

theorem json_space_isspace {c : Char} (h : json_space c = true) : isspace c = true := by
  unfold json_space at h
  unfold isspace
  simp only [Bool.or_eq_true, decide_eq_true_eq, Bool.and_eq_true] at h ⊢
  omega

theorem isspace_not_number_char {c : Char} (h : isspace c = true) : number_char c = false := by
  cases hn : number_char c with
  | false => rfl
  | true => rw [number_char_not_isspace hn] at h; cases h

theorem stops_space_append {a r : List Char} (ha : ∀ c ∈ a, isspace c = true)
    (hr : stops number_char r) : stops number_char (a ++ r) := by
  cases a with
  | nil => exact hr
  | cons c a => exact stops_cons _ (isspace_not_number_char (ha c (by simp)))

theorem parse_value_zero (s : List Char) (pos : Nat) :
    parse_value stod s 0 pos = Res.outOfFuel := rfl

theorem array_loop_zero (s : List Char) (acc : List Value) (pos : Nat) :
    array_loop stod s 0 acc pos = Res.outOfFuel := rfl

theorem object_loop_zero (s : List Char) (obj : List (List Char × Value)) (pos : Nat) :
    object_loop stod s 0 obj pos = Res.outOfFuel := rfl

/-- The dispatcher skips the white space in front of a value. -/
theorem parse_value_skip {s : List Char} {pos : Nat} {a r : List Char}
    (h : s.drop pos = a ++ r) (ha : ∀ c ∈ a, isspace c = true) (hr : stops isspace r)
    (fuel : Nat) :
    parse_value stod s fuel pos = parse_value stod s fuel (pos + a.length) := by
  cases fuel with
  | zero => rfl
  | succ f =>
    rw [parse_value_succ, parse_value_succ, parse_whitespace_of_drop h ha hr,
      parse_whitespace_of_stops (by rw [drop_add_of_drop h]; exact hr)]

theorem holds_at_lead {s : List Char} {pos k : Nat} {a : List Char} {c : Char}
    {r : List Char} (h : s.drop pos = a ++ c :: r) (ha : ∀ c ∈ a, isspace c = true)
    (hk : k = 93 ∨ k = 125) (hc : c.toNat ≠ k) :
    holds_at s pos (fun c => decide (c.toNat ≠ k)) = true := by
  cases a with
  | nil =>
    rw [holds_at_of_drop (by simpa using h)]
    simp [hc]
  | cons c0 a =>
    rw [holds_at_of_drop (by simpa using h)]
    have h0 := ha c0 (by simp)
    unfold isspace at h0
    simp only [Bool.or_eq_true, decide_eq_true_eq, Bool.and_eq_true] at h0
    simp only [decide_eq_true_eq]
    omega

/-- The loop of `parse_array` in front of white space and an element. -/
theorem array_loop_lead {s : List Char} {pos : Nat} {a : List Char} {c : Char}
    {r : List Char} (h : s.drop pos = a ++ c :: r) (ha : ∀ c ∈ a, isspace c = true)
    (hc : isspace c = false) (h93 : c.toNat ≠ 93) (fuel : Nat) (acc : List Value) :
    array_loop stod s fuel acc pos = array_loop stod s fuel acc (pos + a.length) := by
  cases fuel with
  | zero => rfl
  | succ f =>
    rw [array_loop_succ, array_loop_succ, holds_at_lead h ha (Or.inl rfl) h93,
      holds_at_of_drop (drop_add_of_drop h),
      parse_value_skip stod h ha (stops_cons _ hc)]
    simp [h93]

/-- The loop of `parse_object` in front of white space and a key. -/
theorem object_loop_lead {s : List Char} {pos : Nat} {a : List Char} {c : Char}
    {r : List Char} (h : s.drop pos = a ++ c :: r) (ha : ∀ c ∈ a, isspace c = true)
    (hc : isspace c = false) (h125 : c.toNat ≠ 125) (fuel : Nat)
    (obj : List (List Char × Value)) :
    object_loop stod s fuel obj pos = object_loop stod s fuel obj (pos + a.length) := by
  cases fuel with
  | zero => rfl
  | succ f =>
    rw [object_loop_succ, object_loop_succ, holds_at_lead h ha (Or.inr rfl) h125,
      holds_at_of_drop (drop_add_of_drop h),
      parse_value_skip stod h ha (stops_cons _ hc)]
    simp [h125]

end

section
variable (stod : List Char → Option Double) (fmt : Double → List Char)
  (w : List Nat → List Char)

theorem spaced_Array (p : List Nat) (xs : List Value) :
    spaced fmt w p (Value.Array xs) =
      [Char.ofNat 91] ++ spaced_items fmt w p 0 xs ++ [Char.ofNat 93] := by
  rw [spaced]

theorem spaced_Object (p : List Nat) (kvs : List (List Char × Value)) :
    spaced fmt w p (Value.Object kvs) =
      [Char.ofNat 123] ++ spaced_pairs fmt w p 0 kvs ++ [Char.ofNat 125] := by
  rw [spaced]

theorem spaced_items_nil (p : List Nat) (i : Nat) : spaced_items fmt w p i [] = [] := by
  rw [spaced_items]

theorem spaced_items_cons (p : List Nat) (i : Nat) (x : Value) (rest : List Value) :
    spaced_items fmt w p i (x :: rest) =
      w (0 :: i :: p) ++ spaced fmt w (i :: p) x ++ w (1 :: i :: p) ++
        (if rest.isEmpty then [] else [Char.ofNat 44]) ++ spaced_items fmt w p (i + 1) rest := by
  rw [spaced_items]

theorem spaced_pairs_nil (p : List Nat) (i : Nat) : spaced_pairs fmt w p i [] = [] := by
  rw [spaced_pairs]

theorem spaced_pairs_cons (p : List Nat) (i : Nat) (kv : List Char × Value)
    (rest : List (List Char × Value)) :
    spaced_pairs fmt w p i (kv :: rest) =
      w (0 :: i :: p) ++ generate_string kv.1 ++ w (2 :: i :: p) ++ [Char.ofNat 58] ++
        w (3 :: i :: p) ++ spaced fmt w (i :: p) kv.2 ++ w (1 :: i :: p) ++
        (if rest.isEmpty then [] else [Char.ofNat 44]) ++ spaced_pairs fmt w p (i + 1) rest := by
  obtain ⟨k, v⟩ := kv
  rw [spaced_pairs]

theorem spaced_starts (t : Value) (ht : t.round_trip_class = true) (p : List Nat) (k : Nat)
    (hk : k = 93 ∨ k = 125) : starts_member k (spaced fmt w p t) := by
  have hg := generate_starts fmt t ht k hk
  cases t with
  | Null => rw [spaced]; rw [generate] at hg; exact hg
  | Bool b => rw [spaced]; rw [generate] at hg; exact hg
  | Int n => rw [spaced]; rw [generate] at hg; exact hg
  | Float x => rw [spaced]; rw [generate] at hg; exact hg
  | String str => rw [spaced]; rw [generate] at hg; exact hg
  | Array xs =>
    rw [spaced_Array]
    exact starts_member_cons _ _ (by decide) (by decide) (by decide)
      (by rcases hk with rfl | rfl <;> decide)
  | Object kvs =>
    rw [spaced_Object]
    exact starts_member_cons _ _ (by decide) (by decide) (by decide)
      (by rcases hk with rfl | rfl <;> decide)

theorem spaced_items_eq (p : List Nat) : ∀ (rest : List Value) (i : Nat) (x : Value),
    spaced_items fmt w p i (x :: rest) =
      w (0 :: i :: p) ++ items_text (sp_items fmt w p i (x :: rest))
  | [], i, x => by
    rw [spaced_items_cons, spaced_items_nil]
    simp [sp_items, items_text]
  | y :: r, i, x => by
    rw [spaced_items_cons, spaced_items_eq p r (i + 1) y]
    simp [sp_items, items_text]

theorem sp_items_val (p : List Nat) : ∀ (xs : List Value) (i : Nat),
    (sp_items fmt w p i xs).map Item.val = xs
  | [], _ => rfl
  | x :: rest, i => by
    rw [sp_items, List.map_cons, sp_items_val p rest (i + 1)]

theorem spaced_pairs_eq (p : List Nat) :
    ∀ (rest : List (List Char × Value)) (i : Nat) (kv : List Char × Value),
    spaced_pairs fmt w p i (kv :: rest) =
      w (0 :: i :: p) ++ members_text (sp_members fmt w p i (kv :: rest))
  | [], i, kv => by
    rw [spaced_pairs_cons, spaced_pairs_nil]
    simp [sp_members, members_text]
  | kv2 :: r, i, kv => by
    rw [spaced_pairs_cons, spaced_pairs_eq p r (i + 1) kv2]
    simp [sp_members, members_text]

theorem assign_all_sp_members (p : List Nat) :
    ∀ (kvs : List (List Char × Value)) (i : Nat) (obj : List (List Char × Value)),
    assign_all obj (sp_members fmt w p i kvs) = set_all obj kvs
  | [], _, _ => rfl
  | kv :: rest, i, obj => by
    have ih := assign_all_sp_members p rest (i + 1) (map_set obj kv.1 kv.2)
    unfold assign_all set_all at ih ⊢
    rw [sp_members, List.foldl_cons, List.foldl_cons]
    exact ih

theorem is_sep_space (k : Nat) (a : List Char) (ha : ∀ c ∈ a, isspace c = true) :
    is_sep k a :=
  ⟨a, [], ha, by simp, Or.inl (by simp)⟩

theorem is_sep_around (k : Nat) (a b : List Char) (ha : ∀ c ∈ a, isspace c = true)
    (hb : ∀ c ∈ b, isspace c = true) : is_sep k (a ++ [Char.ofNat k] ++ b) :=
  ⟨a, b, ha, hb, Or.inr rfl⟩

theorem array_items_ok_sp (hw : ∀ p, ∀ c ∈ w p, isspace c = true) (tl : List Char)
    (htl : closes 93 tl) (p : List Nat) : ∀ (xs : List Value) (i : Nat),
      (∀ x ∈ xs, ∀ q, starts_member 93 (spaced fmt w q x) ∧
        ∀ follow, stops number_char follow → parses_to stod (spaced fmt w q x) x follow) →
      array_items_ok stod (sp_items fmt w p i xs) tl
  | [], _, _ => trivial
  | x :: rest, i, h => by
    obtain ⟨h1, h2⟩ := h x (by simp) (i :: p)
    have hrest := array_items_ok_sp hw tl htl p rest (i + 1) (fun z hz => h z (by simp [hz]))
    rw [sp_items]
    refine ⟨h1, ?_, ?_, hrest⟩
    · apply h2
      show stops number_char ((w (1 :: i :: p) ++
        (if rest.isEmpty then [] else [Char.ofNat 44] ++ w (0 :: (i + 1) :: p))) ++
          (items_text (sp_items fmt w p (i + 1) rest) ++ tl))
      rw [List.append_assoc]
      apply stops_space_append (hw _)
      cases rest with
      | nil => simpa [sp_items, items_text] using stops_number_char_of_closes htl (Or.inl rfl)
      | cons y r => exact stops_cons _ (by decide)
    · show is_sep 44 (w (1 :: i :: p) ++
        (if rest.isEmpty then [] else [Char.ofNat 44] ++ w (0 :: (i + 1) :: p)))
      cases rest with
      | nil => simpa using is_sep_space 44 _ (hw _)
      | cons y r =>
        simpa [List.append_assoc] using is_sep_around 44 _ _ (hw (1 :: i :: p))
          (hw (0 :: (i + 1) :: p))

theorem object_members_ok_sp (hw : ∀ p, ∀ c ∈ w p, isspace c = true) (tl : List Char)
    (htl : closes 125 tl) (p : List Nat) : ∀ (kvs : List (List Char × Value)) (i : Nat),
      (∀ kv ∈ kvs, quote_free kv.1 = true ∧ ∀ q, starts_member 125 (spaced fmt w q kv.2) ∧
        ∀ follow, stops number_char follow →
          parses_to stod (spaced fmt w q kv.2) kv.2 follow) →
      object_members_ok stod (sp_members fmt w p i kvs) tl
  | [], _, _ => trivial
  | kv :: rest, i, h => by
    obtain ⟨h0, h12⟩ := h kv (by simp)
    obtain ⟨h1, h2⟩ := h12 (i :: p)
    have hrest := object_members_ok_sp hw tl htl p rest (i + 1)
      (fun z hz => h z (by simp [hz]))
    rw [sp_members]
    refine ⟨h0, is_sep_around 58 _ _ (hw _) (hw _), h1, ?_, ?_, hrest⟩
    · apply h2
      show stops number_char ((w (1 :: i :: p) ++
        (if rest.isEmpty then [] else [Char.ofNat 44] ++ w (0 :: (i + 1) :: p))) ++
          (members_text (sp_members fmt w p (i + 1) rest) ++ tl))
      rw [List.append_assoc]
      apply stops_space_append (hw _)
      cases rest with
      | nil => simpa [sp_members, members_text] using stops_number_char_of_closes htl (Or.inr rfl)
      | cons y r => exact stops_cons _ (by decide)
    · show is_sep 44 (w (1 :: i :: p) ++
        (if rest.isEmpty then [] else [Char.ofNat 44] ++ w (0 :: (i + 1) :: p)))
      cases rest with
      | nil => simpa using is_sep_space 44 _ (hw _)
      | cons y r =>
        simpa [List.append_assoc] using is_sep_around 44 _ _ (hw (1 :: i :: p))
          (hw (0 :: (i + 1) :: p))

end

section
variable (stod : List Char → Option Double) (fmt : Double → List Char)
  (w : List Nat → List Char)

theorem items_text_starts {stod : List Char → Option Double} {items : List Item}
    {tl : List Char} (hok : array_items_ok stod items tl) (hne : items ≠ []) (r : List Char) :
    ∃ c l, items_text items ++ r = c :: l ∧ isspace c = false ∧ c.toNat ≠ 93 := by
  cases items with
  | nil => exact absurd rfl hne
  | cons i rest =>
    obtain ⟨⟨c, l, hcl, h1, _, _, h4⟩, _⟩ := hok
    exact ⟨c, l ++ (i.sep ++ items_text rest) ++ r, by rw [items_text_cons, hcl]; simp, h1, h4⟩

theorem parses_spaced_array (hw : ∀ p, ∀ c ∈ w p, isspace c = true) (xs : List Value)
    (h : ∀ x ∈ xs, ∀ q, starts_member 93 (spaced fmt w q x) ∧
      ∀ follow, stops number_char follow → parses_to stod (spaced fmt w q x) x follow)
    (p : List Nat) (follow : List Char) :
    parses_to stod (spaced fmt w p (Value.Array xs)) (Value.Array xs) follow := by
  intro s pos hd
  rw [spaced_Array] at hd ⊢
  have hcl : closes 93 (Char.ofNat 93 :: follow) := by
    intro c hc; simp at hc; rw [← hc]; rfl
  have hok := array_items_ok_sp stod fmt w hw _ hcl p xs 0 h
  have hd0 : s.drop pos = Char.ofNat 91 ::
      (spaced_items fmt w p 0 xs ++ (Char.ofNat 93 :: follow)) := by
    rw [hd]; simp
  have hd1 := drop_succ_of_drop hd0
  have hdisp : ∀ f, parse_value stod s (f + 2) pos = array_loop stod s f [] (pos + 1) := by
    intro f
    rw [parse_value_at stod s hd0 (by decide), if_neg (by decide), if_neg (by decide),
      if_neg (by decide), if_neg (by decide), if_pos (by decide), parse_array_succ]
  cases xs with
  | nil =>
    rw [spaced_items_nil] at hd1 ⊢
    obtain ⟨f, hf⟩ := array_loop_items stod s [] _ [] (pos + 1) trivial hcl hd1
    refine ⟨f + 2, ?_⟩
    rw [hdisp, hf]
    simp [items_text]
  | cons x rest =>
    rw [spaced_items_eq] at hd1 ⊢
    rw [List.append_assoc] at hd1
    obtain ⟨c, l, hcl2, hc1, hc2⟩ := items_text_starts hok (by rw [sp_items]; simp)
      (Char.ofNat 93 :: follow)
    have hd2 := drop_add_of_drop hd1
    obtain ⟨f, hf⟩ := array_loop_items stod s _ _ [] _ hok hcl hd2
    rw [hcl2] at hd1
    refine ⟨f + 2, ?_⟩
    rw [hdisp, array_loop_lead stod hd1 (hw _) hc1 hc2, hf, sp_items_val]
    simp
    omega

theorem members_text_starts (ms : List Member) (hne : ms ≠ []) (r : List Char) :
    ∃ c l, members_text ms ++ r = c :: l ∧ isspace c = false ∧ c.toNat ≠ 125 := by
  cases ms with
  | nil => exact absurd rfl hne
  | cons m rest =>
    refine ⟨quote, m.key ++ quote :: (m.colon ++ (m.text ++ (m.sep ++ (members_text rest ++ r)))),
      ?_, by decide, by decide⟩
    rw [members_text_cons]
    simp [generate_string]

theorem parses_spaced_object (hw : ∀ p, ∀ c ∈ w p, isspace c = true)
    (kvs : List (List Char × Value))
    (h : ∀ kv ∈ kvs, quote_free kv.1 = true ∧ ∀ q, starts_member 125 (spaced fmt w q kv.2) ∧
      ∀ follow, stops number_char follow →
        parses_to stod (spaced fmt w q kv.2) kv.2 follow)
    (p : List Nat) (follow : List Char) :
    parses_to stod (spaced fmt w p (Value.Object kvs)) (Value.Object (set_all [] kvs))
      follow := by
  intro s pos hd
  rw [spaced_Object] at hd ⊢
  have hcl : closes 125 (Char.ofNat 125 :: follow) := by
    intro c hc; simp at hc; rw [← hc]; rfl
  have hok := object_members_ok_sp stod fmt w hw _ hcl p kvs 0 h
  have hd0 : s.drop pos = Char.ofNat 123 ::
      (spaced_pairs fmt w p 0 kvs ++ (Char.ofNat 125 :: follow)) := by
    rw [hd]; simp
  have hd1 := drop_succ_of_drop hd0
  have hdisp : ∀ f, parse_value stod s (f + 2) pos = object_loop stod s f [] (pos + 1) := by
    intro f
    rw [parse_value_at stod s hd0 (by decide), if_neg (by decide), if_neg (by decide),
      if_neg (by decide), if_neg (by decide), if_neg (by decide), if_pos (by decide),
      parse_object_succ]
  cases kvs with
  | nil =>
    rw [spaced_pairs_nil] at hd1 ⊢
    obtain ⟨f, hf⟩ := object_loop_members stod s [] _ [] (pos + 1) trivial hcl hd1
    refine ⟨f + 2, ?_⟩
    rw [hdisp, hf]
    simp [members_text, assign_all, set_all]
  | cons kv rest =>
    rw [spaced_pairs_eq] at hd1 ⊢
    rw [List.append_assoc] at hd1
    obtain ⟨c, l, hcl2, hc1, hc2⟩ := members_text_starts
      (sp_members fmt w p 0 (kv :: rest)) (by rw [sp_members]; simp) (Char.ofNat 125 :: follow)
    have hd2 := drop_add_of_drop hd1
    obtain ⟨f, hf⟩ := object_loop_members stod s _ _ [] _ hok hcl hd2
    rw [hcl2] at hd1
    refine ⟨f + 2, ?_⟩
    rw [hdisp, object_loop_lead stod hd1 (hw _) hc1 hc2, hf, assign_all_sp_members]
    simp
    omega

/-- A spaced text of a tree of the round-trip class is read by `parse_value` as the
tree. -/
theorem parses_spaced (hw : ∀ p, ∀ c ∈ w p, isspace c = true) (t : Value)
    (hc : t.round_trip_class = true) (hwf : t.wf = true) (p : List Nat) (follow : List Char)
    (hfollow : ∀ n, t = Value.Int n → stops number_char follow) :
    parses_to stod (spaced fmt w p t) t follow := by
  revert hc hwf p follow
  induction t using Value.induct with
  | hNull => intro _ _ _ follow _; rw [spaced]; exact parses_null stod follow
  | hBool b =>
    intro _ _ _ follow _
    rw [spaced]
    cases b
    · exact parses_false stod follow
    · exact parses_true stod follow
  | hInt n =>
    intro hc _ _ follow hfollow
    rw [spaced]
    obtain ⟨h0, hmax⟩ := (class_Int n).mp hc
    exact parses_int stod n h0 hmax follow (hfollow n rfl)
  | hFloat x => intro hc; rw [class_Float] at hc; cases hc
  | hString str =>
    intro hc _ _ follow _
    rw [spaced]
    exact parses_string stod str (by rw [Value.round_trip_class] at hc; exact hc) follow
  | hArray xs ih =>
    intro hc hwf p follow _
    rw [class_Array] at hc
    rw [wf_Array] at hwf
    exact parses_spaced_array stod fmt w hw xs (fun x hx q =>
      ⟨spaced_starts fmt w x (hc x hx) q 93 (Or.inl rfl),
       fun fl hfl => ih x hx (hc x hx) (hwf x hx) q fl (fun _ _ => hfl)⟩) p follow
  | hObject kvs ih =>
    intro hc hwf p follow _
    rw [class_Object] at hc
    rw [wf_Object] at hwf
    have := parses_spaced_object stod fmt w hw kvs (fun kv hkv =>
      ⟨(hc kv hkv).1, fun q => ⟨spaced_starts fmt w kv.2 (hc kv hkv).2 q 125 (Or.inr rfl),
       fun fl hfl => ih kv hkv (hc kv hkv).2 (hwf.2 kv hkv) q fl (fun _ _ => hfl)⟩⟩) p follow
    rw [set_all_ascending kvs hwf.1] at this
    exact this

theorem spaced_items_none (xs : List Value) (p : List Nat)
    (h : ∀ x ∈ xs, ∀ q, spaced fmt (fun _ => []) q x = generate fmt x) : ∀ (i : Nat),
    spaced_items fmt (fun _ => []) p i xs = join_with [Char.ofNat 44] (xs.map (generate fmt)) := by
  induction xs with
  | nil => intro i; rw [spaced_items_nil]; rfl
  | cons x rest ih =>
    intro i
    rw [spaced_items_cons, ih (fun z hz => h z (by simp [hz])), h x (by simp)]
    cases rest with
    | nil => simp [join_with]
    | cons y r => simp [join_with]

theorem spaced_pairs_none (kvs : List (List Char × Value)) (p : List Nat)
    (h : ∀ kv ∈ kvs, ∀ q, spaced fmt (fun _ => []) q kv.2 = generate fmt kv.2) : ∀ (i : Nat),
    spaced_pairs fmt (fun _ => []) p i kvs =
      join_with [Char.ofNat 44] (kvs.map (member_text fmt)) := by
  induction kvs with
  | nil => intro i; rw [spaced_pairs_nil]; rfl
  | cons kv rest ih =>
    intro i
    rw [spaced_pairs_cons, ih (fun z hz => h z (by simp [hz])), h kv (by simp)]
    cases rest with
    | nil => simp [join_with, member_text]
    | cons y r => simp [join_with, member_text]

/-- Without inserted white space the spaced text is the generated text. -/
theorem spaced_none (t : Value) : ∀ p, spaced fmt (fun _ => []) p t = generate fmt t := by
  induction t using Value.induct with
  | hNull => intro p; rw [spaced, generate]
  | hBool b => intro p; rw [spaced, generate]
  | hInt n => intro p; rw [spaced, generate]
  | hFloat x => intro p; rw [spaced, generate]
  | hString str => intro p; rw [spaced, generate]
  | hArray xs ih =>
    intro p
    rw [spaced_Array, generate_Array_eq, spaced_items_none fmt xs p ih]
  | hObject kvs ih =>
    intro p
    rw [spaced_Object, generate_Object_eq, spaced_pairs_none fmt kvs p ih]

/-- C20 (the code): for every tree of the round-trip class and every insertion of runs of
space, tab, newline and carriage return in front of the first token and between adjacent
tokens of its generated text, an empty container left as it is, `parse` of the spaced text
succeeds and returns the tree, as `parse` of the generated text does. With white space
between the opening and the closing character of an empty container `parse` faults:
`[ ]` and `{ }` raise an exception, while `[]` and `{}` parse to the empty array and the
empty object. -/
theorem whitespace_between_tokens (w : List Nat → List Char)
    (hw : ∀ p, ∀ c ∈ w p, json_space c = true) (t : Value)
    (hc : t.round_trip_class = true) (hwf : t.wf = true) :
    spaced fmt (fun _ => []) [] t = generate fmt t ∧
      parser stod (generate fmt t) = Outcome.node t ∧
      parser stod (w [] ++ spaced fmt w [] t) = Outcome.node t ∧
      parser stod "[]".toList = Outcome.node (Value.Array []) ∧
      parser stod "\x7b\x7d".toList = Outcome.node (Value.Object []) ∧
      parser stod "[ ]".toList = Outcome.fault ∧
      parser stod "\x7b \x7d".toList = Outcome.fault := by
  have hw2 : ∀ p, ∀ c ∈ w p, isspace c = true := fun p c hc => json_space_isspace (hw p c hc)
  have key : ∀ (v : List Nat → List Char), (∀ p, ∀ c ∈ v p, isspace c = true) →
      parser stod (v [] ++ spaced fmt v [] t) = Outcome.node t := by
    intro v hv
    have hp := parses_spaced stod fmt v hv t hc hwf [] [] (fun _ _ => stops_nil _)
    obtain ⟨c, r, hcr, hsp, _⟩ := spaced_starts fmt v t hc [] 93 (Or.inl rfl)
    generalize hs : v [] ++ spaced fmt v [] t = s
    have hd : s.drop 0 = v [] ++ spaced fmt v [] t := by rw [← hs]; rfl
    have hws : parse_whitespace s 0 = 0 + (v []).length :=
      parse_whitespace_of_drop hd (hv []) (by rw [hcr]; exact stops_cons r hsp)
    obtain ⟨f, hf⟩ := hp s (0 + (v []).length)
      (by rw [drop_add_of_drop hd, List.append_nil])
    rw [← hws] at hf
    exact parser_of_value stod _ hf
  refine ⟨spaced_none fmt t [], ?_, key w hw2, rfl, rfl, rfl, rfl⟩
  have h0 := key (fun _ => []) (fun _ _ hc => by cases hc)
  rw [spaced_none] at h0
  simpa using h0

end

/-- Witness of C20: the text ` [ 1 , { "a" : true } , [] ]` with a space in every gap
parses to the tree of `[1,{"a":true},[]]`. -/
theorem whitespace_between_tokens_witness :
    parser stod_examples " [ 1 , \x7b \"a\" : true \x7d , [] ]".toList =
        Outcome.node (Value.Array [Value.Int 1,
          Value.Object [("a".toList, Value.Bool true)], Value.Array []]) ∧
      parser stod_examples "\n[\t1\r]".toList = Outcome.node (Value.Array [Value.Int 1]) :=
  ⟨(whitespace_between_tokens stod_examples (fun _ => []) (fun _ => " ".toList)
      (fun _ c hc => by
        have : c = Char.ofNat 32 := by simpa using hc
        rw [this]; rfl)
      (Value.Array [Value.Int 1, Value.Object [("a".toList, Value.Bool true)],
        Value.Array []]) (by decide) (by decide)).2.2.1,
   (whitespace_between_tokens stod_examples (fun _ => [])
      (fun p => if p = [] then "\n".toList else if p = [0, 0] then "\t".toList
        else if p = [1, 0] then "\r".toList else [])
      (fun p c hc => by
        dsimp only at hc
        split at hc
        · have : c = Char.ofNat 10 := by simpa using hc
          rw [this]; rfl
        · split at hc
          · have : c = Char.ofNat 9 := by simpa using hc
            rw [this]; rfl
          · split at hc
            · have : c = Char.ofNat 13 := by simpa using hc
              rw [this]; rfl
            · cases hc)
      (Value.Array [Value.Int 1]) (by decide) (by decide)).2.2.1⟩

/-! ## Termination -/

section
variable (stod : List Char → Option Double) (s : List Char)

theorem array_loop_traced_succ (fuel : Nat) (arr : List Value) (pos : Nat) :
    array_loop_traced stod s (fuel + 1) arr pos =
      if holds_at s pos (fun c => c.toNat ≠ 93) then
        match parse_value stod s fuel pos with
        | Res.ret (some value) p1 =>
          ((array_loop_traced stod s fuel (arr ++ [value])
            (parse_whitespace s
              (if holds_at s (parse_whitespace s p1) (fun c => c.toNat = 44)
                then parse_whitespace s p1 + 1 else parse_whitespace s p1))).1,
           pos :: (array_loop_traced stod s fuel (arr ++ [value])
            (parse_whitespace s
              (if holds_at s (parse_whitespace s p1) (fun c => c.toNat = 44)
                then parse_whitespace s p1 + 1 else parse_whitespace s p1))).2)
        | Res.ret none _ => (Res.fault, [pos])
        | Res.fault => (Res.fault, [pos])
        | Res.outOfFuel => (Res.outOfFuel, [pos])
      else (Res.ret (some (Value.Array arr)) (pos + 1), []) := by
  rfl

/-- The traced loop of `parse_array` returns what `array_loop` returns. -/
theorem array_loop_traced_fst : ∀ (fuel : Nat) (arr : List Value) (pos : Nat),
    (array_loop_traced stod s fuel arr pos).1 = array_loop stod s fuel arr pos := by
  intro fuel
  induction fuel with
  | zero => intro arr pos; rfl
  | succ f ih =>
    intro arr pos
    rw [array_loop_traced_succ, array_loop_succ]
    by_cases hg : holds_at s pos (fun c => decide (c.toNat ≠ 93)) = true
    · rw [if_pos hg, if_pos hg]
      cases h : parse_value stod s f pos with
      | ret v p1 =>
        cases v with
        | none => rfl
        | some v => exact ih _ _
      | fault => rfl
      | outOfFuel => rfl
    · rw [if_neg hg, if_neg hg]

/-- The calls of the loop of `parse_array` are at strictly increasing cursor positions,
none in front of the cursor the loop starts with. -/
theorem array_loop_traced_calls : ∀ (fuel : Nat) (arr : List Value) (pos : Nat),
    List.Pairwise (fun a b => a < b) (array_loop_traced stod s fuel arr pos).2 ∧
      ∀ q ∈ (array_loop_traced stod s fuel arr pos).2, pos ≤ q := by
  intro fuel
  induction fuel with
  | zero => intro arr pos; exact ⟨List.Pairwise.nil, fun q hq => by cases hq⟩
  | succ f ih =>
    intro arr pos
    rw [array_loop_traced_succ]
    by_cases hg : holds_at s pos (fun c => decide (c.toNat ≠ 93)) = true
    · rw [if_pos hg]
      cases h : parse_value stod s f pos with
      | ret v p1 =>
        cases v with
        | none => exact ⟨by simp, by simp⟩
        | some v =>
          have h1 := ((advance stod s f).1 pos (some v) p1 h).2 (by simp)
          have h2 := sep_skip_ge s p1 44
          obtain ⟨i1, i2⟩ := ih (arr ++ [v]) (parse_whitespace s
            (if holds_at s (parse_whitespace s p1) (fun c => decide (c.toNat = 44)) = true
              then parse_whitespace s p1 + 1 else parse_whitespace s p1))
          refine ⟨List.Pairwise.cons (fun q hq => ?_) i1, fun q hq => ?_⟩
          · have := i2 q hq; omega
          · rcases List.mem_cons.mp hq with rfl | hq
            · exact le_refl _
            · have := i2 q hq; omega
      | fault => exact ⟨by simp, by simp⟩
      | outOfFuel => exact ⟨by simp, by simp⟩
    · rw [if_neg hg]
      exact ⟨List.Pairwise.nil, fun q hq => by cases hq⟩

end

section
variable (stod : List Char → Option Double) (s : List Char)

theorem object_loop_traced_succ (fuel : Nat) (obj : List (List Char × Value)) (pos : Nat) :
    object_loop_traced stod s (fuel + 1) obj pos =
      if holds_at s pos (fun c => c.toNat ≠ 125) then
        match parse_value stod s fuel pos with
        | Res.ret key p1 =>
          match key with
          | none => (Res.fault, [pos])
          | some (Value.String k) =>
            match parse_value stod s fuel
                (parse_whitespace s
                  (if holds_at s (parse_whitespace s p1) (fun c => c.toNat = 58)
                    then parse_whitespace s p1 + 1 else parse_whitespace s p1)) with
            | Res.ret (some val) p4 =>
              ((object_loop_traced stod s fuel (map_set obj k val)
                (parse_whitespace s
                  (if holds_at s (parse_whitespace s p4) (fun c => c.toNat = 44)
                    then parse_whitespace s p4 + 1 else parse_whitespace s p4))).1,
               pos :: parse_whitespace s
                  (if holds_at s (parse_whitespace s p1) (fun c => c.toNat = 58)
                    then parse_whitespace s p1 + 1 else parse_whitespace s p1) ::
                (object_loop_traced stod s fuel (map_set obj k val)
                  (parse_whitespace s
                    (if holds_at s (parse_whitespace s p4) (fun c => c.toNat = 44)
                      then parse_whitespace s p4 + 1 else parse_whitespace s p4))).2)
            | Res.ret none _ => (Res.fault, [pos, parse_whitespace s
                  (if holds_at s (parse_whitespace s p1) (fun c => c.toNat = 58)
                    then parse_whitespace s p1 + 1 else parse_whitespace s p1)])
            | Res.fault => (Res.fault, [pos, parse_whitespace s
                  (if holds_at s (parse_whitespace s p1) (fun c => c.toNat = 58)
                    then parse_whitespace s p1 + 1 else parse_whitespace s p1)])
            | Res.outOfFuel => (Res.outOfFuel, [pos, parse_whitespace s
                  (if holds_at s (parse_whitespace s p1) (fun c => c.toNat = 58)
                    then parse_whitespace s p1 + 1 else parse_whitespace s p1)])
          | some _ => (Res.ret none (parse_whitespace s p1), [pos])
        | Res.fault => (Res.fault, [pos])
        | Res.outOfFuel => (Res.outOfFuel, [pos])
      else (Res.ret (some (Value.Object obj)) (pos + 1), []) := by
  rfl

/-- The traced loop of `parse_object` returns what `object_loop` returns. -/
theorem object_loop_traced_fst : ∀ (fuel : Nat) (obj : List (List Char × Value)) (pos : Nat),
    (object_loop_traced stod s fuel obj pos).1 = object_loop stod s fuel obj pos := by
  intro fuel
  induction fuel with
  | zero => intro obj pos; rfl
  | succ f ih =>
    intro obj pos
    rw [object_loop_traced_succ, object_loop_succ]
    by_cases hg : holds_at s pos (fun c => decide (c.toNat ≠ 125)) = true
    · rw [if_pos hg, if_pos hg]
      cases h : parse_value stod s f pos with
      | ret v p1 =>
        cases v with
        | none => rfl
        | some v =>
          cases v with
          | String k =>
            simp only
            cases h2 : parse_value stod s f (parse_whitespace s
                (if holds_at s (parse_whitespace s p1) (fun c => decide (c.toNat = 58)) = true
                  then parse_whitespace s p1 + 1 else parse_whitespace s p1)) with
            | ret v2 p4 =>
              cases v2 with
              | none => rfl
              | some v2 => exact ih _ _
            | fault => rfl
            | outOfFuel => rfl
          | Null => rfl
          | Bool b => rfl
          | Int n => rfl
          | Float d => rfl
          | Array xs => rfl
          | Object kvs => rfl
      | fault => rfl
      | outOfFuel => rfl
    · rw [if_neg hg, if_neg hg]

/-- The calls of the loop of `parse_object` are at strictly increasing cursor positions,
none in front of the cursor the loop starts with. -/
theorem object_loop_traced_calls : ∀ (fuel : Nat) (obj : List (List Char × Value)) (pos : Nat),
    List.Pairwise (fun a b => a < b) (object_loop_traced stod s fuel obj pos).2 ∧
      ∀ q ∈ (object_loop_traced stod s fuel obj pos).2, pos ≤ q := by
  intro fuel
  induction fuel with
  | zero => intro obj pos; exact ⟨List.Pairwise.nil, fun q hq => by cases hq⟩
  | succ f ih =>
    intro obj pos
    rw [object_loop_traced_succ]
    by_cases hg : holds_at s pos (fun c => decide (c.toNat ≠ 125)) = true
    · rw [if_pos hg]
      cases h : parse_value stod s f pos with
      | ret v p1 =>
        cases v with
        | none => exact ⟨by simp, by simp⟩
        | some v =>
          have h1 := ((advance stod s f).1 pos (some v) p1 h).2 (by simp)
          have h2 := sep_skip_ge s p1 58
          cases v with
          | String k =>
            simp only
            cases h3 : parse_value stod s f (parse_whitespace s
                (if holds_at s (parse_whitespace s p1) (fun c => decide (c.toNat = 58)) = true
                  then parse_whitespace s p1 + 1 else parse_whitespace s p1)) with
            | ret v2 p4 =>
              cases v2 with
              | none => exact ⟨by simp; omega, by simp; omega⟩
              | some v2 =>
                have h4 := ((advance stod s f).1 _ (some v2) p4 h3).2 (by simp)
                have h5 := sep_skip_ge s p4 44
                obtain ⟨i1, i2⟩ := ih (map_set obj k v2) (parse_whitespace s
                  (if holds_at s (parse_whitespace s p4) (fun c => decide (c.toNat = 44)) = true
                    then parse_whitespace s p4 + 1 else parse_whitespace s p4))
                refine ⟨List.Pairwise.cons (fun q hq => ?_)
                  (List.Pairwise.cons (fun q hq => ?_) i1), fun q hq => ?_⟩
                · rcases List.mem_cons.mp hq with rfl | hq
                  · omega
                  · have := i2 q hq; omega
                · have := i2 q hq; omega
                · rcases List.mem_cons.mp hq with rfl | hq
                  · exact le_refl _
                  · rcases List.mem_cons.mp hq with rfl | hq
                    · omega
                    · have := i2 q hq; omega
            | fault => exact ⟨by simp; omega, by simp; omega⟩
            | outOfFuel => exact ⟨by simp; omega, by simp; omega⟩
          | Null => exact ⟨by simp, by simp⟩
          | Bool b => exact ⟨by simp, by simp⟩
          | Int n => exact ⟨by simp, by simp⟩
          | Float d => exact ⟨by simp, by simp⟩
          | Array xs => exact ⟨by simp, by simp⟩
          | Object kvs => exact ⟨by simp, by simp⟩
      | fault => exact ⟨by simp, by simp⟩
      | outOfFuel => exact ⟨by simp, by simp⟩
    · rw [if_neg hg]
      exact ⟨List.Pairwise.nil, fun q hq => by cases hq⟩

end

section
variable (stod : List Char → Option Double) (s : List Char)

/-- The traced `parse_value` returns what `parse_value` returns. -/
theorem parse_value_traced_fst (fuel pos0 : Nat) :
    (parse_value_traced stod s fuel pos0).1 = parse_value stod s fuel pos0 := by
  cases fuel with
  | zero => rfl
  | succ f =>
    rw [parse_value_succ]
    unfold parse_value_traced
    simp only
    cases char_at s (parse_whitespace s pos0) with
    | none => rfl
    | some c =>
      simp only
      split_ifs
      · rfl
      · rfl
      · rfl
      · rfl
      · cases f with
        | zero => rfl
        | succ g => exact array_loop_traced_fst stod s g [] _
      · cases f with
        | zero => rfl
        | succ g => exact object_loop_traced_fst stod s g [] _
      · rfl

/-- Every recursive call of `parse_value` is at a cursor position behind the position
at which the calling `parse_value` was entered. -/
theorem parse_value_traced_calls (fuel pos0 : Nat) :
    ∀ q ∈ (parse_value_traced stod s fuel pos0).2, pos0 < q := by
  have hge := parse_whitespace_ge s pos0
  cases fuel with
  | zero => intro q hq; cases hq
  | succ f =>
    unfold parse_value_traced
    simp only
    cases char_at s (parse_whitespace s pos0) with
    | none => intro q hq; cases hq
    | some c =>
      simp only
      split_ifs
      · intro q hq; cases hq
      · intro q hq; cases hq
      · intro q hq; cases hq
      · intro q hq; cases hq
      · cases f with
        | zero => intro q hq; cases hq
        | succ g =>
          intro q hq
          have := (array_loop_traced_calls stod s g [] (parse_whitespace s pos0 + 1)).2 q hq
          omega
      · cases f with
        | zero => intro q hq; cases hq
        | succ g =>
          intro q hq
          have := (object_loop_traced_calls stod s g [] (parse_whitespace s pos0 + 1)).2 q hq
          omega
      · intro q hq; cases hq

end

theorem takeWhile_drop_length_le (s : List Char) (p : Char → Bool) (pos : Nat) :
    pos + ((s.drop pos).takeWhile p).length ≤ max pos s.length := by
  have h1 : ((s.drop pos).takeWhile p).length ≤ (s.drop pos).length := by
    have h := List.takeWhile_append_dropWhile p (s.drop pos)
    have h2 := congrArg List.length h
    rw [List.length_append] at h2
    omega
  rw [List.length_drop] at h1
  omega

/-- The scan of `parse_string`, when it returns, has found a double quote inside the
text, or has not run because the text ends with the opening quote. -/
theorem string_loop_some {s : List Char} {pos : Nat} : ∀ (fuel endpos e : Nat),
    string_loop s pos fuel endpos = some e →
      (endpos ≤ e ∧ e < s.length) ∨ (¬ pos < s.length ∧ e = endpos) := by
  intro fuel
  induction fuel with
  | zero => intro endpos e h; cases h
  | succ n ih =>
    intro endpos e h
    unfold string_loop at h
    split_ifs at h with hp
    · cases hc : char_at s endpos with
      | none => rw [hc] at h; cases h
      | some c =>
        rw [hc] at h
        simp only at h
        split_ifs at h with hq
        · rcases ih (endpos + 1) e h with ⟨h1, h2⟩ | ⟨h1, _⟩
          · exact Or.inl ⟨by omega, h2⟩
          · exact absurd hp h1
        · have hcq : c = quote := by simpa using hq
          have hlt : endpos < s.length :=
            char_at_lt hc (by rw [hcq]; decide)
          cases h
          exact Or.inl ⟨le_refl _, hlt⟩
    · cases h
      exact Or.inr ⟨hp, rfl⟩

/-- C21 (the code): `parse` returns on every text in the embedding, where a read outside
the buffer is a fault. The scans of `parse_whitespace` and of `parse_number` stop inside
the text or at its end, with their guard false. The scan of `parse_string` does so only
when the text holds a closing double quote or ends with the opening one: on a longer
text without a closing quote, as `"abc`, it leaves the buffer and `parse` faults. The
calls of `parse_value` in the loops of `parse_array` and `parse_object` are at strictly
increasing cursor positions, and every recursive call of `parse_value` is at a position
behind the one at which its caller was entered. -/
theorem parse_terminates (stod : List Char → Option Double) (s : List Char) :
    parser stod s ≠ Outcome.outOfFuel ∧
      (∀ pos fuel, s.length - pos ≤ fuel →
        whitespace_loop s fuel pos = parse_whitespace s pos ∧
          parse_whitespace s pos ≤ max pos s.length ∧
          holds_at s (parse_whitespace s pos) isspace = false) ∧
      (∀ pos fuel, s.length - pos ≤ fuel →
        number_loop s fuel pos = number_loop s (s.length - pos) pos ∧
          number_loop s (s.length - pos) pos ≤ max pos s.length ∧
          holds_at s (number_loop s (s.length - pos) pos) number_char = false) ∧
      (∀ pos e, string_loop s pos (s.length + 2) pos = some e →
        pos ≤ e ∧ e ≤ max pos s.length) ∧
      (∀ pos, string_loop s pos (s.length + 2) pos = none ↔
        pos < s.length ∧ ∀ c ∈ s.drop pos, c ≠ quote) ∧
      (∀ cs, cs ≠ [] → (∀ c ∈ cs, c ≠ quote) → parser stod (quote :: cs) = Outcome.fault) ∧
      parser stod "\"abc".toList = Outcome.fault ∧
      (∀ fuel arr pos,
        (array_loop_traced stod s fuel arr pos).1 = array_loop stod s fuel arr pos ∧
          List.Pairwise (fun a b => a < b) (array_loop_traced stod s fuel arr pos).2 ∧
          ∀ q ∈ (array_loop_traced stod s fuel arr pos).2, pos ≤ q) ∧
      (∀ fuel obj pos,
        (object_loop_traced stod s fuel obj pos).1 = object_loop stod s fuel obj pos ∧
          List.Pairwise (fun a b => a < b) (object_loop_traced stod s fuel obj pos).2 ∧
          ∀ q ∈ (object_loop_traced stod s fuel obj pos).2, pos ≤ q) ∧
      (∀ fuel pos0,
        (parse_value_traced stod s fuel pos0).1 = parse_value stod s fuel pos0 ∧
          ∀ q ∈ (parse_value_traced stod s fuel pos0).2, pos0 < q) := by
  refine ⟨parser_fuel_adequate stod s, ?_, ?_, ?_, string_loop_none_iff s, ?_, rfl, ?_, ?_, ?_⟩
  · intro pos fuel hf
    refine ⟨?_, ?_, ?_⟩
    · rw [whitespace_loop_eq s fuel pos hf, parse_whitespace_eq]
    · rw [parse_whitespace_eq]
      exact takeWhile_drop_length_le s isspace pos
    · rw [parse_whitespace_eq]
      exact holds_at_after_takeWhile s isspace pos
  · intro pos fuel hf
    rw [number_loop_eq s fuel pos hf, number_loop_eq s (s.length - pos) pos (le_refl _)]
    exact ⟨rfl, takeWhile_drop_length_le s number_char pos,
      holds_at_after_takeWhile s number_char pos⟩
  · intro pos e h
    rcases string_loop_some _ _ _ h with ⟨h1, h2⟩ | ⟨_, h2⟩
    · exact ⟨h1, by omega⟩
    · omega
  · intro cs hne hq
    have h := parser_unterminated_string stod cs hq
    rw [if_neg hne] at h
    exact h
  · intro fuel arr pos
    exact ⟨array_loop_traced_fst stod s fuel arr pos, array_loop_traced_calls stod s fuel arr pos⟩
  · intro fuel obj pos
    exact ⟨object_loop_traced_fst stod s fuel obj pos,
      object_loop_traced_calls stod s fuel obj pos⟩
  · intro fuel pos0
    exact ⟨parse_value_traced_fst stod s fuel pos0, parse_value_traced_calls stod s fuel pos0⟩

/-! ## Negative integers -/

section
variable (stod : List Char → Option Double) (fmt : Double → List Char)

/-- C22: for every `Int` below zero the generated text is the canonical decimal text, a
minus sign followed by the decimal text of the absolute value, and `parse` of that text
returns the empty optional. -/
theorem negative_int_not_parsed (n : Int) (h : n < 0) :
    generate fmt (Value.Int n) = decimal n ∧
      generate fmt (Value.Int n) = Char.ofNat 45 :: decimal (-n) ∧
      parser stod (generate fmt (Value.Int n)) = Outcome.missing := by
  have hg : generate fmt (Value.Int n) = decimal n := by
    rw [generate, to_string_eq_decimal]
  have hd : decimal n = Char.ofNat 45 :: decimal (-n) := by
    unfold decimal
    rw [if_pos h, if_neg (by omega), Int.natAbs_neg]
  refine ⟨hg, by rw [hg, hd], ?_⟩
  rw [hg, hd]
  generalize hs : Char.ofNat 45 :: decimal (-n) = s
  have hd0 : s.drop 0 = Char.ofNat 45 :: decimal (-n) := by rw [← hs]; rfl
  have hws : parse_whitespace s 0 = 0 :=
    parse_whitespace_of_stops (by rw [hd0]; exact stops_cons _ (by decide))
  have hnum : parse_number stod s 0 = number_result stod [] (0 + ([] : List Char).length) :=
    @parse_number_of_drop stod s 0 [] (Char.ofNat 45 :: decimal (-n)) hd0 (Nat.zero_le _)
      (fun c hc => by cases hc) (stops_cons _ (by decide))
  have hv : parse_value stod s 1 (parse_whitespace s 0) = Res.ret none 0 := by
    rw [hws, parse_value_at stod s hd0 (by decide), if_neg (by decide), if_neg (by decide),
      if_neg (by decide), if_neg (by decide), if_neg (by decide), if_neg (by decide), hnum]
    rfl
  exact parser_of_none stod s hv

/-- Witness of C22: the tree `Int (-5)` generates `-5`, which `parse` does not read. -/
theorem negative_int_not_parsed_witness :
    generate (fun _ => []) (Value.Int (-5)) = "-5".toList ∧
      parser stod_examples "-5".toList = Outcome.missing := by
  have hg : generate (fun _ => []) (Value.Int (-5)) = "-5".toList := by decide
  have h := (negative_int_not_parsed stod_examples (fun _ => []) (-5) (by decide)).2.2
  rw [hg] at h
  exact ⟨hg, h⟩

end

end json
